import Mathlib

/-!
# Southwest Nigeria railway network optimizer

A shallow embedding of `src/trainstation_network_design.cpp` and a verification of its
Kruskal minimum-spanning-forest builder and its Floyd-Warshall shortest-route table.

Modelling conventions.

* Station indices (`int` in the source, always used as in-range subscripts) are `Nat`.
* The weights handed to `connectStations`, and so the entries of the distance matrix, are
  finite numbers, held as rationals `ℚ` (every finite `double` is a rational number; the
  theorems that need the weights to be `double` values say so).  `INT_MAX` is the number
  `2147483647`.
* What the program computes with `+` on `double` is a `Double`: a finite number, an
  infinity or a NaN.  `Double.add` rounds the exact sum to the nearest binary64 value, a tie
  going to the even significand, and overflows to an infinity; `Double.lt` and
  `Double.equal` are the comparisons `<` and `==`.  The running total of the Kruskal
  builder and the local table of `calculateShortestRoutes` hold such values.
* `vector<T>` is `List T`; `v[i]` is `List.getD` and `v[i] = x` is `List.set`.  The source has
  undefined behaviour for out-of-range subscripts; every theorem below assumes in-range
  indices.
* The recursion of `findStationRoot` is bounded by an explicit `fuel`; `none` stands for a
  recursion that did not come back within the fuel.
* `std::sort` is a parameter of the Kruskal builder: any function returning a permutation
  of its input ordered by the comparator.  `sortLinks` is the stable instance.
* Console output is not modelled, except the value handed to the display routine and the
  running total that the builder prints.  The reads of `station_names` made while printing are
  not part of the embedding: nothing the methods compute or return depends on the names.
-/

namespace Railway

/-! ## Data model -/

/-- The constant `INT_MAX` of `<climits>`, used by the source as the "no route" sentinel. -/
def INT_MAX : ℚ := 2147483647

/-! ## The type `double` -/

/-- A value of the type `double`: a finite number, an infinity, or a NaN. -/
inductive Double where
  | finite (value : ℚ)
  | posInf
  | negInf
  | nan
deriving DecidableEq

/-- Round to the nearest integer, a tie going to the even one. -/
def roundHalfEven (r : ℚ) : ℤ :=
  if r - ⌊r⌋ < 1 / 2 then ⌊r⌋
  else if 1 / 2 < r - ⌊r⌋ then ⌊r⌋ + 1
  else if ⌊r⌋ % 2 = 0 then ⌊r⌋ else ⌊r⌋ + 1

/-- The number of halvings that bring `n` below 2, found in at most `fuel` steps. -/
def halvings : Nat → Nat → Nat
  | 0, _ => 0
  | fuel + 1, n => if 2 ≤ n then halvings fuel (n / 2) + 1 else 0

/-- The exponent `e` with `2 ^ e ≤ |x| < 2 ^ (e + 1)`, for `x` other than 0. -/
def binaryExponent (x : ℚ) : ℤ :=
  if (2 : ℚ) ^ ((halvings x.num.natAbs x.num.natAbs : ℤ) - (halvings x.den x.den : ℤ)) ≤ |x| then
    (halvings x.num.natAbs x.num.natAbs : ℤ) - (halvings x.den x.den : ℤ)
  else (halvings x.num.natAbs x.num.natAbs : ℤ) - (halvings x.den x.den : ℤ) - 1

/-- The spacing of the binary64 values around `x`: 53 significant bits, and the fixed spacing
`2 ^ (-1074)` of the subnormal range below `2 ^ (-1022)`. -/
def quantum (x : ℚ) : ℚ := (2 : ℚ) ^ (max (binaryExponent x) (-1022) - 52)

/-- The `double` nearest to the real number `x` (round to nearest, ties to even); a result
of magnitude `2 ^ 1024` or more is an infinity. -/
def Double.round (x : ℚ) : Double :=
  if x = 0 then Double.finite 0
  else if (2 : ℚ) ^ (1024 : ℤ) ≤ |(roundHalfEven (x / quantum x) : ℚ) * quantum x| then
    if 0 < x then Double.posInf else Double.negInf
  else Double.finite ((roundHalfEven (x / quantum x) : ℚ) * quantum x)

/-- The operator `+` on `double`. -/
def Double.add : Double → Double → Double
  | Double.finite a, Double.finite b => Double.round (a + b)
  | Double.nan, _ => Double.nan
  | _, Double.nan => Double.nan
  | Double.posInf, Double.negInf => Double.nan
  | Double.negInf, Double.posInf => Double.nan
  | Double.posInf, _ => Double.posInf
  | _, Double.posInf => Double.posInf
  | Double.negInf, _ => Double.negInf
  | _, Double.negInf => Double.negInf

/-- The operator `<` on `double`: false as soon as one side is a NaN. -/
def Double.lt : Double → Double → Prop
  | Double.finite a, Double.finite b => a < b
  | Double.finite _, Double.posInf => True
  | Double.negInf, Double.finite _ => True
  | Double.negInf, Double.posInf => True
  | _, _ => False

instance (a b : Double) : Decidable (Double.lt a b) := by
  cases a <;> cases b <;> unfold Double.lt <;> infer_instance

/-- The operator `==` on `double`: a NaN equals nothing; `!=` is its negation. -/
def Double.equal : Double → Double → Prop
  | Double.finite a, Double.finite b => a = b
  | Double.posInf, Double.posInf => True
  | Double.negInf, Double.negInf => True
  | _, _ => False

instance (a b : Double) : Decidable (Double.equal a b) := by
  cases a <;> cases b <;> unfold Double.equal <;> infer_instance

/-- The operator `<=` on `double`. -/
def Double.le (a b : Double) : Prop := Double.lt a b ∨ Double.equal a b

instance (a b : Double) : Decidable (Double.le a b) := by
  unfold Double.le; infer_instance

/-- The struct `RailwayLink` of the source. -/
structure RailwayLink where
  origin_station : Nat
  destination_station : Nat
  track_distance : ℚ
deriving DecidableEq

/-- The private members of `class SouthwestRailwayNetwork`. -/
structure SouthwestRailwayNetwork where
  total_stations : Nat
  station_names : List String
  distance_matrix : List (List ℚ)
  all_railway_links : List RailwayLink
  station_parent : List Nat
  station_rank : List Nat
deriving DecidableEq

/-- The subscript `m[i][j]` on the distance matrix. -/
def getCell (m : List (List ℚ)) (i j : Nat) : ℚ := (m.getD i []).getD j 0

/-- The assignment `m[i][j] = v` on the distance matrix. -/
def setCell (m : List (List ℚ)) (i j : Nat) (v : ℚ) : List (List ℚ) :=
  m.set i ((m.getD i []).set j v)

/-! ## Construction -/

/-- The state after the member initialisers and the three `resize` calls of the constructor. -/
def resized (num_stations : Nat) : SouthwestRailwayNetwork where
  total_stations := num_stations
  station_names := []
  distance_matrix := List.replicate num_stations (List.replicate num_stations INT_MAX)
  all_railway_links := []
  station_parent := List.replicate num_stations 0
  station_rank := List.replicate num_stations 0

/-- The constructor `SouthwestRailwayNetwork(int num_stations)`: after the resizes, the loop
sets `distance_matrix[i][i] = 0` and `station_parent[i] = i` for every `i`. -/
def mkNetwork (num_stations : Nat) : SouthwestRailwayNetwork :=
  (List.range num_stations).foldl
    (fun net i =>
      { net with
        distance_matrix := setCell net.distance_matrix i i 0
        station_parent := net.station_parent.set i i })
    (resized num_stations)

/-- The method `setupNigerianStations()`. -/
def setupNigerianStations (net : SouthwestRailwayNetwork) : SouthwestRailwayNetwork :=
  { net with
    station_names :=
      ["Lagos_Central", "Ibadan_Main", "Abeokuta_Junction",
       "Ilorin_Terminal", "Ogbomoso_Station", "Oshogbo_Hub",
       "Akure_Depot", "Ado_Ekiti_Stop", "Ikeja_Connect",
       "Sagamu_Point", "Oyo_Classic", "Ile_Ife_Heritage"] }

/-- The method `connectStations(station_a, station_b, railway_km)`. -/
def connectStations (net : SouthwestRailwayNetwork) (station_a station_b : Nat)
    (railway_km : ℚ) : SouthwestRailwayNetwork :=
  { net with
    all_railway_links := net.all_railway_links ++ [RailwayLink.mk station_a station_b railway_km]
    distance_matrix :=
      setCell (setCell net.distance_matrix station_a station_b railway_km)
        station_b station_a railway_km }

/-- A network as the claims describe it: the constructor followed by a sequence of
`connectStations` calls, each call given as the link it inserts. -/
def buildNetwork (num_stations : Nat) (calls : List RailwayLink) : SouthwestRailwayNetwork :=
  calls.foldl
    (fun net c => connectStations net c.origin_station c.destination_station c.track_distance)
    (mkNetwork num_stations)

/-! ## Union-find -/

/-- The method `findStationRoot(station)`, with its path compression.  Returns the root and
the state after the call; `none` when the recursion is deeper than `fuel`. -/
def findStationRoot :
    Nat → SouthwestRailwayNetwork → Nat → Option (Nat × SouthwestRailwayNetwork)
  | 0, _, _ => none
  | fuel + 1, net, station =>
    if net.station_parent.getD station 0 ≠ station then
      match findStationRoot fuel net (net.station_parent.getD station 0) with
      | none => none
      | some (root, net1) =>
        let net2 := { net1 with station_parent := net1.station_parent.set station root }
        some (net2.station_parent.getD station 0, net2)
    else
      some (net.station_parent.getD station 0, net)

/-- The method `mergeStationGroups(station_a, station_b)`: two finds, then union by rank. -/
def mergeStationGroups (fuel : Nat) (net : SouthwestRailwayNetwork) (station_a station_b : Nat) :
    Option SouthwestRailwayNetwork :=
  match findStationRoot fuel net station_a with
  | none => none
  | some (root_a, net1) =>
    match findStationRoot fuel net1 station_b with
    | none => none
    | some (root_b, net2) =>
      if net2.station_rank.getD root_a 0 < net2.station_rank.getD root_b 0 then
        some { net2 with station_parent := net2.station_parent.set root_a root_b }
      else if net2.station_rank.getD root_a 0 > net2.station_rank.getD root_b 0 then
        some { net2 with station_parent := net2.station_parent.set root_b root_a }
      else
        some { net2 with
          station_parent := net2.station_parent.set root_b root_a
          station_rank := net2.station_rank.set root_a (net2.station_rank.getD root_a 0 + 1) }

/-! ## Kruskal -/

/-- What `buildOptimalRailwayNetwork` produces: the returned vector, the printed total, and
the object state it leaves behind. -/
structure KruskalOutcome where
  mst_railway_tracks : List RailwayLink
  total_track_length : Double
  network : SouthwestRailwayNetwork

/-- The `for (const auto& link : all_railway_links)` loop of `buildOptimalRailwayNetwork`,
run over the links still to be visited. -/
def kruskalLoop (fuel : Nat) :
    List RailwayLink → SouthwestRailwayNetwork → List RailwayLink → Double →
      Option KruskalOutcome
  | [], net, mst, total => some (KruskalOutcome.mk mst total net)
  | link :: rest, net, mst, total =>
    match findStationRoot fuel net link.origin_station with
    | none => none
    | some (root_origin, net1) =>
      match findStationRoot fuel net1 link.destination_station with
      | none => none
      | some (root_dest, net2) =>
        if root_origin ≠ root_dest then
          match mergeStationGroups fuel net2 link.origin_station link.destination_station with
          | none => none
          | some net3 =>
            kruskalLoop fuel rest net3 (mst ++ [link])
              (Double.add total (Double.finite link.track_distance))
        else
          kruskalLoop fuel rest net2 mst total

/-- The method `buildOptimalRailwayNetwork()`, with `std::sort` as the parameter `sortFn`:
sort the member `all_railway_links` in place, then run the loop. -/
def buildOptimalRailwayNetworkWith (sortFn : List RailwayLink → List RailwayLink) (fuel : Nat)
    (net : SouthwestRailwayNetwork) : Option KruskalOutcome :=
  let sorted := { net with all_railway_links := sortFn net.all_railway_links }
  kruskalLoop fuel sorted.all_railway_links sorted [] (Double.finite 0)

/-- Modelled from the spec: `std::sort` with the comparator `a.track_distance <
b.track_distance` is a library routine outside the repository; the spec asks for a stable
sort that keeps insertion order among equal weights.  Insertion sort is such a sort. -/
def sortLinks (links : List RailwayLink) : List RailwayLink :=
  links.insertionSort (fun a b => a.track_distance ≤ b.track_distance)

/-- The method `buildOptimalRailwayNetwork()` with the stable sort. -/
def buildOptimalRailwayNetwork (fuel : Nat) (net : SouthwestRailwayNetwork) :
    Option KruskalOutcome :=
  buildOptimalRailwayNetworkWith sortLinks fuel net

/-! ## Floyd-Warshall -/

/-- The subscript `t[i][j]` on the local table `shortest_routes`. -/
def getRoute (t : List (List Double)) (i j : Nat) : Double :=
  (t.getD i []).getD j (Double.finite 0)

/-- The assignment `t[i][j] = v` on the local table `shortest_routes`. -/
def setRoute (t : List (List Double)) (i j : Nat) (v : Double) : List (List Double) :=
  t.set i ((t.getD i []).set j v)

/-- The initialisation `shortest_routes = distance_matrix`: a copy of the matrix. -/
def copyMatrix (m : List (List ℚ)) : List (List Double) :=
  m.map (fun row => row.map Double.finite)

/-- The body of the innermost loop of `calculateShortestRoutes`. -/
def relaxCell (transit_station start_station end_station : Nat)
    (shortest_routes : List (List Double)) : List (List Double) :=
  if ¬ Double.equal (getRoute shortest_routes start_station transit_station)
        (Double.finite INT_MAX) ∧
      ¬ Double.equal (getRoute shortest_routes transit_station end_station)
        (Double.finite INT_MAX) then
    let route_via_transit :=
      Double.add (getRoute shortest_routes start_station transit_station)
        (getRoute shortest_routes transit_station end_station)
    if Double.lt route_via_transit (getRoute shortest_routes start_station end_station) then
      setRoute shortest_routes start_station end_station route_via_transit
    else shortest_routes
  else shortest_routes

/-- The loop over `end_station` for fixed `transit_station` and `start_station`. -/
def relaxRow (n transit_station start_station : Nat) (shortest_routes : List (List Double)) :
    List (List Double) :=
  (List.range n).foldl (fun r end_station => relaxCell transit_station start_station end_station r)
    shortest_routes

/-- The loop over `start_station` for a fixed `transit_station`. -/
def relaxTransit (n transit_station : Nat) (shortest_routes : List (List Double)) :
    List (List Double) :=
  (List.range n).foldl (fun r start_station => relaxRow n transit_station start_station r)
    shortest_routes

/-- The triple loop of `calculateShortestRoutes` run on a copy of the distance matrix; the
value is the table handed to `displayShortestDistanceTable`. -/
def calculateShortestRoutes (net : SouthwestRailwayNetwork) : List (List Double) :=
  (List.range net.total_stations).foldl
    (fun r transit_station => relaxTransit net.total_stations transit_station r)
    (copyMatrix net.distance_matrix)

/-- One cell of the printed table: the text `INF` or a distance. -/
inductive DisplayCell where
  | INF
  | km (d : Double)
deriving DecidableEq

/-- The branch of `displayShortestDistanceTable` that renders one entry. -/
def displayCell (x : Double) : DisplayCell :=
  if Double.equal x (Double.finite INT_MAX) then DisplayCell.INF else DisplayCell.km x

/-! ## The two scenarios of the specification -/

/-- Scenario 1: four stations, `connectStations` called with (0,1,10), (1,2,10), (0,2,5),
(2,3,20) in this order. -/
def scenarioOne : SouthwestRailwayNetwork :=
  buildNetwork 4 [⟨0, 1, 10⟩, ⟨1, 2, 10⟩, ⟨0, 2, 5⟩, ⟨2, 3, 20⟩]

/-- Scenario 2: four stations, only `connectStations(0,1,5)` and `connectStations(2,3,5)`. -/
def scenarioTwo : SouthwestRailwayNetwork :=
  buildNetwork 4 [⟨0, 1, 5⟩, ⟨2, 3, 5⟩]

/-! ## A network on which sums are rounded -/

/-- Four stations in a line: `connectStations(0, 1, 0.1)`, `connectStations(1, 2, 0.2)` and
`connectStations(2, 3, 0.3)`, the weights being the `double` values of the three literals. -/
def lineScenario : SouthwestRailwayNetwork :=
  buildNetwork 4
    [⟨0, 1, 3602879701896397 / 36028797018963968⟩, ⟨1, 2, 3602879701896397 / 18014398509481984⟩,
      ⟨2, 3, 5404319552844595 / 18014398509481984⟩]

/-! ## Graph notions used by the claims -/

/-- The link `l` joins the stations `u` and `v`, in either direction. -/
def Joins (l : RailwayLink) (u v : Nat) : Prop :=
  (l.origin_station = u ∧ l.destination_station = v) ∨
    (l.origin_station = v ∧ l.destination_station = u)

/-- Traversing the links of `walk` one after the other leads from `u` to `v`. -/
def IsWalk : List RailwayLink → Nat → Nat → Prop
  | [], u, v => u = v
  | l :: walk, u, v => ∃ x, Joins l u x ∧ IsWalk walk x v

/-- The stations `u` and `v` are joined by a path of links taken from `links`. -/
def Connected (links : List RailwayLink) (u v : Nat) : Prop :=
  ∃ walk : List RailwayLink, (∀ l ∈ walk, l ∈ links) ∧ IsWalk walk u v

/-- The undirected multigraph `links` contains a cycle: a closed walk of at least one link
that uses no link more often than `links` holds it. -/
def HasCycle (links : List RailwayLink) : Prop :=
  ∃ (walk : List RailwayLink) (u : Nat), walk ≠ [] ∧ walk.Subperm links ∧ IsWalk walk u u

/-- The list `reps` holds one station of each connected component of the graph with stations
`0, ..., n - 1` and links `links`. -/
def IsComponentReps (n : Nat) (links : List RailwayLink) (reps : List Nat) : Prop :=
  (∀ r ∈ reps, r < n) ∧ reps.Pairwise (fun r s => ¬ Connected links r s) ∧
    ∀ v, v < n → ∃ r ∈ reps, Connected links v r

/-- The graph with stations `0, ..., n - 1` and links `links` has exactly `k` connected
components. -/
def HasComponents (n : Nat) (links : List RailwayLink) (k : Nat) : Prop :=
  ∃ reps, IsComponentReps n links reps ∧ reps.length = k

/-- The sum of the weights of a list of links. -/
def totalWeight (links : List RailwayLink) : ℚ :=
  (links.map (fun l => l.track_distance)).sum

/-- The running total after the statement `total_track_length += link.track_distance` has
run for the links of `links` in order, starting from `total`. -/
def addLengths (total : Double) (links : List RailwayLink) : Double :=
  links.foldl (fun t l => Double.add t (Double.finite l.track_distance)) total

/-- The contract of `std::sort` with the comparator of the source: the result is a
permutation of the input in which no element is strictly lighter than an earlier one. -/
def IsSortByDistance (sortFn : List RailwayLink → List RailwayLink) : Prop :=
  ∀ links, (sortFn links).Perm links ∧
    (sortFn links).Pairwise (fun a b => a.track_distance ≤ b.track_distance)

/-- The decisions of Kruskal's scan stated on the graph alone: a link is skipped when its ends
are already joined by the links accepted so far, and appended otherwise. -/
inductive KruskalScan : List RailwayLink → List RailwayLink → List RailwayLink → Prop
  | done (acc : List RailwayLink) : KruskalScan [] acc acc
  | skip {l : RailwayLink} {rest acc result : List RailwayLink} :
      Connected acc l.origin_station l.destination_station →
      KruskalScan rest acc result → KruskalScan (l :: rest) acc result
  | take {l : RailwayLink} {rest acc result : List RailwayLink} :
      ¬ Connected acc l.origin_station l.destination_station →
      KruskalScan rest (acc ++ [l]) result → KruskalScan (l :: rest) acc result

/-! ## Notions used to reason about the union-find arrays -/

/-- Follow the parent links from `x`, at most `fuel` times, without rewriting any of them. -/
def rootFrom (parent : List Nat) : Nat → Nat → Nat
  | 0, x => x
  | fuel + 1, x =>
    if parent.getD x 0 = x then x else rootFrom parent fuel (parent.getD x 0)

/-- The representative of the set of `x`: the station reached by following the parent links
from `x` as many times as there are stations. -/
def rootOf (parent : List Nat) (x : Nat) : Nat := rootFrom parent parent.length x

/-- Every parent link is in range, and `height` strictly decreases along every link that is
not a self-loop. -/
def Ranked (parent : List Nat) (height : Nat → Nat) : Prop :=
  ∀ x, x < parent.length →
    parent.getD x 0 < parent.length ∧ (parent.getD x 0 ≠ x → height (parent.getD x 0) < height x)

/-- The parent array is well formed: links are in range and acyclic apart from the self-loops
at the roots. -/
def WellFormedParents (parent : List Nat) : Prop :=
  ∃ height : Nat → Nat, (∀ x, x < parent.length → height x < parent.length) ∧ Ranked parent height

/-! ## Notions used to reason about the tables -/

/-- The table has `n` rows of `n` entries. -/
def IsSquare (n : Nat) (m : List (List ℚ)) : Prop :=
  m.length = n ∧ ∀ row ∈ m, row.length = n

/-- The value the innermost loop body with the exact sum leaves in the cell it visits:
`viaStart` and `viaEnd` are the two legs through the transit station, `direct` the value
already in the cell. -/
def idealRelaxValue (viaStart viaEnd direct : ℚ) : ℚ :=
  if viaStart ≠ INT_MAX ∧ viaEnd ≠ INT_MAX then
    if viaStart + viaEnd < direct then viaStart + viaEnd else direct
  else direct

/-! ## The table in exact arithmetic

The same triple loop with the exact sum in the place of the rounded one.  It is a yardstick
for the proofs: on weights whose sums are exact the program computes this table. -/

/-- The body of the innermost loop, with the exact sum. -/
def idealRelaxCell (transit_station start_station end_station : Nat) (shortest_routes : List (List ℚ)) :
    List (List ℚ) :=
  if getCell shortest_routes start_station transit_station ≠ INT_MAX ∧
      getCell shortest_routes transit_station end_station ≠ INT_MAX then
    let route_via_transit :=
      getCell shortest_routes start_station transit_station +
        getCell shortest_routes transit_station end_station
    if route_via_transit < getCell shortest_routes start_station end_station then
      setCell shortest_routes start_station end_station route_via_transit
    else shortest_routes
  else shortest_routes

/-- The loop over `end_station` for fixed `transit_station` and `start_station`. -/
def idealRelaxRow (n transit_station start_station : Nat) (shortest_routes : List (List ℚ)) :
    List (List ℚ) :=
  (List.range n).foldl (fun r end_station => idealRelaxCell transit_station start_station end_station r)
    shortest_routes

/-- The loop over `start_station` for a fixed `transit_station`. -/
def idealRelaxTransit (n transit_station : Nat) (shortest_routes : List (List ℚ)) : List (List ℚ) :=
  (List.range n).foldl (fun r start_station => idealRelaxRow n transit_station start_station r)
    shortest_routes

/-- The triple loop with exact sums, run on the distance matrix. -/
def idealShortestRoutes (net : SouthwestRailwayNetwork) : List (List ℚ) :=
  (List.range net.total_stations).foldl
    (fun r transit_station => idealRelaxTransit net.total_stations transit_station r)
    net.distance_matrix

/-! ## Routes and the calls the claims admit -/

/-- Starting at `u` and visiting the stations of `route` in order, every step goes along a
link of `links`, and the last station is `v`. -/
def IsRoute (links : List RailwayLink) : List Nat → Nat → Nat → Prop
  | [], u, v => u = v
  | x :: route, u, v => (∃ l ∈ links, Joins l u x) ∧ IsRoute links route x v

/-- The sum of the matrix weights along the route that starts at `u`. -/
def routeLength (m : List (List ℚ)) : List Nat → Nat → ℚ
  | [], _ => 0
  | x :: route, u => getCell m u x + routeLength m route x

/-- The links `l` and `e` join the same two stations. -/
def SamePair (l e : RailwayLink) : Prop :=
  (l.origin_station = e.origin_station ∧ l.destination_station = e.destination_station) ∨
    (l.origin_station = e.destination_station ∧ l.destination_station = e.origin_station)

instance (l e : RailwayLink) : Decidable (SamePair l e) := by
  unfold SamePair; infer_instance

/-- The links whose weight is still in the distance matrix: those not followed by a later link
between the same two stations. -/
def lastWritten : List RailwayLink → List RailwayLink
  | [] => []
  | c :: rest => if ∃ l ∈ rest, SamePair l c then lastWritten rest else c :: lastWritten rest

/-- The `connectStations` calls the claims speak of: indices in `[0, n)` and a non-negative
weight. -/
def ValidCalls (n : Nat) (calls : List RailwayLink) : Prop :=
  ∀ c ∈ calls, c.origin_station < n ∧ c.destination_station < n ∧ 0 ≤ c.track_distance

/-! ## Notions used to reason about `double` values and the table of the program -/

/-- The non-negative number `x` is `n * 2 ^ c` with `n` of at most 53 bits and `c` an
exponent of the `double` format. -/
def HasDoubleForm (x : ℚ) : Prop :=
  ∃ (n : ℕ) (c : ℤ), n < 2 ^ 53 ∧ -1074 ≤ c ∧ c ≤ 971 ∧ x = (n : ℚ) * (2 : ℚ) ^ c

/-- The number is a value of the type `double`: rounding leaves it as it is. -/
def IsDouble (x : ℚ) : Prop := Double.round x = Double.finite x

instance (x : ℚ) : Decidable (IsDouble x) := by
  unfold IsDouble; infer_instance

/-- The number has at most 21 binary places: it is a whole number of units of `2 ^ (-21)`,
as every whole number is. -/
def OnGrid (x : ℚ) : Prop := (x * 2097152).den = 1

instance (x : ℚ) : Decidable (OnGrid x) := by
  unfold OnGrid; infer_instance

/-- A finite, non-negative value of the type `double`. -/
def IsDistance (x : Double) : Prop := ∃ q, x = Double.finite q ∧ 0 ≤ q ∧ HasDoubleForm q

/-- The local table has `n` rows of `n` entries. -/
def IsSquareTable (n : Nat) (t : List (List Double)) : Prop :=
  t.length = n ∧ ∀ row ∈ t, row.length = n

/-- The value the innermost loop body of `calculateShortestRoutes` leaves in the cell it
visits: `viaStart` and `viaEnd` are the two legs through the transit station, `direct` the
value already in the cell. -/
def relaxValue (viaStart viaEnd direct : Double) : Double :=
  if ¬ Double.equal viaStart (Double.finite INT_MAX) ∧
      ¬ Double.equal viaEnd (Double.finite INT_MAX) then
    if Double.lt (Double.add viaStart viaEnd) direct then Double.add viaStart viaEnd
    else direct
  else direct

/-- An entry whose sums with another such entry are exact in `double`: between 0 and the
sentinel, with at most 21 binary places. -/
def IsExactEntry (x : ℚ) : Prop := OnGrid x ∧ 0 ≤ x ∧ x ≤ INT_MAX

/-- The local table `T` of the program holds the numbers of the table `t`, and these are
exact entries. -/
def TablesAgree (T : List (List Double)) (t : List (List ℚ)) : Prop :=
  T = copyMatrix t ∧ ∀ a b, IsExactEntry (getCell t a b)
/-! ## Union-find states as the claims describe them -/

/-- The station reached from `x` by following `k` parent links. -/
def parentIter (parent : List Nat) : Nat → Nat → Nat
  | 0, x => x
  | k + 1, x => parentIter parent k (parent.getD x 0)

/-- The station `r` is a self-parented root. -/
def IsRoot (parent : List Nat) (r : Nat) : Prop := parent.getD r 0 = r

instance (parent : List Nat) (r : Nat) : Decidable (IsRoot parent r) := by
  unfold IsRoot; infer_instance

/-- The station `r` is the self-parented root reached from `t` by following parent links. -/
def ReachesRootAt (parent : List Nat) (t r : Nat) : Prop :=
  IsRoot parent r ∧ ∃ k, parentIter parent k t = r

/-- A well-formed union-find state on `n` stations: both arrays have `n` entries, every parent
link is in range, and following the parent links from any station reaches a self-parented
root. -/
def UnionFindWellFormed (n : Nat) (net : SouthwestRailwayNetwork) : Prop :=
  net.station_parent.length = n ∧ net.station_rank.length = n ∧
    ∀ x, x < n → net.station_parent.getD x 0 < n ∧
      ∃ k, IsRoot net.station_parent (parentIter net.station_parent k x)

/-- The states reached from the constructor by calls of `findStationRoot` and
`mergeStationGroups` with in-range stations, each call having come back. -/
inductive ReachableByUnionFind (n : Nat) : SouthwestRailwayNetwork → Prop
  | construct : ReachableByUnionFind n (mkNetwork n)
  | find {net net' : SouthwestRailwayNetwork} {fuel station root : Nat} :
      ReachableByUnionFind n net → station < n →
      findStationRoot fuel net station = some (root, net') → ReachableByUnionFind n net'
  | merge {net net' : SouthwestRailwayNetwork} {fuel station_a station_b : Nat} :
      ReachableByUnionFind n net → station_a < n → station_b < n →
      mergeStationGroups fuel net station_a station_b = some net' → ReachableByUnionFind n net'

/-- A union-find state on three stations with the chain 0 -> 1 -> 2 and the root 2. -/
def chainState : SouthwestRailwayNetwork :=
  { mkNetwork 3 with station_parent := [1, 2, 2], station_rank := [0, 1, 2] }

/-! ## The run of `calculateShortestRoutes` as a state transformer -/

/-- The state during a call of `calculateShortestRoutes`: the object and the local variable
`shortest_routes`. -/
structure RoutesRun where
  network : SouthwestRailwayNetwork
  shortest_routes : List (List Double)

/-- The body of the innermost loop as a step on the state of the call: it assigns to the
local variable only. -/
def relaxCellRun (transit_station start_station end_station : Nat) (s : RoutesRun) : RoutesRun :=
  { s with
    shortest_routes := relaxCell transit_station start_station end_station s.shortest_routes }

/-- The method `calculateShortestRoutes()` as a run on the state of the call: the local
variable starts as a copy of the member `distance_matrix`, and the three loops read their
bound `total_stations` from the object. -/
def calculateShortestRoutesRun (net : SouthwestRailwayNetwork) : RoutesRun :=
  (List.range net.total_stations).foldl
    (fun s transit_station =>
      (List.range s.network.total_stations).foldl
        (fun s start_station =>
          (List.range s.network.total_stations).foldl
            (fun s end_station => relaxCellRun transit_station start_station end_station s) s)
        s)
    (RoutesRun.mk net (copyMatrix net.distance_matrix))

/-- The state after `mergeStationGroups(0, 1)` on a fresh network of three stations. -/
def mergedState : SouthwestRailwayNetwork :=
  { mkNetwork 3 with station_parent := [0, 0, 2], station_rank := [1, 0, 0] }

/-! ## Fuel -/

theorem findStationRoot_fuel_mono {fuel fuel' : Nat} (hle : fuel ≤ fuel') :
    ∀ {net : SouthwestRailwayNetwork} {station : Nat} {out : Nat × SouthwestRailwayNetwork},
      findStationRoot fuel net station = some out →
      findStationRoot fuel' net station = some out := by
  induction fuel generalizing fuel' with
  | zero => intro net station out h; simp [findStationRoot] at h
  | succ f ih =>
    intro net station out h
    obtain ⟨g, rfl⟩ : ∃ g, fuel' = g + 1 := ⟨fuel' - 1, by omega⟩
    have hfg : f ≤ g := by omega
    unfold findStationRoot at h ⊢
    by_cases hne : net.station_parent.getD station 0 ≠ station
    · rw [if_pos hne] at h ⊢
      cases hrec : findStationRoot f net (net.station_parent.getD station 0) with
      | none => rw [hrec] at h; exact absurd h (by simp)
      | some p =>
        rw [hrec] at h
        rw [ih hfg hrec]
        exact h
    · rw [if_neg hne] at h ⊢
      exact h

theorem mergeStationGroups_fuel_mono {fuel fuel' : Nat} (hle : fuel ≤ fuel')
    {net : SouthwestRailwayNetwork} {a b : Nat} {out : SouthwestRailwayNetwork}
    (h : mergeStationGroups fuel net a b = some out) :
    mergeStationGroups fuel' net a b = some out := by
  unfold mergeStationGroups at h ⊢
  cases h1 : findStationRoot fuel net a with
  | none => rw [h1] at h; exact absurd h (by simp)
  | some p1 =>
    obtain ⟨ra, n1⟩ := p1
    rw [h1] at h
    rw [findStationRoot_fuel_mono hle h1]
    simp only at h ⊢
    cases h2 : findStationRoot fuel n1 b with
    | none => rw [h2] at h; exact absurd h (by simp)
    | some p2 =>
      obtain ⟨rb, n2⟩ := p2
      rw [h2] at h
      rw [findStationRoot_fuel_mono hle h2]
      exact h

theorem kruskalLoop_fuel_mono {fuel fuel' : Nat} (hle : fuel ≤ fuel') :
    ∀ (links : List RailwayLink) {net : SouthwestRailwayNetwork} {mst : List RailwayLink}
      {total : Double} {out : KruskalOutcome},
      kruskalLoop fuel links net mst total = some out →
      kruskalLoop fuel' links net mst total = some out := by
  intro links
  induction links with
  | nil => intro net mst total out h; simpa [kruskalLoop] using h
  | cons link rest ih =>
    intro net mst total out h
    unfold kruskalLoop at h ⊢
    cases h1 : findStationRoot fuel net link.origin_station with
    | none => rw [h1] at h; exact absurd h (by simp)
    | some p1 =>
      obtain ⟨ra, n1⟩ := p1
      rw [h1] at h
      rw [findStationRoot_fuel_mono hle h1]
      simp only at h ⊢
      cases h2 : findStationRoot fuel n1 link.destination_station with
      | none => rw [h2] at h; exact absurd h (by simp)
      | some p2 =>
        obtain ⟨rb, n2⟩ := p2
        rw [h2] at h
        rw [findStationRoot_fuel_mono hle h2]
        simp only at h ⊢
        by_cases hr : ra ≠ rb
        · rw [if_pos hr] at h ⊢
          cases h3 : mergeStationGroups fuel n2 link.origin_station link.destination_station with
          | none => rw [h3] at h; exact absurd h (by simp)
          | some n3 =>
            rw [h3] at h
            rw [mergeStationGroups_fuel_mono hle h3]
            exact ih h
        · rw [if_neg hr] at h ⊢
          exact ih h

theorem buildOptimalRailwayNetworkWith_fuel_mono {fuel fuel' : Nat} (hle : fuel ≤ fuel')
    {sortFn : List RailwayLink → List RailwayLink}
    {net : SouthwestRailwayNetwork} {out : KruskalOutcome}
    (h : buildOptimalRailwayNetworkWith sortFn fuel net = some out) :
    buildOptimalRailwayNetworkWith sortFn fuel' net = some out :=
  kruskalLoop_fuel_mono hle _ h
/-! ## Walks and connectivity -/

theorem joins_symm {l : RailwayLink} {u v : Nat} (h : Joins l u v) : Joins l v u :=
  h.elim Or.inr Or.inl

theorem joins_ends (l : RailwayLink) : Joins l l.origin_station l.destination_station :=
  Or.inl ⟨rfl, rfl⟩

theorem isWalk_append {w1 w2 : List RailwayLink} {u v : Nat} :
    IsWalk (w1 ++ w2) u v ↔ ∃ x, IsWalk w1 u x ∧ IsWalk w2 x v := by
  induction w1 generalizing u with
  | nil => simp [IsWalk]
  | cons l w1 ih =>
    show (∃ x, Joins l u x ∧ IsWalk (w1 ++ w2) x v) ↔ _
    constructor
    · rintro ⟨x, hj, h⟩
      obtain ⟨y, h1, h2⟩ := ih.mp h
      exact ⟨y, ⟨x, hj, h1⟩, h2⟩
    · rintro ⟨y, ⟨x, hj, h1⟩, h2⟩
      exact ⟨x, hj, ih.mpr ⟨y, h1, h2⟩⟩

theorem isWalk_reverse {w : List RailwayLink} {u v : Nat} (h : IsWalk w u v) :
    IsWalk w.reverse v u := by
  induction w generalizing u with
  | nil => simpa [IsWalk] using h.symm
  | cons l w ih =>
    obtain ⟨x, hj, hw⟩ := h
    rw [List.reverse_cons, isWalk_append]
    exact ⟨x, ih hw, u, joins_symm hj, rfl⟩

theorem connected_refl (links : List RailwayLink) (u : Nat) : Connected links u u :=
  ⟨[], by simp, rfl⟩

theorem connected_symm {links : List RailwayLink} {u v : Nat} (h : Connected links u v) :
    Connected links v u := by
  obtain ⟨w, hw, hwalk⟩ := h
  exact ⟨w.reverse, fun l hl => hw l (List.mem_reverse.mp hl), isWalk_reverse hwalk⟩

theorem connected_trans {links : List RailwayLink} {u v x : Nat}
    (h1 : Connected links u v) (h2 : Connected links v x) : Connected links u x := by
  obtain ⟨w1, hw1, hwalk1⟩ := h1
  obtain ⟨w2, hw2, hwalk2⟩ := h2
  refine ⟨w1 ++ w2, ?_, isWalk_append.mpr ⟨v, hwalk1, hwalk2⟩⟩
  intro l hl
  rcases List.mem_append.mp hl with h | h
  · exact hw1 l h
  · exact hw2 l h

theorem connected_of_joins {links : List RailwayLink} {l : RailwayLink} {u v : Nat}
    (hl : l ∈ links) (hj : Joins l u v) : Connected links u v :=
  ⟨[l], by simpa using hl, v, hj, rfl⟩

theorem connected_of_mem {links : List RailwayLink} {l : RailwayLink} (hl : l ∈ links) :
    Connected links l.origin_station l.destination_station :=
  connected_of_joins hl (joins_ends l)

/-- Connectivity is the least equivalence that relates the two ends of every link. -/
theorem connected_induction {links : List RailwayLink} {R : Nat → Nat → Prop}
    (hrefl : ∀ u, R u u) (hsymm : ∀ u v, R u v → R v u) (htrans : ∀ u v x, R u v → R v x → R u x)
    (hlinks : ∀ l ∈ links, R l.origin_station l.destination_station)
    {u v : Nat} (h : Connected links u v) : R u v := by
  obtain ⟨w, hw, hwalk⟩ := h
  induction w generalizing u with
  | nil => rw [show u = v from hwalk]; exact hrefl v
  | cons l w ih =>
    obtain ⟨x, hj, hrest⟩ := hwalk
    have hlx : R u x := by
      have hl := hlinks l (hw l (List.mem_cons_self _ _))
      rcases hj with ⟨h1, h2⟩ | ⟨h1, h2⟩
      · rw [← h1, ← h2]; exact hl
      · rw [← h1, ← h2]; exact hsymm _ _ hl
    exact htrans _ _ _ hlx (ih (fun l' hl' => hw l' (List.mem_cons_of_mem _ hl')) hrest)

theorem connected_of_links_connected {links links' : List RailwayLink}
    (h : ∀ l ∈ links, Connected links' l.origin_station l.destination_station)
    {u v : Nat} (huv : Connected links u v) : Connected links' u v :=
  connected_induction (connected_refl links') (fun _ _ => connected_symm)
    (fun _ _ _ => connected_trans) h huv

theorem connected_mono {links links' : List RailwayLink} (h : ∀ l ∈ links, l ∈ links')
    {u v : Nat} (huv : Connected links u v) : Connected links' u v :=
  connected_of_links_connected (fun l hl => connected_of_mem (h l hl)) huv

theorem connected_nil {u v : Nat} (h : Connected [] u v) : u = v := by
  obtain ⟨w, hw, hwalk⟩ := h
  cases w with
  | nil => exact hwalk
  | cons l w => exact absurd (hw l (List.mem_cons_self _ _)) (List.not_mem_nil l)

/-- Adding one link `l` joins exactly the pairs that were joined before or can be joined by
going to one end of `l`, across `l`, and on from its other end. -/
theorem connected_cons {l : RailwayLink} {links : List RailwayLink} {u v : Nat} :
    Connected (l :: links) u v ↔
      Connected links u v ∨
      (Connected links u l.origin_station ∧ Connected links l.destination_station v) ∨
      (Connected links u l.destination_station ∧ Connected links l.origin_station v) := by
  constructor
  · rintro ⟨w, hw, hwalk⟩
    induction w generalizing u with
    | nil => rw [show u = v from hwalk]; exact Or.inl (connected_refl _ _)
    | cons e w ih =>
      obtain ⟨x, hj, hrest⟩ := hwalk
      have hx := ih (fun l' hl' => hw l' (List.mem_cons_of_mem _ hl')) hrest
      rcases List.mem_cons.mp (hw e (List.mem_cons_self _ _)) with he | he
      · subst he
        rcases hj with ⟨h1, h2⟩ | ⟨h1, h2⟩
        · subst h1 h2
          rcases hx with hx | ⟨_, hx2⟩ | ⟨_, hx2⟩
          · exact Or.inr (Or.inl ⟨connected_refl _ _, hx⟩)
          · exact Or.inr (Or.inl ⟨connected_refl _ _, hx2⟩)
          · exact Or.inl hx2
        · subst h1 h2
          rcases hx with hx | ⟨_, hx2⟩ | ⟨_, hx2⟩
          · exact Or.inr (Or.inr ⟨connected_refl _ _, hx⟩)
          · exact Or.inl hx2
          · exact Or.inr (Or.inr ⟨connected_refl _ _, hx2⟩)
      · have hux : Connected links u x := connected_of_joins he hj
        rcases hx with hx | ⟨hx1, hx2⟩ | ⟨hx1, hx2⟩
        · exact Or.inl (connected_trans hux hx)
        · exact Or.inr (Or.inl ⟨connected_trans hux hx1, hx2⟩)
        · exact Or.inr (Or.inr ⟨connected_trans hux hx1, hx2⟩)
  · have hmono : ∀ {a b}, Connected links a b → Connected (l :: links) a b :=
      fun h => connected_mono (fun e he => List.mem_cons_of_mem _ he) h
    have hl : Connected (l :: links) l.origin_station l.destination_station :=
      connected_of_mem (List.mem_cons_self _ _)
    rintro (h | ⟨h1, h2⟩ | ⟨h1, h2⟩)
    · exact hmono h
    · exact connected_trans (hmono h1) (connected_trans hl (hmono h2))
    · exact connected_trans (hmono h1) (connected_trans (connected_symm hl) (hmono h2))

/-! ## Cycles -/

theorem connected_to_walk_link {links w : List RailwayLink} (hw : ∀ l ∈ w, l ∈ links)
    {u v : Nat} (h : IsWalk w u v) {e : RailwayLink} (he : e ∈ w) :
    Connected links u e.origin_station := by
  obtain ⟨w1, w2, rfl⟩ := List.append_of_mem he
  obtain ⟨x, h1, y, hj, _⟩ := isWalk_append.mp h
  have hux : Connected links u x :=
    ⟨w1, fun l hl => hw l (List.mem_append_left _ hl), h1⟩
  rcases hj with ⟨ha, _⟩ | ⟨ha, hb⟩
  · rw [ha]; exact hux
  · rw [ha]; exact connected_trans hux (connected_of_joins (hw e he) (Or.inr ⟨ha, hb⟩))

theorem subperm_append_of_disjoint {w1 w2 links : List RailwayLink}
    (h1 : w1.Subperm links) (h2 : w2.Subperm links) (hd : ∀ e, e ∈ w1 → e ∈ w2 → False) :
    (w1 ++ w2).Subperm links := by
  rw [List.subperm_ext_iff] at h1 h2 ⊢
  intro x hx
  rw [List.count_append]
  by_cases hx1 : x ∈ w1
  · have hx2 : x ∉ w2 := fun h => hd x hx1 h
    rw [List.count_eq_zero_of_not_mem hx2]
    exact h1 x hx1
  · have hx2 : x ∈ w2 := (List.mem_append.mp hx).resolve_left hx1
    rw [List.count_eq_zero_of_not_mem hx1, Nat.zero_add]
    exact h2 x hx2

/-- Two distinct stations that are joined are joined by a walk that uses no link more often
than the list holds it. -/
theorem exists_trail {links : List RailwayLink} :
    ∀ {u v : Nat}, Connected links u v → u ≠ v →
      ∃ w : List RailwayLink, w.Subperm links ∧ IsWalk w u v := by
  induction links with
  | nil => intro u v h hne; exact absurd (connected_nil h) hne
  | cons l L ih =>
    intro u v h hne
    have ih' : ∀ a b : Nat, Connected L a b → ∃ w : List RailwayLink, w.Subperm L ∧ IsWalk w a b := by
      intro a b hab
      by_cases hEq : a = b
      · exact ⟨[], List.nil_subperm, hEq⟩
      · exact ih hab hEq
    have hup : ∀ {w : List RailwayLink}, w.Subperm L → w.Subperm (l :: L) :=
      fun hw => hw.trans (List.sublist_cons_self l L).subperm
    by_cases hL : Connected L u v
    · obtain ⟨w, hw, hwalk⟩ := ih hL hne
      exact ⟨w, hup hw, hwalk⟩
    · have key : ∀ a b : Nat, Joins l a b → Connected L u a → Connected L b v →
          ∃ w : List RailwayLink, w.Subperm (l :: L) ∧ IsWalk w u v := by
        intro a b hj hua hbv
        obtain ⟨w1, hw1, hwalk1⟩ := ih' u a hua
        obtain ⟨w2, hw2, hwalk2⟩ := ih' b v hbv
        refine ⟨w1 ++ l :: w2, ?_, isWalk_append.mpr ⟨a, hwalk1, b, hj, hwalk2⟩⟩
        refine List.Subperm.trans (List.perm_middle).subperm ((List.subperm_cons l).mpr ?_)
        refine subperm_append_of_disjoint hw1 hw2 ?_
        intro e he1 he2
        have c1 : Connected L u e.origin_station :=
          connected_to_walk_link (fun x hx => hw1.subset hx) hwalk1 he1
        have c2 : Connected L b e.origin_station :=
          connected_to_walk_link (fun x hx => hw2.subset hx) hwalk2 he2
        exact hL (connected_trans c1 (connected_trans (connected_symm c2) hbv))
      rcases connected_cons.mp h with h0 | ⟨h1, h2⟩ | ⟨h1, h2⟩
      · exact absurd h0 hL
      · exact key _ _ (joins_ends l) h1 h2
      · exact key _ _ (joins_symm (joins_ends l)) h1 h2

theorem hasCycle_of_subperm {links links' : List RailwayLink} (hsub : links.Subperm links')
    (h : HasCycle links) : HasCycle links' := by
  obtain ⟨w, u, hne, hw, hwalk⟩ := h
  exact ⟨w, u, hne, hw.trans hsub, hwalk⟩

theorem hasCycle_perm {links links' : List RailwayLink} (hp : links.Perm links') :
    HasCycle links ↔ HasCycle links' :=
  ⟨hasCycle_of_subperm hp.subperm, hasCycle_of_subperm hp.symm.subperm⟩

/-- A link whose ends are already joined closes a cycle. -/
theorem hasCycle_cons_of_connected {l : RailwayLink} {links : List RailwayLink}
    (h : Connected links l.origin_station l.destination_station) : HasCycle (l :: links) := by
  by_cases hEq : l.origin_station = l.destination_station
  · refine ⟨[l], l.origin_station, by simp, ?_, l.destination_station, joins_ends l, hEq.symm⟩
    exact (List.singleton_sublist.mpr (List.mem_cons_self _ _)).subperm
  · obtain ⟨w, hw, hwalk⟩ := exists_trail (connected_symm h) (Ne.symm hEq)
    exact ⟨l :: w, l.origin_station, by simp, (List.subperm_cons l).mpr hw,
      l.destination_station, joins_ends l, hwalk⟩

/-- A link whose ends are not yet joined closes no cycle. -/
theorem not_hasCycle_cons {l : RailwayLink} {links : List RailwayLink}
    (hacyc : ¬ HasCycle links)
    (hnc : ¬ Connected links l.origin_station l.destination_station) :
    ¬ HasCycle (l :: links) := by
  rintro ⟨w, u, hne, hw, hwalk⟩
  have hlL : l ∉ links := fun hl => hnc (connected_of_mem hl)
  by_cases hl : l ∈ w
  · obtain ⟨w1, w2, rfl⟩ := List.append_of_mem hl
    have hcount := (List.subperm_ext_iff.mp hw) l hl
    rw [List.count_append, List.count_cons_self, List.count_cons_self,
      List.count_eq_zero_of_not_mem hlL] at hcount
    have hl1 : l ∉ w1 := fun h => by
      have := List.count_pos_iff.mpr h
      omega
    have hl2 : l ∉ w2 := fun h => by
      have := List.count_pos_iff.mpr h
      omega
    have hin : ∀ e, e ∈ w1 ∨ e ∈ w2 → e ∈ links := by
      intro e he
      have hmem : e ∈ l :: links := by
        apply hw.subset
        rcases he with he | he
        · exact List.mem_append_left _ he
        · exact List.mem_append_right _ (List.mem_cons_of_mem _ he)
      rcases List.mem_cons.mp hmem with hEq | hmem
      · subst hEq
        rcases he with he | he
        · exact absurd he hl1
        · exact absurd he hl2
      · exact hmem
    obtain ⟨x, h1, y, hj, h2⟩ := isWalk_append.mp hwalk
    have cux : Connected links u x := ⟨w1, fun e he => hin e (Or.inl he), h1⟩
    have cyu : Connected links y u := ⟨w2, fun e he => hin e (Or.inr he), h2⟩
    have cyx : Connected links y x := connected_trans cyu cux
    rcases hj with ⟨ha, hb⟩ | ⟨ha, hb⟩
    · rw [ha, hb] at hnc; exact hnc (connected_symm cyx)
    · rw [ha, hb] at hnc; exact hnc cyx
  · apply hacyc
    refine ⟨w, u, hne, ?_, hwalk⟩
    rw [List.subperm_ext_iff] at hw ⊢
    intro x hx
    have hxl : x ≠ l := fun h => hl (h ▸ hx)
    have := hw x hx
    rwa [List.count_cons_of_ne hxl] at this

theorem not_hasCycle_nil : ¬ HasCycle [] := by
  rintro ⟨w, u, hne, hw, -⟩
  exact hne (List.eq_nil_of_subset_nil hw.subset)

theorem not_hasCycle_cons_iff {l : RailwayLink} {links : List RailwayLink} :
    ¬ HasCycle (l :: links) ↔
      ¬ HasCycle links ∧ ¬ Connected links l.origin_station l.destination_station :=
  ⟨fun h => ⟨fun hc => h (hasCycle_of_subperm (List.sublist_cons_self l links).subperm hc),
      fun hc => h (hasCycle_cons_of_connected hc)⟩,
    fun h => not_hasCycle_cons h.1 h.2⟩

/-! ## Counting components -/

theorem connected_cons_joins {l : RailwayLink} {links : List RailwayLink} {x y : Nat}
    (hj : Joins l x y) {u v : Nat} :
    Connected (l :: links) u v ↔
      Connected links u v ∨ (Connected links u x ∧ Connected links y v) ∨
        (Connected links u y ∧ Connected links x v) := by
  rw [connected_cons]
  rcases hj with ⟨ha, hb⟩ | ⟨ha, hb⟩
  · rw [ha, hb]
  · rw [ha, hb]
    constructor
    · rintro (h | h | h)
      · exact Or.inl h
      · exact Or.inr (Or.inr h)
      · exact Or.inr (Or.inl h)
    · rintro (h | h | h)
      · exact Or.inl h
      · exact Or.inr (Or.inr h)
      · exact Or.inr (Or.inl h)

theorem reps_eq_of_connected {n : Nat} {links : List RailwayLink} {reps : List Nat}
    (h : IsComponentReps n links reps) {r s : Nat} (hr : r ∈ reps) (hs : s ∈ reps)
    (hc : Connected links r s) : r = s := by
  by_contra hne
  have hsymm : Symmetric (fun r s : Nat => ¬ Connected links r s) :=
    fun a b hab hba => hab (connected_symm hba)
  exact h.2.1.forall hsymm hr hs hne hc

theorem componentReps_nil_length {n : Nat} {reps : List Nat}
    (h : IsComponentReps n [] reps) : reps.length = n := by
  have hnodup : reps.Nodup := by
    refine List.Pairwise.imp ?_ h.2.1
    intro a b hab hEq
    exact hab (hEq ▸ connected_refl [] a)
  have hperm : reps.Perm (List.range n) := by
    rw [List.perm_ext_iff_of_nodup hnodup (List.nodup_range n)]
    intro a
    rw [List.mem_range]
    constructor
    · exact h.1 a
    · intro ha
      obtain ⟨r, hr, hc⟩ := h.2.2 a ha
      rw [connected_nil hc]; exact hr
  rw [hperm.length_eq, List.length_range]

/-- Taking away a link whose ends are otherwise not joined splits one component in two. -/
theorem componentReps_uncons {n : Nat} {l : RailwayLink} {links : List RailwayLink}
    {reps : List Nat} (h : IsComponentReps n (l :: links) reps)
    (hnc : ¬ Connected links l.origin_station l.destination_station)
    (ha : l.origin_station < n) (hb : l.destination_station < n) :
    ∃ reps', IsComponentReps n links reps' ∧ reps'.length = reps.length + 1 := by
  have hmono : ∀ {a b : Nat}, Connected links a b → Connected (l :: links) a b :=
    fun h => connected_mono (fun e he => List.mem_cons_of_mem _ he) h
  have key : ∀ x y r0 : Nat, Joins l x y → ¬ Connected links x y → y < n → r0 ∈ reps →
      Connected links x r0 → IsComponentReps n links (y :: reps) := by
    intro x y r0 hj hxy hy hr0 hxr0
    have hedge : Connected (l :: links) x y := connected_of_joins (List.mem_cons_self _ _) hj
    refine ⟨?_, ?_, ?_⟩
    · intro r hr
      rcases List.mem_cons.mp hr with hr | hr
      · rw [hr]; exact hy
      · exact h.1 r hr
    · rw [List.pairwise_cons]
      refine ⟨?_, List.Pairwise.imp (fun hab hc => hab (hmono hc)) h.2.1⟩
      intro r hr hyr
      have hrr0 : Connected (l :: links) r r0 :=
        connected_trans (connected_symm (hmono hyr))
          (connected_trans (connected_symm hedge) (hmono hxr0))
      have : r = r0 := reps_eq_of_connected h hr hr0 hrr0
      rw [this] at hyr
      exact hxy (connected_trans hxr0 (connected_symm hyr))
    · intro v hv
      obtain ⟨r, hr, hc⟩ := h.2.2 v hv
      rcases (connected_cons_joins hj).mp hc with h0 | ⟨_, h2⟩ | ⟨h1, _⟩
      · exact ⟨r, List.mem_cons_of_mem _ hr, h0⟩
      · exfalso
        have hrr0 : Connected (l :: links) r r0 :=
          connected_trans (connected_symm (hmono h2))
            (connected_trans (connected_symm hedge) (hmono hxr0))
        have : r = r0 := reps_eq_of_connected h hr hr0 hrr0
        rw [this] at h2
        exact hxy (connected_trans hxr0 (connected_symm h2))
      · exact ⟨y, List.mem_cons_self _ _, h1⟩
  obtain ⟨r0, hr0, hc0⟩ := h.2.2 _ ha
  rcases connected_cons.mp hc0 with h0 | ⟨_, h2⟩ | ⟨h1, _⟩
  · exact ⟨_, key _ _ r0 (joins_ends l) hnc hb hr0 h0, by simp⟩
  · exact ⟨_, key _ _ r0 (joins_symm (joins_ends l)) (fun h => hnc (connected_symm h)) ha hr0 h2,
      by simp⟩
  · exact absurd h1 hnc

/-- A forest on `n` stations with `k` components has `n - k` links. -/
theorem forest_length_add_reps {n : Nat} :
    ∀ (links : List RailwayLink), ¬ HasCycle links →
      (∀ l ∈ links, l.origin_station < n ∧ l.destination_station < n) →
      ∀ reps, IsComponentReps n links reps → reps.length + links.length = n := by
  intro links
  induction links with
  | nil => intro _ _ reps h; simpa using componentReps_nil_length h
  | cons l links ih =>
    intro hacyc hrange reps h
    obtain ⟨hacyc', hnc⟩ := not_hasCycle_cons_iff.mp hacyc
    obtain ⟨hla, hlb⟩ := hrange l (List.mem_cons_self _ _)
    obtain ⟨reps', h', hlen⟩ := componentReps_uncons h hnc hla hlb
    have := ih hacyc' (fun e he => hrange e (List.mem_cons_of_mem _ he)) reps' h'
    simp only [List.length_cons]
    omega

theorem exists_componentReps (links : List RailwayLink) :
    ∀ n : Nat, ∃ reps, IsComponentReps n links reps := by
  intro n
  induction n with
  | zero => exact ⟨[], by simp [IsComponentReps]⟩
  | succ n ih =>
    obtain ⟨reps, h⟩ := ih
    by_cases hn : ∃ r ∈ reps, Connected links n r
    · refine ⟨reps, fun r hr => Nat.lt_succ_of_lt (h.1 r hr), h.2.1, ?_⟩
      intro v hv
      rcases Nat.lt_succ_iff_lt_or_eq.mp hv with hv | hv
      · exact h.2.2 v hv
      · rw [hv]; exact hn
    · refine ⟨n :: reps, ?_, ?_, ?_⟩
      · intro r hr
        rcases List.mem_cons.mp hr with hr | hr
        · rw [hr]; exact Nat.lt_succ_self n
        · exact Nat.lt_succ_of_lt (h.1 r hr)
      · rw [List.pairwise_cons]
        exact ⟨fun r hr hc => hn ⟨r, hr, hc⟩, h.2.1⟩
      · intro v hv
        rcases Nat.lt_succ_iff_lt_or_eq.mp hv with hv | hv
        · obtain ⟨r, hr, hc⟩ := h.2.2 v hv
          exact ⟨r, List.mem_cons_of_mem _ hr, hc⟩
        · rw [hv]; exact ⟨n, List.mem_cons_self _ _, connected_refl _ _⟩

/-- A graph that joins more pairs has at most as many components. -/
theorem componentReps_length_le {n : Nat} {links1 links2 : List RailwayLink}
    {reps1 reps2 : List Nat} (h1 : IsComponentReps n links1 reps1)
    (h2 : IsComponentReps n links2 reps2)
    (hsub : ∀ u v, Connected links1 u v → Connected links2 u v) :
    reps2.length ≤ reps1.length := by
  have hex : ∀ r : Nat, ∃ s : Nat, r ∈ reps2 → s ∈ reps1 ∧ Connected links1 r s := by
    intro r
    by_cases hr : r ∈ reps2
    · obtain ⟨s, hs, hc⟩ := h1.2.2 r (h2.1 r hr)
      exact ⟨s, fun _ => ⟨hs, hc⟩⟩
    · exact ⟨0, fun h => absurd h hr⟩
  choose f hf using hex
  have hnodup2 : reps2.Nodup := by
    refine List.Pairwise.imp ?_ h2.2.1
    intro a b hab hEq
    exact hab (hEq ▸ connected_refl _ a)
  have hinj : ∀ r ∈ reps2, ∀ s ∈ reps2, f r = f s → r = s := by
    intro r hr s hs hEq
    apply reps_eq_of_connected h2 hr hs
    apply hsub
    have c1 := (hf r hr).2
    have c2 := (hf s hs).2
    rw [hEq] at c1
    exact connected_trans c1 (connected_symm c2)
  have hmapnodup : (reps2.map f).Nodup := List.Nodup.map_on hinj hnodup2
  have hsubset : reps2.map f ⊆ reps1 := by
    intro s hs
    obtain ⟨r, hr, rfl⟩ := List.mem_map.mp hs
    exact (hf r hr).1
  have := (hmapnodup.subperm hsubset).length_le
  simpa using this

/-- A forest whose links all lie inside the components of another forest has no more links
than that forest. -/
theorem forest_length_le {n : Nat} {forest spanning : List RailwayLink}
    (hF : ¬ HasCycle forest)
    (hFr : ∀ l ∈ forest, l.origin_station < n ∧ l.destination_station < n)
    (hK : ¬ HasCycle spanning)
    (hKr : ∀ l ∈ spanning, l.origin_station < n ∧ l.destination_station < n)
    (hsub : ∀ u v, Connected forest u v → Connected spanning u v) :
    forest.length ≤ spanning.length := by
  obtain ⟨repsF, hrF⟩ := exists_componentReps forest n
  obtain ⟨repsK, hrK⟩ := exists_componentReps spanning n
  have e1 := forest_length_add_reps forest hF hFr repsF hrF
  have e2 := forest_length_add_reps spanning hK hKr repsK hrK
  have e3 := componentReps_length_le hrF hrK hsub
  omega

/-! ## Kruskal's scan on the graph -/

theorem scan_extends {links acc result : List RailwayLink} (h : KruskalScan links acc result) :
    ∃ t, result = acc ++ t ∧ t.Sublist links := by
  induction h with
  | done acc => exact ⟨[], by simp, List.Sublist.refl _⟩
  | skip _ _ ih =>
    obtain ⟨t, ht, hsub⟩ := ih
    exact ⟨t, ht, hsub.cons _⟩
  | @take l rest acc result _ _ ih =>
    obtain ⟨t, ht, hsub⟩ := ih
    exact ⟨l :: t, by rw [ht]; simp, hsub.cons₂ _⟩

theorem scan_connected {links acc result : List RailwayLink} (h : KruskalScan links acc result) :
    ∀ u v, Connected result u v ↔ Connected (acc ++ links) u v := by
  induction h with
  | done acc => intro u v; simp
  | @skip l rest acc result hc _ ih =>
    intro u v
    rw [ih u v]
    constructor
    · apply connected_mono
      intro e he
      rcases List.mem_append.mp he with he | he
      · exact List.mem_append_left _ he
      · exact List.mem_append_right _ (List.mem_cons_of_mem _ he)
    · apply connected_of_links_connected
      intro e he
      rcases List.mem_append.mp he with he | he
      · exact connected_of_mem (List.mem_append_left _ he)
      · rcases List.mem_cons.mp he with he | he
        · rw [he]; exact connected_mono (fun x hx => List.mem_append_left _ hx) hc
        · exact connected_of_mem (List.mem_append_right _ he)
  | @take l rest acc result _ _ ih =>
    intro u v
    rw [ih u v, List.append_assoc, List.singleton_append]

theorem scan_acyclic {links acc result : List RailwayLink} (h : KruskalScan links acc result)
    (hacc : ¬ HasCycle acc) : ¬ HasCycle result := by
  induction h with
  | done acc => exact hacc
  | skip _ _ ih => exact ih hacc
  | @take l rest acc result hnc _ ih =>
    apply ih
    rw [hasCycle_perm (List.perm_append_singleton l acc)]
    exact not_hasCycle_cons hacc hnc

theorem scan_append {links1 links2 acc result : List RailwayLink}
    (h : KruskalScan (links1 ++ links2) acc result) :
    ∃ mid, KruskalScan links1 acc mid ∧ KruskalScan links2 mid result := by
  induction links1 generalizing acc with
  | nil => exact ⟨acc, KruskalScan.done acc, h⟩
  | cons l links1 ih =>
    cases h with
    | skip hc hrest =>
      obtain ⟨mid, h1, h2⟩ := ih hrest
      exact ⟨mid, KruskalScan.skip hc h1, h2⟩
    | take hnc hrest =>
      obtain ⟨mid, h1, h2⟩ := ih hrest
      exact ⟨mid, KruskalScan.take hnc h1, h2⟩

/-! ## Minimality -/

theorem sum_le_of_dominated_sorted :
    ∀ (ks fs : List ℚ), ks.Pairwise (fun a b => b ≤ a) → fs.Pairwise (fun a b => b ≤ a) →
      ks.length = fs.length →
      (∀ t : ℚ, fs.countP (fun x => decide (x ≤ t)) ≤ ks.countP (fun x => decide (x ≤ t))) →
      ks.sum ≤ fs.sum := by
  intro ks
  induction ks with
  | nil =>
    intro fs _ _ hlen _
    have : fs = [] := List.length_eq_zero.mp hlen.symm
    rw [this]
  | cons k ks ih =>
    intro fs hks hfs hlen hdom
    cases fs with
    | nil => simp at hlen
    | cons f fs =>
      rw [List.pairwise_cons] at hks hfs
      simp only [List.length_cons, Nat.add_right_cancel_iff] at hlen
      have hkf : k ≤ f := by
        by_contra hlt
        have h1 := hdom f
        have hall : (f :: fs).countP (fun x => decide (x ≤ f)) = (f :: fs).length := by
          rw [List.countP_eq_length]
          intro x hx
          rcases List.mem_cons.mp hx with hx | hx
          · simp [hx]
          · simpa using hfs.1 x hx
        have hk0 : (k :: ks).countP (fun x => decide (x ≤ f)) =
            ks.countP (fun x => decide (x ≤ f)) :=
          List.countP_cons_of_neg _ _ (by simpa using hlt)
        rw [hall, hk0] at h1
        have h2 := List.countP_le_length (fun x => decide (x ≤ f)) (l := ks)
        simp only [List.length_cons] at h1
        omega
      have htail : ∀ t : ℚ,
          fs.countP (fun x => decide (x ≤ t)) ≤ ks.countP (fun x => decide (x ≤ t)) := by
        intro t
        by_cases hkt : k ≤ t
        · have hall : ks.countP (fun x => decide (x ≤ t)) = ks.length := by
            rw [List.countP_eq_length]
            intro x hx
            simpa using le_trans (hks.1 x hx) hkt
          rw [hall, hlen]
          exact List.countP_le_length _
        · have h1 := hdom t
          have hk0 : (k :: ks).countP (fun x => decide (x ≤ t)) =
              ks.countP (fun x => decide (x ≤ t)) :=
            List.countP_cons_of_neg _ _ (by simpa using hkt)
          rw [hk0] at h1
          have h2 : fs.countP (fun x => decide (x ≤ t)) ≤
              (f :: fs).countP (fun x => decide (x ≤ t)) := by
            rw [List.countP_cons]; omega
          omega
      have := ih fs hks.2 hfs.2 hlen htail
      simp only [List.sum_cons]
      linarith

/-- If two lists of weights have the same length and, below every threshold, the first has at
least as many entries as the second, then the first has the smaller sum. -/
theorem sum_le_of_dominated (ks fs : List ℚ) (hlen : ks.length = fs.length)
    (hdom : ∀ t : ℚ, fs.countP (fun x => decide (x ≤ t)) ≤ ks.countP (fun x => decide (x ≤ t))) :
    ks.sum ≤ fs.sum := by
  have pk := List.perm_insertionSort (fun a b : ℚ => b ≤ a) ks
  have pf := List.perm_insertionSort (fun a b : ℚ => b ≤ a) fs
  have sk : (ks.insertionSort (fun a b : ℚ => b ≤ a)).Pairwise (fun a b => b ≤ a) :=
    List.sorted_insertionSort (fun a b : ℚ => b ≤ a) ks
  have sf : (fs.insertionSort (fun a b : ℚ => b ≤ a)).Pairwise (fun a b => b ≤ a) :=
    List.sorted_insertionSort (fun a b : ℚ => b ≤ a) fs
  rw [← pk.sum_eq, ← pf.sum_eq]
  apply sum_le_of_dominated_sorted _ _ sk sf
  · rw [pk.length_eq, pf.length_eq, hlen]
  · intro t
    rw [pk.countP_eq, pf.countP_eq]
    exact hdom t

theorem sorted_split_at (t : ℚ) :
    ∀ (links : List RailwayLink),
      links.Pairwise (fun a b => a.track_distance ≤ b.track_distance) →
      ∃ light heavy, links = light ++ heavy ∧ (∀ l ∈ light, l.track_distance ≤ t) ∧
        ∀ l ∈ heavy, t < l.track_distance := by
  intro links
  induction links with
  | nil => intro _; exact ⟨[], [], rfl, by simp, by simp⟩
  | cons x links ih =>
    intro hs
    rw [List.pairwise_cons] at hs
    by_cases hx : x.track_distance ≤ t
    · obtain ⟨light, heavy, hEq, h1, h2⟩ := ih hs.2
      refine ⟨x :: light, heavy, by rw [hEq]; rfl, ?_, h2⟩
      intro l hl
      rcases List.mem_cons.mp hl with hl | hl
      · rw [hl]; exact hx
      · exact h1 l hl
    · refine ⟨[], x :: links, rfl, by simp, ?_⟩
      intro l hl
      rcases List.mem_cons.mp hl with hl | hl
      · rw [hl]; exact lt_of_not_le hx
      · exact lt_of_lt_of_le (lt_of_not_le hx) (hs.1 l hl)

/-- The greedy scan of a list sorted by weight yields a forest that is lightest among the
forests spanning the same components. -/
theorem scan_minimal {n : Nat} {sorted result : List RailwayLink}
    (hsorted : sorted.Pairwise (fun a b => a.track_distance ≤ b.track_distance))
    (hrange : ∀ l ∈ sorted, l.origin_station < n ∧ l.destination_station < n)
    (hscan : KruskalScan sorted [] result)
    (forest : List RailwayLink) (hmem : ∀ l ∈ forest, l ∈ sorted)
    (hacyc : ¬ HasCycle forest)
    (hspan : ∀ u v, Connected forest u v ↔ Connected sorted u v) :
    totalWeight result ≤ totalWeight forest := by
  have hresC : ∀ u v, Connected result u v ↔ Connected sorted u v := by
    intro u v; simpa using scan_connected hscan u v
  have hresA : ¬ HasCycle result := scan_acyclic hscan not_hasCycle_nil
  obtain ⟨t0, ht0, hsub0⟩ := scan_extends hscan
  rw [List.nil_append] at ht0
  subst ht0
  have hresR : ∀ l ∈ result, l.origin_station < n ∧ l.destination_station < n :=
    fun l hl => hrange l (hsub0.subset hl)
  have hforR : ∀ l ∈ forest, l.origin_station < n ∧ l.destination_station < n :=
    fun l hl => hrange l (hmem l hl)
  have hlen : result.length = forest.length := by
    apply le_antisymm
    · exact forest_length_le hresA hresR hacyc hforR
        (fun u v h => (hspan u v).mpr ((hresC u v).mp h))
    · exact forest_length_le hacyc hforR hresA hresR
        (fun u v h => (hresC u v).mpr ((hspan u v).mp h))
  unfold totalWeight
  apply sum_le_of_dominated
  · simpa using hlen
  · intro t
    rw [List.countP_map, List.countP_map, List.countP_eq_length_filter,
      List.countP_eq_length_filter]
    obtain ⟨light, heavy, hEq, hlight, hheavy⟩ := sorted_split_at t sorted hsorted
    subst hEq
    obtain ⟨mid, hscan1, hscan2⟩ := scan_append hscan
    obtain ⟨t1, ht1, hsub1⟩ := scan_extends hscan1
    obtain ⟨t2, ht2, hsub2⟩ := scan_extends hscan2
    rw [List.nil_append] at ht1
    subst ht1
    subst ht2
    have hfilter : List.filter ((fun x => decide (x ≤ t)) ∘ fun l => l.track_distance)
        (mid ++ t2) = mid := by
      rw [List.filter_append]
      have e1 : List.filter ((fun x => decide (x ≤ t)) ∘ fun l => l.track_distance) mid = mid := by
        rw [List.filter_eq_self]
        intro l hl
        simpa using hlight l (hsub1.subset hl)
      have e2 : List.filter ((fun x => decide (x ≤ t)) ∘ fun l => l.track_distance) t2 = [] := by
        rw [List.filter_eq_nil_iff]
        intro l hl
        simpa using hheavy l (hsub2.subset hl)
      rw [e1, e2, List.append_nil]
    rw [hfilter]
    have hsubF : (List.filter ((fun x => decide (x ≤ t)) ∘ fun l => l.track_distance)
        forest).Sublist forest := List.filter_sublist _
    apply forest_length_le (n := n)
    · exact fun hc => hacyc (hasCycle_of_subperm hsubF.subperm hc)
    · exact fun l hl => hforR l (hsubF.subset hl)
    · exact scan_acyclic hscan1 not_hasCycle_nil
    · exact fun l hl => hrange l (List.mem_append_left _ (hsub1.subset hl))
    · intro u v huv
      rw [scan_connected hscan1 u v, List.nil_append]
      refine connected_of_links_connected ?_ huv
      intro e he
      rw [List.mem_filter] at he
      have hew : e.track_distance ≤ t := by simpa using he.2
      rcases List.mem_append.mp (hmem e he.1) with h | h
      · exact connected_of_mem h
      · exact absurd (hheavy e h) (not_lt.mpr hew)

/-! ## Union-find: roots -/

theorem wellFormed_of_ranked {parent : List Nat} {height : Nat → Nat}
    (h : Ranked parent height) : WellFormedParents parent := by
  classical
  let below : Nat → Finset Nat := fun x =>
    (Finset.range parent.length).filter (fun y => height y < height x)
  refine ⟨fun x => (below x).card, ?_, ?_⟩
  · intro x hx
    have hss : below x ⊂ Finset.range parent.length := by
      rw [Finset.ssubset_iff_of_subset (Finset.filter_subset _ _)]
      exact ⟨x, Finset.mem_range.mpr hx, by simp [below]⟩
    simpa using Finset.card_lt_card hss
  · intro x hx
    refine ⟨(h x hx).1, fun hne => ?_⟩
    have hlt := (h x hx).2 hne
    apply Finset.card_lt_card
    have hsub : below (parent.getD x 0) ⊆ below x := by
      intro z hz
      simp only [below, Finset.mem_filter] at hz ⊢
      exact ⟨hz.1, lt_trans hz.2 hlt⟩
    rw [Finset.ssubset_iff_of_subset hsub]
    refine ⟨parent.getD x 0, ?_, ?_⟩
    · simp only [below, Finset.mem_filter, Finset.mem_range]
      exact ⟨(h x hx).1, hlt⟩
    · simp [below]

theorem rootFrom_succ_step {parent : List Nat} {x : Nat} (hx : parent.getD x 0 ≠ x) (fuel : Nat) :
    rootFrom parent (fuel + 1) x = rootFrom parent fuel (parent.getD x 0) := by
  rw [rootFrom, if_neg hx]

theorem rootFrom_of_root {parent : List Nat} {x : Nat} (hx : parent.getD x 0 = x) :
    ∀ fuel, rootFrom parent fuel x = x := by
  intro fuel
  cases fuel with
  | zero => rfl
  | succ f => rw [rootFrom, if_pos hx]

theorem rootFrom_spec {parent : List Nat} {height : Nat → Nat} (h : Ranked parent height) :
    ∀ (fuel x : Nat), x < parent.length → height x < fuel →
      (rootFrom parent fuel x < parent.length ∧
        parent.getD (rootFrom parent fuel x) 0 = rootFrom parent fuel x ∧
        height (rootFrom parent fuel x) ≤ height x) ∧
      ∀ fuel', height x < fuel' → rootFrom parent fuel' x = rootFrom parent fuel x := by
  intro fuel
  induction fuel with
  | zero => intro x _ hf; omega
  | succ f ih =>
    intro x hx hf
    by_cases hroot : parent.getD x 0 = x
    · rw [rootFrom_of_root hroot]
      exact ⟨⟨hx, hroot, le_refl _⟩, fun fuel' _ => rootFrom_of_root hroot fuel'⟩
    · have hlt := (h x hx).2 hroot
      have hp := (h x hx).1
      obtain ⟨⟨h1, h2, h3⟩, h4⟩ := ih (parent.getD x 0) hp (by omega)
      have hstep := rootFrom_succ_step hroot f
      rw [hstep]
      refine ⟨⟨h1, h2, by omega⟩, ?_⟩
      intro fuel' hf'
      obtain ⟨g, rfl⟩ : ∃ g, fuel' = g + 1 := ⟨fuel' - 1, by omega⟩
      rw [rootFrom_succ_step hroot g]
      exact h4 g (by omega)

theorem rootOf_of_root {parent : List Nat} {x : Nat} (hx : parent.getD x 0 = x) :
    rootOf parent x = x :=
  rootFrom_of_root hx _

theorem rootOf_isRoot {parent : List Nat} (hwf : WellFormedParents parent) {x : Nat}
    (hx : x < parent.length) :
    rootOf parent x < parent.length ∧ parent.getD (rootOf parent x) 0 = rootOf parent x := by
  obtain ⟨height, hb, hr⟩ := hwf
  obtain ⟨⟨h1, h2, _⟩, _⟩ := rootFrom_spec hr parent.length x hx (hb x hx)
  exact ⟨h1, h2⟩

theorem rootOf_parent {parent : List Nat} (hwf : WellFormedParents parent) {x : Nat}
    (hx : x < parent.length) : rootOf parent (parent.getD x 0) = rootOf parent x := by
  by_cases hroot : parent.getD x 0 = x
  · rw [hroot]
  · obtain ⟨height, hb, hr⟩ := hwf
    have hp := (hr x hx).1
    have hlt := (hr x hx).2 hroot
    unfold rootOf
    obtain ⟨n, hn⟩ : ∃ n, parent.length = n + 1 := ⟨parent.length - 1, by omega⟩
    have hbx := hb x hx
    have hstep := rootFrom_succ_step hroot n
    rw [hn, hstep]
    exact (rootFrom_spec hr n (parent.getD x 0) (by omega) (by omega)).2 (n + 1) (by omega)

theorem rootOf_rootOf {parent : List Nat} (hwf : WellFormedParents parent) {x : Nat}
    (hx : x < parent.length) : rootOf parent (rootOf parent x) = rootOf parent x :=
  rootOf_of_root (rootOf_isRoot hwf hx).2

/-- Induction along the parent links, from the roots down. -/
theorem ranked_induction {parent : List Nat} {height : Nat → Nat} (hr : Ranked parent height)
    (P : Nat → Prop)
    (step : ∀ x, x < parent.length → (parent.getD x 0 ≠ x → P (parent.getD x 0)) → P x) :
    ∀ x, x < parent.length → P x := by
  have main : ∀ m x, height x ≤ m → x < parent.length → P x := by
    intro m
    induction m with
    | zero =>
      intro x hm hx
      exact step x hx (fun hne => by have := (hr x hx).2 hne; omega)
    | succ m ih =>
      intro x hm hx
      exact step x hx (fun hne => ih _ (by have := (hr x hx).2 hne; omega) (hr x hx).1)
  intro x hx
  exact main (height x) x (le_refl _) hx

theorem height_rootOf_le {parent : List Nat} {height : Nat → Nat} (hr : Ranked parent height)
    {x : Nat} (hx : x < parent.length) : height (rootOf parent x) ≤ height x := by
  have hwf := wellFormed_of_ranked hr
  revert x
  apply ranked_induction hr
  intro x hx ih
  by_cases hroot : parent.getD x 0 = x
  · rw [rootOf_of_root hroot]
  · rw [← rootOf_parent hwf hx]
    have := ih hroot
    have := (hr x hx).2 hroot
    omega

theorem height_rootOf_lt {parent : List Nat} {height : Nat → Nat} (hr : Ranked parent height)
    {x : Nat} (hx : x < parent.length) (hne : rootOf parent x ≠ x) :
    height (rootOf parent x) < height x := by
  have hwf := wellFormed_of_ranked hr
  have hroot : parent.getD x 0 ≠ x := fun h => hne (rootOf_of_root h)
  rw [← rootOf_parent hwf hx]
  have := height_rootOf_le hr (hr x hx).1
  have := (hr x hx).2 hroot
  omega

/-- Path compression: redirecting stations to their own roots keeps every root. -/
theorem rootOf_compress {parent parent' : List Nat} (hwf : WellFormedParents parent)
    (hlen : parent'.length = parent.length)
    (hcomp : ∀ t, t < parent.length →
      parent'.getD t 0 = parent.getD t 0 ∨ parent'.getD t 0 = rootOf parent t) :
    WellFormedParents parent' ∧ ∀ t, t < parent.length → rootOf parent' t = rootOf parent t := by
  obtain ⟨height, _, hr⟩ := id hwf
  have hr' : Ranked parent' height := by
    intro t ht
    rw [hlen] at ht ⊢
    rcases hcomp t ht with h | h
    · rw [h]; exact hr t ht
    · rw [h]
      exact ⟨(rootOf_isRoot hwf ht).1, fun hne => height_rootOf_lt hr ht hne⟩
  have hwf' := wellFormed_of_ranked hr'
  refine ⟨hwf', ?_⟩
  rw [← hlen]
  apply ranked_induction hr'
  intro t ht ih
  have ht0 : t < parent.length := hlen ▸ ht
  by_cases hroot : parent'.getD t 0 = t
  · rw [rootOf_of_root hroot]
    rcases hcomp t ht0 with h | h
    · rw [h] at hroot; rw [rootOf_of_root hroot]
    · rw [← h, hroot]
  · rw [← rootOf_parent hwf' ht, ih hroot]
    rcases hcomp t ht0 with h | h
    · rw [h]; exact rootOf_parent hwf ht0
    · rw [h]; exact rootOf_rootOf hwf ht0

/-- Linking the root `rb` under the different root `ra` moves the set of `rb`, and only it,
to `ra`. -/
theorem rootOf_link {parent : List Nat} (hwf : WellFormedParents parent) {ra rb : Nat}
    (hra : ra < parent.length) (hrb : rb < parent.length)
    (hroota : parent.getD ra 0 = ra) (hrootb : parent.getD rb 0 = rb) (hne : ra ≠ rb) :
    WellFormedParents (parent.set rb ra) ∧
      ∀ t, t < parent.length →
        rootOf (parent.set rb ra) t = if rootOf parent t = rb then ra else rootOf parent t := by
  obtain ⟨height, _, hr⟩ := id hwf
  have hget : ∀ t, (parent.set rb ra).getD t 0 = if t = rb then ra else parent.getD t 0 := by
    intro t
    by_cases ht : t = rb
    · subst ht; simp [List.getD_eq_getElem?_getD, List.getElem?_set, hrb]
    · simp [List.getD_eq_getElem?_getD, List.getElem?_set, ht, Ne.symm ht]
  have hlen : (parent.set rb ra).length = parent.length := List.length_set _ _ _
  let height' : Nat → Nat := fun t =>
    if rootOf parent t = rb then height t + height ra + 1 else height t
  have hr' : Ranked (parent.set rb ra) height' := by
    intro t ht
    rw [hlen] at ht ⊢
    rw [hget t]
    by_cases htb : t = rb
    · subst htb
      simp only [if_true]
      refine ⟨hra, fun _ => ?_⟩
      simp only [height', rootOf_of_root hroota, rootOf_of_root hrootb, if_neg hne, if_true]
      omega
    · simp only [if_neg htb]
      refine ⟨(hr t ht).1, fun hroot => ?_⟩
      have hlt := (hr t ht).2 hroot
      simp only [height', rootOf_parent hwf ht]
      split <;> omega
  have hwf' := wellFormed_of_ranked hr'
  refine ⟨hwf', ?_⟩
  rw [← hlen]
  apply ranked_induction hr'
  intro t ht ih
  have ht0 : t < parent.length := hlen ▸ ht
  by_cases hroot : (parent.set rb ra).getD t 0 = t
  · rw [rootOf_of_root hroot]
    rw [hget t] at hroot
    by_cases htb : t = rb
    · subst htb; simp only [if_true] at hroot; exact absurd hroot hne
    · simp only [if_neg htb] at hroot
      rw [rootOf_of_root hroot, if_neg htb]
  · rw [← rootOf_parent hwf' ht, ih hroot, hget t]
    by_cases htb : t = rb
    · subst htb
      simp only [if_true, rootOf_of_root hroota, rootOf_of_root hrootb, if_neg hne]
    · simp only [if_neg htb, rootOf_parent hwf ht0]

/-! ## Union-find: the two methods -/

theorem findStationRoot_spec {net : SouthwestRailwayNetwork} {height : Nat → Nat}
    (hr : Ranked net.station_parent height) :
    ∀ (fuel station : Nat), station < net.station_parent.length → height station < fuel →
      ∃ parent', findStationRoot fuel net station =
          some (rootOf net.station_parent station, { net with station_parent := parent' }) ∧
        parent'.length = net.station_parent.length ∧
        ∀ t, t < net.station_parent.length →
          parent'.getD t 0 = net.station_parent.getD t 0 ∨
            parent'.getD t 0 = rootOf net.station_parent t := by
  have hwf := wellFormed_of_ranked hr
  intro fuel
  induction fuel with
  | zero => intro s _ hf; omega
  | succ f ih =>
    intro s hs hf
    by_cases hroot : net.station_parent.getD s 0 = s
    · refine ⟨net.station_parent, ?_, rfl, fun t _ => Or.inl rfl⟩
      rw [findStationRoot, if_neg (not_not.mpr hroot), rootOf_of_root hroot, hroot]
    · have hlt := (hr s hs).2 hroot
      obtain ⟨p1, hfind, hlen, hcomp⟩ := ih (net.station_parent.getD s 0) (hr s hs).1 (by omega)
      refine ⟨p1.set s (rootOf net.station_parent s), ?_, ?_, ?_⟩
      · rw [findStationRoot, if_pos hroot, hfind, rootOf_parent hwf hs]
        have hget : (p1.set s (rootOf net.station_parent s)).getD s 0 =
            rootOf net.station_parent s := by
          simp [List.getD_eq_getElem?_getD, List.getElem?_set, hlen, hs]
        simp only [hget]
      · rw [List.length_set, hlen]
      · intro t ht
        by_cases hts : t = s
        · right
          subst hts
          simp [List.getD_eq_getElem?_getD, List.getElem?_set, hlen, hs]
        · have hget : (p1.set s (rootOf net.station_parent s)).getD t 0 = p1.getD t 0 := by
            simp [List.getD_eq_getElem?_getD, List.getElem?_set, Ne.symm hts]
          rw [hget]
          exact hcomp t ht

/-- On a well-formed state and with fuel for every station, `findStationRoot` returns the
representative, changes only the parent array, and keeps every representative. -/
theorem findStationRoot_wf (net : SouthwestRailwayNetwork)
    (hwf : WellFormedParents net.station_parent) (fuel station : Nat)
    (hs : station < net.station_parent.length) (hfuel : net.station_parent.length ≤ fuel) :
    ∃ parent', findStationRoot fuel net station =
        some (rootOf net.station_parent station, { net with station_parent := parent' }) ∧
      parent'.length = net.station_parent.length ∧ WellFormedParents parent' ∧
      ∀ t, t < net.station_parent.length → rootOf parent' t = rootOf net.station_parent t := by
  obtain ⟨height, hb, hr⟩ := id hwf
  obtain ⟨p1, hfind, hlen, hcomp⟩ :=
    findStationRoot_spec hr fuel station hs (lt_of_lt_of_le (hb station hs) hfuel)
  obtain ⟨hwf1, hroots⟩ := rootOf_compress hwf hlen hcomp
  exact ⟨p1, hfind, hlen, hwf1, hroots⟩

/-- On a well-formed state, merging two stations of different sets links one of the two
representatives under the other. -/
theorem mergeStationGroups_spec (net : SouthwestRailwayNetwork)
    (hwf : WellFormedParents net.station_parent) (fuel a b : Nat)
    (ha : a < net.station_parent.length) (hb : b < net.station_parent.length)
    (hfuel : net.station_parent.length ≤ fuel)
    (hne : rootOf net.station_parent a ≠ rootOf net.station_parent b) :
    ∃ parent' rank' x y,
      mergeStationGroups fuel net a b =
        some { net with station_parent := parent', station_rank := rank' } ∧
      parent'.length = net.station_parent.length ∧ WellFormedParents parent' ∧
      ((x = rootOf net.station_parent a ∧ y = rootOf net.station_parent b) ∨
        (x = rootOf net.station_parent b ∧ y = rootOf net.station_parent a)) ∧
      ∀ t, t < net.station_parent.length →
        rootOf parent' t =
          if rootOf net.station_parent t = x then y else rootOf net.station_parent t := by
  obtain ⟨p1, hfind1, hlen1, hwf1, hroots1⟩ := findStationRoot_wf net hwf fuel a ha hfuel
  have hb1 : b < p1.length := by rw [hlen1]; exact hb
  obtain ⟨p2, hfind2, hlen2, hwf2, hroots2⟩ :=
    findStationRoot_wf { net with station_parent := p1 } hwf1 fuel b hb1
      (by rw [hlen1]; exact hfuel)
  simp only at hfind2 hlen2 hwf2 hroots2
  have hlen : p2.length = net.station_parent.length := by rw [hlen2, hlen1]
  have hroots : ∀ t, t < net.station_parent.length → rootOf p2 t = rootOf net.station_parent t := by
    intro t ht
    rw [hroots2 t (by rw [hlen1]; exact ht), hroots1 t ht]
  have hrb1 : rootOf p1 b = rootOf net.station_parent b := hroots1 b hb
  -- the two representatives are roots of the array left by the second find
  have ha2 : a < p2.length := by rw [hlen]; exact ha
  have hb2 : b < p2.length := by rw [hlen]; exact hb
  have hRa := rootOf_isRoot hwf2 ha2
  have hRb := rootOf_isRoot hwf2 hb2
  rw [hroots a ha] at hRa
  rw [hroots b hb] at hRb
  unfold mergeStationGroups
  rw [hfind1]
  simp only
  rw [hfind2, hrb1]
  simp only
  split
  · obtain ⟨hwf3, hroots3⟩ := rootOf_link hwf2 hRb.1 hRa.1 hRb.2 hRa.2 (Ne.symm hne)
    refine ⟨_, _, rootOf net.station_parent a, rootOf net.station_parent b, rfl, ?_, hwf3,
      Or.inl ⟨rfl, rfl⟩, ?_⟩
    · rw [List.length_set, hlen]
    · intro t ht
      rw [hroots3 t (by rw [hlen]; exact ht), hroots t ht]
  · split
    · obtain ⟨hwf3, hroots3⟩ := rootOf_link hwf2 hRa.1 hRb.1 hRa.2 hRb.2 hne
      refine ⟨_, _, rootOf net.station_parent b, rootOf net.station_parent a, rfl, ?_, hwf3,
        Or.inr ⟨rfl, rfl⟩, ?_⟩
      · rw [List.length_set, hlen]
      · intro t ht
        rw [hroots3 t (by rw [hlen]; exact ht), hroots t ht]
    · obtain ⟨hwf3, hroots3⟩ := rootOf_link hwf2 hRa.1 hRb.1 hRa.2 hRb.2 hne
      refine ⟨_, _, rootOf net.station_parent b, rootOf net.station_parent a, rfl, ?_, hwf3,
        Or.inr ⟨rfl, rfl⟩, ?_⟩
      · rw [List.length_set, hlen]
      · intro t ht
        rw [hroots3 t (by rw [hlen]; exact ht), hroots t ht]

/-! ## The Kruskal loop follows the scan -/

theorem totalWeight_append (xs ys : List RailwayLink) :
    totalWeight (xs ++ ys) = totalWeight xs + totalWeight ys := by
  simp [totalWeight]

theorem connected_snoc_iff {l : RailwayLink} {acc : List RailwayLink} {u v : Nat} :
    Connected (acc ++ [l]) u v ↔ Connected (l :: acc) u v := by
  constructor <;> apply connected_mono <;> intro e he <;> simp at he ⊢ <;> tauto

theorem link_iff_aux (U V A B x y : Nat) (hne : A ≠ B)
    (hxy : (x = A ∧ y = B) ∨ (x = B ∧ y = A)) :
    ((if U = x then y else U) = (if V = x then y else V)) ↔
      (U = V ∨ (U = A ∧ B = V) ∨ (U = B ∧ A = V)) := by
  rcases hxy with ⟨rfl, rfl⟩ | ⟨rfl, rfl⟩ <;> split_ifs <;> omega

/-- After linking the representative `x` under `y`, equal representatives mean connected by
the accepted links together with the new link. -/
theorem roots_after_link {n : Nat} {acc : List RailwayLink} {l : RailwayLink}
    {root root' : Nat → Nat} {x y : Nat}
    (ha : l.origin_station < n) (hb : l.destination_station < n)
    (hinv : ∀ u v, u < n → v < n → (root u = root v ↔ Connected acc u v))
    (hxy : (x = root l.origin_station ∧ y = root l.destination_station) ∨
      (x = root l.destination_station ∧ y = root l.origin_station))
    (hne : root l.origin_station ≠ root l.destination_station)
    (hroot' : ∀ t, t < n → root' t = if root t = x then y else root t) :
    ∀ u v, u < n → v < n → (root' u = root' v ↔ Connected (acc ++ [l]) u v) := by
  intro u v hu hv
  rw [connected_snoc_iff, connected_cons, ← hinv u v hu hv, ← hinv u _ hu ha, ← hinv _ v hb hv,
    ← hinv u _ hu hb, ← hinv _ v ha hv, hroot' u hu, hroot' v hv]
  exact link_iff_aux _ _ _ _ _ _ hne hxy

/-- One round of the loop on a well-formed state whose sets are the components of the
accepted links: the link is skipped when its ends are joined, and accepted, with its ends
reported in different sets, when they are not. -/
theorem kruskalLoop_step {n fuel : Nat} (hfuel : n ≤ fuel)
    (net : SouthwestRailwayNetwork) (acc : List RailwayLink) (total : Double)
    (hlen : net.station_parent.length = n) (hwf : WellFormedParents net.station_parent)
    (hinv : ∀ u v, u < n → v < n →
      (rootOf net.station_parent u = rootOf net.station_parent v ↔ Connected acc u v))
    (l : RailwayLink) (hla : l.origin_station < n) (hlb : l.destination_station < n) :
    ∃ parent' rank', parent'.length = n ∧ WellFormedParents parent' ∧
      ((Connected acc l.origin_station l.destination_station ∧
          (∀ rest, kruskalLoop fuel (l :: rest) net acc total =
            kruskalLoop fuel rest { net with station_parent := parent', station_rank := rank' }
              acc total) ∧
          ∀ u v, u < n → v < n → (rootOf parent' u = rootOf parent' v ↔ Connected acc u v)) ∨
        (¬ Connected acc l.origin_station l.destination_station ∧
          (∀ rest, kruskalLoop fuel (l :: rest) net acc total =
            kruskalLoop fuel rest { net with station_parent := parent', station_rank := rank' }
              (acc ++ [l]) (Double.add total (Double.finite l.track_distance))) ∧
          (∀ u v, u < n → v < n →
            (rootOf parent' u = rootOf parent' v ↔ Connected (acc ++ [l]) u v)) ∧
          ∃ net1 net2,
            findStationRoot fuel net l.origin_station =
              some (rootOf net.station_parent l.origin_station, net1) ∧
            findStationRoot fuel net1 l.destination_station =
              some (rootOf net.station_parent l.destination_station, net2) ∧
            rootOf net.station_parent l.origin_station ≠
              rootOf net.station_parent l.destination_station)) := by
  obtain ⟨p1, hfind1, hlen1, hwf1, hroots1⟩ :=
    findStationRoot_wf net hwf fuel l.origin_station (hlen ▸ hla) (hlen ▸ hfuel)
  obtain ⟨p2, hfind2, hlen2, hwf2, hroots2⟩ :=
    findStationRoot_wf { net with station_parent := p1 } hwf1 fuel l.destination_station
      (by rw [hlen1, hlen]; exact hlb) (by rw [hlen1, hlen]; exact hfuel)
  simp only at hfind2 hlen2 hwf2 hroots2
  rw [hroots1 _ (hlen ▸ hlb)] at hfind2
  have hlenp2 : p2.length = n := by rw [hlen2, hlen1, hlen]
  have hroots : ∀ t, t < n → rootOf p2 t = rootOf net.station_parent t := by
    intro t ht
    rw [hroots2 t (by rw [hlen1, hlen]; exact ht), hroots1 t (hlen ▸ ht)]
  have hinv2 : ∀ u v, u < n → v < n → (rootOf p2 u = rootOf p2 v ↔ Connected acc u v) := by
    intro u v hu hv
    rw [hroots u hu, hroots v hv]
    exact hinv u v hu hv
  by_cases hr : rootOf net.station_parent l.origin_station ≠
      rootOf net.station_parent l.destination_station
  · have hr2 : rootOf p2 l.origin_station ≠ rootOf p2 l.destination_station := by
      rw [hroots _ hla, hroots _ hlb]; exact hr
    obtain ⟨p3, rk3, x, y, hmerge, hlen3, hwf3, hxy, hroots3⟩ :=
      mergeStationGroups_spec { net with station_parent := p2 } hwf2 fuel
        l.origin_station l.destination_station (by rw [hlenp2]; exact hla) (by rw [hlenp2]; exact hlb)
        (by rw [hlenp2]; exact hfuel) hr2
    simp only at hmerge hlen3 hwf3 hxy hroots3
    refine ⟨p3, rk3, by rw [hlen3, hlenp2], hwf3, Or.inr ⟨?_, ?_, ?_, _, _, hfind1, hfind2, hr⟩⟩
    · rw [← hinv _ _ hla hlb]; exact hr
    · intro rest
      rw [kruskalLoop, hfind1]
      simp only
      rw [hfind2]
      simp only
      rw [if_pos hr, hmerge]
    · exact roots_after_link hla hlb hinv2 hxy hr2
        (fun t ht => hroots3 t (by rw [hlenp2]; exact ht))
  · refine ⟨p2, net.station_rank, hlenp2, hwf2, Or.inl ⟨?_, ?_, hinv2⟩⟩
    · rw [← hinv _ _ hla hlb]; exact not_not.mp hr
    · intro rest
      rw [kruskalLoop, hfind1]
      simp only
      rw [hfind2]
      simp only
      rw [if_neg hr]

/-- On a well-formed state whose sets are the components of the accepted links, the loop
comes back, its decisions are those of the scan, and the printed total is what adding the
weights of the accepted links one by one gives. -/
theorem kruskalLoop_refines {n fuel : Nat} (hfuel : n ≤ fuel) :
    ∀ (links : List RailwayLink) (net : SouthwestRailwayNetwork) (acc : List RailwayLink)
      (total : Double),
      net.station_parent.length = n → WellFormedParents net.station_parent →
      (∀ u v, u < n → v < n →
        (rootOf net.station_parent u = rootOf net.station_parent v ↔ Connected acc u v)) →
      (∀ l ∈ links, l.origin_station < n ∧ l.destination_station < n) →
      ∃ out, kruskalLoop fuel links net acc total = some out ∧
        KruskalScan links acc out.mst_railway_tracks ∧
        (∃ taken, out.mst_railway_tracks = acc ++ taken ∧
          out.total_track_length = addLengths total taken) ∧
        ∃ parent' rank', out.network =
          { net with station_parent := parent', station_rank := rank' } := by
  intro links
  induction links with
  | nil =>
    intro net acc total _ _ _ _
    exact ⟨KruskalOutcome.mk acc total net, rfl, KruskalScan.done acc,
      ⟨[], (List.append_nil _).symm, rfl⟩, net.station_parent, net.station_rank, rfl⟩
  | cons l rest ih =>
    intro net acc total hlen hwf hinv hrange
    obtain ⟨hla, hlb⟩ := hrange l (List.mem_cons_self _ _)
    have hrest : ∀ e ∈ rest, e.origin_station < n ∧ e.destination_station < n :=
      fun e he => hrange e (List.mem_cons_of_mem _ he)
    obtain ⟨p', rk', hlen', hwf', hcase⟩ := kruskalLoop_step hfuel net acc total hlen hwf hinv l hla hlb
    rcases hcase with ⟨hc, hstep, hinv'⟩ | ⟨hnc, hstep, hinv', -⟩
    · obtain ⟨out, hrun, hscan, htotal, p4, rk4, hframe⟩ :=
        ih { net with station_parent := p', station_rank := rk' } acc total hlen' hwf' hinv' hrest
      exact ⟨out, by rw [hstep]; exact hrun, KruskalScan.skip hc hscan, htotal, p4, rk4, hframe⟩
    · obtain ⟨out, hrun, hscan, htotal, p4, rk4, hframe⟩ :=
        ih { net with station_parent := p', station_rank := rk' } (acc ++ [l])
          (Double.add total (Double.finite l.track_distance)) hlen' hwf' hinv' hrest
      obtain ⟨taken, hmst, htot⟩ := htotal
      exact ⟨out, by rw [hstep]; exact hrun, KruskalScan.take hnc hscan,
        ⟨l :: taken, by rw [hmst, List.append_assoc, List.singleton_append], htot⟩,
        p4, rk4, hframe⟩

/-- Every link of the result was accepted in a state, reached by the loop on the links before
it, in which `findStationRoot` reports its two ends in different sets. -/
theorem kruskalLoop_moment {n fuel : Nat} (hfuel : n ≤ fuel) :
    ∀ (links : List RailwayLink) (net : SouthwestRailwayNetwork) (acc0 : List RailwayLink)
      (total : Double),
      net.station_parent.length = n → WellFormedParents net.station_parent →
      (∀ u v, u < n → v < n →
        (rootOf net.station_parent u = rootOf net.station_parent v ↔ Connected acc0 u v)) →
      (∀ l ∈ links, l.origin_station < n ∧ l.destination_station < n) →
      ∀ out, kruskalLoop fuel links net acc0 total = some out →
      ∀ acc l tail, out.mst_railway_tracks = acc0 ++ acc ++ l :: tail →
      ∃ pre post mid, links = pre ++ l :: post ∧
        kruskalLoop fuel pre net acc0 total = some mid ∧
        mid.mst_railway_tracks = acc0 ++ acc ∧
        ∃ net1 net2,
          findStationRoot fuel mid.network l.origin_station =
            some (rootOf mid.network.station_parent l.origin_station, net1) ∧
          findStationRoot fuel net1 l.destination_station =
            some (rootOf mid.network.station_parent l.destination_station, net2) ∧
          rootOf mid.network.station_parent l.origin_station ≠
            rootOf mid.network.station_parent l.destination_station := by
  intro links
  induction links with
  | nil =>
    intro net acc0 total _ _ _ _ out hrun acc l tail hmst
    simp only [kruskalLoop, Option.some.injEq] at hrun
    rw [← hrun] at hmst
    have := congrArg List.length hmst
    simp at this
  | cons x rest ih =>
    intro net acc0 total hlen hwf hinv hrange out hrun acc l tail hmst
    obtain ⟨hxa, hxb⟩ := hrange x (List.mem_cons_self _ _)
    have hrest : ∀ e ∈ rest, e.origin_station < n ∧ e.destination_station < n :=
      fun e he => hrange e (List.mem_cons_of_mem _ he)
    obtain ⟨p', rk', hlen', hwf', hcase⟩ :=
      kruskalLoop_step hfuel net acc0 total hlen hwf hinv x hxa hxb
    rcases hcase with ⟨-, hstep, hinv'⟩ | ⟨-, hstep, hinv', net1, net2, hf1, hf2, hne⟩
    · rw [hstep] at hrun
      obtain ⟨pre, post, mid, hsplit, hpre, hmid, hrep⟩ :=
        ih { net with station_parent := p', station_rank := rk' } acc0 total hlen' hwf' hinv'
          hrest out hrun acc l tail hmst
      exact ⟨x :: pre, post, mid, by rw [hsplit]; rfl, by rw [hstep]; exact hpre, hmid, hrep⟩
    · rw [hstep] at hrun
      obtain ⟨out', hrun', hscan, -, -⟩ :=
        kruskalLoop_refines hfuel rest { net with station_parent := p', station_rank := rk' }
          (acc0 ++ [x]) (Double.add total (Double.finite x.track_distance)) hlen' hwf' hinv' hrest
      rw [hrun] at hrun'
      simp only [Option.some.injEq] at hrun'
      subst hrun'
      obtain ⟨t, ht, -⟩ := scan_extends hscan
      rw [hmst, List.append_assoc, List.append_assoc, List.append_cancel_left_eq,
        List.singleton_append] at ht
      cases acc with
      | nil =>
        simp only [List.nil_append, List.cons.injEq] at ht
        obtain ⟨hlx, -⟩ := ht
        subst hlx
        exact ⟨[], rest, KruskalOutcome.mk acc0 total net, rfl, rfl, by simp, net1, net2, hf1, hf2,
          hne⟩
      | cons y acc' =>
        simp only [List.cons_append, List.cons.injEq] at ht
        obtain ⟨hyx, -⟩ := ht
        subst hyx
        obtain ⟨pre, post, mid, hsplit, hpre, hmid, hrep⟩ :=
          ih { net with station_parent := p', station_rank := rk' } (acc0 ++ [y])
            (Double.add total (Double.finite y.track_distance)) hlen' hwf' hinv' hrest out hrun acc' l tail
            (by rw [hmst]; simp)
        exact ⟨y :: pre, post, mid, by rw [hsplit]; rfl, by rw [hstep]; exact hpre,
          by rw [hmid]; simp, hrep⟩

/-! ## Vectors and tables -/

theorem getD_set_eq {α : Type} (l : List α) (i k : Nat) (x d : α) :
    (l.set i x).getD k d = if k = i ∧ i < l.length then x else l.getD k d := by
  simp only [List.getD_eq_getElem?_getD, List.getElem?_set]
  by_cases hki : k = i
  · subst hki
    by_cases hlt : k < l.length
    · simp [hlt]
    · simp [hlt, List.getElem?_eq_none (Nat.le_of_not_lt hlt)]
  · simp [hki, Ne.symm hki]

theorem isSquare_setCell {n : Nat} {m : List (List ℚ)} (h : IsSquare n m) (i j : Nat) (v : ℚ) :
    IsSquare n (setCell m i j v) := by
  refine ⟨by rw [setCell, List.length_set]; exact h.1, ?_⟩
  intro row hrow
  by_cases hi : i < m.length
  · rcases List.mem_or_eq_of_mem_set hrow with hmem | hEq
    · exact h.2 row hmem
    · rw [hEq, List.length_set, List.getD_eq_getElem _ _ hi]
      exact h.2 _ (List.getElem_mem _)
  · rw [setCell, List.set_eq_of_length_le (Nat.le_of_not_lt hi)] at hrow
    exact h.2 row hrow

theorem getD_row_length {n : Nat} {m : List (List ℚ)} (h : IsSquare n m) {i : Nat} (hi : i < n) :
    (m.getD i []).length = n := by
  have hi' : i < m.length := by rw [h.1]; exact hi
  rw [List.getD_eq_getElem _ _ hi']
  exact h.2 _ (List.getElem_mem _)

theorem getCell_setCell {n : Nat} {m : List (List ℚ)} (h : IsSquare n m) {i j : Nat}
    (hi : i < n) (hj : j < n) (v : ℚ) (i' j' : Nat) :
    getCell (setCell m i j v) i' j' = if i' = i ∧ j' = j then v else getCell m i' j' := by
  unfold getCell setCell
  rw [getD_set_eq]
  by_cases hii : i' = i
  · subst hii
    rw [if_pos ⟨rfl, by rw [h.1]; exact hi⟩, getD_set_eq, getD_row_length h hi]
    by_cases hjj : j' = j
    · rw [if_pos ⟨hjj, hj⟩, if_pos ⟨rfl, hjj⟩]
    · rw [if_neg (fun hc => hjj hc.1), if_neg (fun hc => hjj hc.2)]
  · rw [if_neg (fun hc => hii hc.1), if_neg (fun hc => hii hc.1)]

/-! ## The constructor and `connectStations` -/

theorem isSquare_replicate (n : Nat) (x : ℚ) :
    IsSquare n (List.replicate n (List.replicate n x)) := by
  refine ⟨List.length_replicate _ _, ?_⟩
  intro row hrow
  rw [(List.mem_replicate.mp hrow).2, List.length_replicate]

theorem getCell_replicate {n i j : Nat} (x : ℚ) (hi : i < n) (hj : j < n) :
    getCell (List.replicate n (List.replicate n x)) i j = x := by
  unfold getCell
  simp [List.getD_eq_getElem?_getD, List.getElem?_replicate, hi, hj]

/-- The state of the constructor's loop after its first `k` rounds. -/
theorem mkNetwork_loop (n : Nat) :
    ∀ k, k ≤ n →
      ∃ m p, (List.range k).foldl
          (fun net i =>
            { net with
              distance_matrix := setCell net.distance_matrix i i 0
              station_parent := net.station_parent.set i i })
          (resized n) = { resized n with distance_matrix := m, station_parent := p } ∧
        IsSquare n m ∧ p.length = n ∧
        (∀ i j, i < n → j < n →
          getCell m i j = if i = j ∧ i < k then 0 else INT_MAX) ∧
        ∀ i, i < k → p.getD i 0 = i := by
  intro k
  induction k with
  | zero =>
    intro _
    refine ⟨_, _, rfl, isSquare_replicate n INT_MAX, List.length_replicate _ _, ?_, ?_⟩
    · intro i j hi hj
      rw [if_neg (by omega)]
      exact getCell_replicate INT_MAX hi hj
    · intro i hi; omega
  | succ k ih =>
    intro hk
    obtain ⟨m, p, hEq, hsq, hlen, hcell, hpar⟩ := ih (by omega)
    rw [List.range_succ, List.foldl_append, hEq]
    refine ⟨setCell m k k 0, p.set k k, rfl, isSquare_setCell hsq _ _ _, ?_, ?_, ?_⟩
    · rw [List.length_set, hlen]
    · intro i j hi hj
      rw [getCell_setCell hsq (by omega) (by omega), hcell i j hi hj]
      by_cases hik : i = k
      · by_cases hjk : j = k
        · rw [if_pos ⟨hik, hjk⟩, if_pos ⟨by omega, by omega⟩]
        · rw [if_neg (fun hc => hjk hc.2), if_neg (by omega), if_neg (by omega)]
      · rw [if_neg (fun hc => hik hc.1)]
        by_cases hij : i = j ∧ i < k
        · rw [if_pos hij, if_pos ⟨hij.1, by omega⟩]
        · rw [if_neg hij, if_neg (by omega)]
    · intro i hi
      rw [getD_set_eq]
      by_cases hik : i = k
      · rw [if_pos ⟨hik, by omega⟩, hik]
      · rw [if_neg (fun hc => hik hc.1)]
        exact hpar i (by omega)

theorem mkNetwork_spec (n : Nat) :
    ∃ m p, mkNetwork n = { resized n with distance_matrix := m, station_parent := p } ∧
      IsSquare n m ∧ p.length = n ∧
      (∀ i j, i < n → j < n → getCell m i j = if i = j then 0 else INT_MAX) ∧
      ∀ i, i < n → p.getD i 0 = i := by
  obtain ⟨m, p, hEq, hsq, hlen, hcell, hpar⟩ := mkNetwork_loop n n (le_refl n)
  refine ⟨m, p, hEq, hsq, hlen, ?_, hpar⟩
  intro i j hi hj
  rw [hcell i j hi hj]
  by_cases hij : i = j
  · rw [if_pos ⟨hij, hi⟩, if_pos hij]
  · rw [if_neg (fun hc => hij hc.1), if_neg hij]

/-- What a sequence of `connectStations` calls leaves unchanged, and the link list it
builds. -/
theorem buildNetwork_frame (n : Nat) (calls : List RailwayLink) :
    (buildNetwork n calls).total_stations = n ∧
      (buildNetwork n calls).all_railway_links = calls ∧
      (buildNetwork n calls).station_parent = (mkNetwork n).station_parent ∧
      (buildNetwork n calls).station_rank = (mkNetwork n).station_rank ∧
      (buildNetwork n calls).station_names = (mkNetwork n).station_names := by
  have hmk : (mkNetwork n).total_stations = n ∧ (mkNetwork n).all_railway_links = [] := by
    obtain ⟨m, p, hEq, -⟩ := mkNetwork_spec n
    rw [hEq]; exact ⟨rfl, rfl⟩
  have gen : ∀ (cs : List RailwayLink) (net : SouthwestRailwayNetwork),
      let out := cs.foldl (fun net c =>
        connectStations net c.origin_station c.destination_station c.track_distance) net
      out.total_stations = net.total_stations ∧
        out.all_railway_links = net.all_railway_links ++ cs ∧
        out.station_parent = net.station_parent ∧ out.station_rank = net.station_rank ∧
        out.station_names = net.station_names := by
    intro cs
    induction cs with
    | nil => intro net; simp
    | cons c cs ih =>
      intro net
      obtain ⟨h1, h2, h3, h4, h5⟩ := ih
        (connectStations net c.origin_station c.destination_station c.track_distance)
      simp only [List.foldl_cons]
      refine ⟨h1, ?_, h3, h4, h5⟩
      rw [h2]
      simp [connectStations]
  obtain ⟨h1, h2, h3, h4, h5⟩ := gen calls (mkNetwork n)
  refine ⟨h1.trans hmk.1, ?_, h3, h4, h5⟩
  rw [buildNetwork, h2, hmk.2, List.nil_append]

/-- A freshly built network has every station in a set of its own. -/
theorem buildNetwork_unionFind (n : Nat) (calls : List RailwayLink) :
    (buildNetwork n calls).station_parent.length = n ∧
      WellFormedParents (buildNetwork n calls).station_parent ∧
      ∀ i, i < n → rootOf (buildNetwork n calls).station_parent i = i := by
  obtain ⟨m, p, hEq, -, hlen, -, hpar⟩ := mkNetwork_spec n
  have hp : (buildNetwork n calls).station_parent = p := by
    rw [(buildNetwork_frame n calls).2.2.1, hEq]
  rw [hp]
  refine ⟨hlen, ?_, fun i hi => rootOf_of_root (hpar i hi)⟩
  have hr : Ranked p (fun _ => 0) := by
    intro x hx
    rw [hlen] at hx
    rw [hpar x hx, hlen]
    exact ⟨hx, fun hne => absurd rfl hne⟩
  exact wellFormed_of_ranked hr

/-! ## Kruskal on a freshly built network -/

theorem connected_nil_iff {u v : Nat} : Connected [] u v ↔ u = v :=
  ⟨connected_nil, fun h => h ▸ connected_refl [] u⟩

theorem connected_perm {links links' : List RailwayLink} (hp : links.Perm links') (u v : Nat) :
    Connected links u v ↔ Connected links' u v :=
  ⟨connected_mono (fun _ hl => hp.subset hl), connected_mono (fun _ hl => hp.symm.subset hl)⟩

theorem isComponentReps_congr {n : Nat} {links links' : List RailwayLink} {reps : List Nat}
    (hc : ∀ u v, Connected links u v ↔ Connected links' u v)
    (h : IsComponentReps n links reps) : IsComponentReps n links' reps := by
  refine ⟨h.1, List.Pairwise.imp (fun hab hc' => hab ((hc _ _).mpr hc')) h.2.1, ?_⟩
  intro v hv
  obtain ⟨r, hr, hvr⟩ := h.2.2 v hv
  exact ⟨r, hr, (hc _ _).mp hvr⟩

theorem sortLinks_isSortByDistance : IsSortByDistance sortLinks := by
  intro links
  haveI : IsTotal RailwayLink (fun a b => a.track_distance ≤ b.track_distance) :=
    ⟨fun a b => le_total a.track_distance b.track_distance⟩
  haveI : IsTrans RailwayLink (fun a b => a.track_distance ≤ b.track_distance) :=
    ⟨fun _ _ _ hab hbc => le_trans hab hbc⟩
  exact ⟨List.perm_insertionSort _ links, List.sorted_insertionSort _ links⟩

/-- On a freshly built network the builder comes back, its decisions are those of the scan
of the sorted link list, and the printed total is the weight of the result. -/
theorem buildOptimalRailwayNetworkWith_scan {sortFn : List RailwayLink → List RailwayLink}
    (hsort : IsSortByDistance sortFn) {n : Nat} {calls : List RailwayLink}
    (hrange : ∀ c ∈ calls, c.origin_station < n ∧ c.destination_station < n)
    {fuel : Nat} (hfuel : n ≤ fuel) :
    ∃ out, buildOptimalRailwayNetworkWith sortFn fuel (buildNetwork n calls) = some out ∧
      KruskalScan (sortFn (buildNetwork n calls).all_railway_links) [] out.mst_railway_tracks ∧
      out.total_track_length = addLengths (Double.finite 0) out.mst_railway_tracks := by
  obtain ⟨hlen, hwf, hroot⟩ := buildNetwork_unionFind n calls
  have hlinks := (buildNetwork_frame n calls).2.1
  obtain ⟨out, hrun, hscan, htotal, -⟩ :=
    kruskalLoop_refines hfuel (sortFn (buildNetwork n calls).all_railway_links)
      { buildNetwork n calls with
        all_railway_links := sortFn (buildNetwork n calls).all_railway_links } []
      (Double.finite 0) hlen hwf
      (fun u v hu hv => by
        show rootOf (buildNetwork n calls).station_parent u =
          rootOf (buildNetwork n calls).station_parent v ↔ _
        rw [hroot u hu, hroot v hv, connected_nil_iff])
      (fun l hl => hrange l (by rw [← hlinks]; exact (hsort _).1.subset hl))
  obtain ⟨taken, hmst, htot⟩ := htotal
  refine ⟨out, hrun, hscan, ?_⟩
  rw [htot, hmst, List.nil_append]

/-- On a freshly built network the builder returns a spanning forest of the link list: links
of the list, without a cycle, joining exactly the pairs the list joins. -/
theorem buildOptimalRailwayNetworkWith_forest {sortFn : List RailwayLink → List RailwayLink}
    (hsort : IsSortByDistance sortFn) {n : Nat} {calls : List RailwayLink}
    (hrange : ∀ c ∈ calls, c.origin_station < n ∧ c.destination_station < n)
    {fuel : Nat} (hfuel : n ≤ fuel) :
    ∃ out, buildOptimalRailwayNetworkWith sortFn fuel (buildNetwork n calls) = some out ∧
      KruskalScan (sortFn (buildNetwork n calls).all_railway_links) [] out.mst_railway_tracks ∧
      out.total_track_length = addLengths (Double.finite 0) out.mst_railway_tracks ∧
      (∀ l ∈ out.mst_railway_tracks, l ∈ (buildNetwork n calls).all_railway_links) ∧
      ¬ HasCycle out.mst_railway_tracks ∧
      ∀ u v, Connected out.mst_railway_tracks u v ↔
        Connected (buildNetwork n calls).all_railway_links u v := by
  obtain ⟨out, hrun, hscan, htotal⟩ := buildOptimalRailwayNetworkWith_scan hsort hrange hfuel
  obtain ⟨hperm, -⟩ := hsort (buildNetwork n calls).all_railway_links
  refine ⟨out, hrun, hscan, htotal, ?_, scan_acyclic hscan not_hasCycle_nil, ?_⟩
  · obtain ⟨t, ht, hsub⟩ := scan_extends hscan
    intro l hl
    rw [ht, List.nil_append] at hl
    exact hperm.subset (hsub.subset hl)
  · intro u v
    rw [scan_connected hscan u v, List.nil_append]
    exact connected_perm hperm u v

theorem spans_of_links_connected {forest links : List RailwayLink}
    (hmem : ∀ l ∈ forest, l ∈ links)
    (hcov : ∀ l ∈ links, Connected forest l.origin_station l.destination_station) :
    ∀ u v, Connected forest u v ↔ Connected links u v :=
  fun _ _ => ⟨connected_mono hmem, connected_of_links_connected hcov⟩

/-! ## Floyd-Warshall: one round of the outer loop -/

theorem idealRelaxCell_eq (k i j : Nat) (d : List (List ℚ)) :
    idealRelaxCell k i j d = setCell d i j (idealRelaxValue (getCell d i k) (getCell d k j) (getCell d i j))
      ∨ idealRelaxCell k i j d = d := by
  unfold idealRelaxCell idealRelaxValue
  by_cases hg : getCell d i k ≠ INT_MAX ∧ getCell d k j ≠ INT_MAX
  · rw [if_pos hg, if_pos hg]
    by_cases hlt : getCell d i k + getCell d k j < getCell d i j
    · left; simp only [hlt, if_true]
    · right; simp only [hlt, if_false]
  · right; rw [if_neg hg]

theorem isSquare_idealRelaxCell {n : Nat} {d : List (List ℚ)} (h : IsSquare n d) (k i j : Nat) :
    IsSquare n (idealRelaxCell k i j d) := by
  rcases idealRelaxCell_eq k i j d with hEq | hEq <;> rw [hEq]
  · exact isSquare_setCell h _ _ _
  · exact h

theorem getCell_idealRelaxCell {n : Nat} {d : List (List ℚ)} (h : IsSquare n d) {k i j : Nat}
    (hi : i < n) (hj : j < n) (i' j' : Nat) :
    getCell (idealRelaxCell k i j d) i' j' =
      if i' = i ∧ j' = j then idealRelaxValue (getCell d i k) (getCell d k j) (getCell d i j)
      else getCell d i' j' := by
  unfold idealRelaxCell idealRelaxValue
  by_cases hg : getCell d i k ≠ INT_MAX ∧ getCell d k j ≠ INT_MAX
  · rw [if_pos hg, if_pos hg]
    by_cases hlt : getCell d i k + getCell d k j < getCell d i j
    · simp only [hlt, if_true]
      exact getCell_setCell h hi hj _ i' j'
    · simp only [hlt, if_false]
      by_cases hc : i' = i ∧ j' = j
      · rw [if_pos hc, hc.1, hc.2]
      · rw [if_neg hc]
  · rw [if_neg hg, if_neg hg]
    by_cases hc : i' = i ∧ j' = j
    · rw [if_pos hc, hc.1, hc.2]
    · rw [if_neg hc]

theorem idealRelaxValue_self_right {a b : ℚ} (hb : 0 ≤ b) : idealRelaxValue a b a = a := by
  unfold idealRelaxValue
  split
  · rw [if_neg (by linarith)]
  · rfl

theorem idealRelaxValue_self_left {a b : ℚ} (ha : 0 ≤ a) : idealRelaxValue a b b = b := by
  unfold idealRelaxValue
  split
  · rw [if_neg (by linarith)]
  · rfl

/-- The loop over `end_station`, stopped after `m` rounds. -/
theorem idealRelaxRow_prefix {n : Nat} {d : List (List ℚ)} (h : IsSquare n d) {k i : Nat}
    (hi : i < n) (hkk : 0 ≤ getCell d k k) :
    ∀ m, m ≤ n →
      IsSquare n ((List.range m).foldl (fun r j => idealRelaxCell k i j r) d) ∧
      ∀ i' j', getCell ((List.range m).foldl (fun r j => idealRelaxCell k i j r) d) i' j' =
        if i' = i ∧ j' < m then idealRelaxValue (getCell d i k) (getCell d k j') (getCell d i j')
        else getCell d i' j' := by
  intro m
  induction m with
  | zero =>
    intro _
    refine ⟨h, fun i' j' => ?_⟩
    rw [if_neg (by omega)]
    rfl
  | succ m ih =>
    intro hm
    obtain ⟨hsq, hcell⟩ := ih (by omega)
    rw [List.range_succ, List.foldl_append]
    simp only [List.foldl_cons, List.foldl_nil]
    refine ⟨isSquare_idealRelaxCell hsq _ _ _, fun i' j' => ?_⟩
    rw [getCell_idealRelaxCell hsq hi (by omega), hcell i' j', hcell i k, hcell k m, hcell i m]
    have e1 : (if i = i ∧ k < m then idealRelaxValue (getCell d i k) (getCell d k k) (getCell d i k)
        else getCell d i k) = getCell d i k := by
      split
      · exact idealRelaxValue_self_right hkk
      · rfl
    have e2 : (if k = i ∧ m < m then idealRelaxValue (getCell d i k) (getCell d k m) (getCell d i m)
        else getCell d k m) = getCell d k m := by
      rw [if_neg (by omega)]
    have e3 : (if i = i ∧ m < m then idealRelaxValue (getCell d i k) (getCell d k m) (getCell d i m)
        else getCell d i m) = getCell d i m := by
      rw [if_neg (by omega)]
    rw [e1, e2, e3]
    by_cases hc : i' = i ∧ j' = m
    · rw [if_pos hc, if_pos ⟨hc.1, by omega⟩, hc.2]
    · rw [if_neg hc]
      by_cases hc2 : i' = i ∧ j' < m
      · rw [if_pos hc2, if_pos ⟨hc2.1, by omega⟩]
      · rw [if_neg hc2, if_neg (by omega)]

theorem idealRelaxRow_spec {n : Nat} {d : List (List ℚ)} (h : IsSquare n d) {k i : Nat}
    (hi : i < n) (hkk : 0 ≤ getCell d k k) :
    IsSquare n (idealRelaxRow n k i d) ∧
      ∀ i' j', j' < n → getCell (idealRelaxRow n k i d) i' j' =
        if i' = i then idealRelaxValue (getCell d i k) (getCell d k j') (getCell d i j')
        else getCell d i' j' := by
  obtain ⟨hsq, hcell⟩ := idealRelaxRow_prefix h hi hkk n (le_refl n)
  refine ⟨hsq, fun i' j' hj' => ?_⟩
  unfold idealRelaxRow
  rw [hcell i' j']
  by_cases hc : i' = i
  · rw [if_pos ⟨hc, hj'⟩, if_pos hc]
  · rw [if_neg (fun h => hc h.1), if_neg hc]

/-- The loop over `start_station`, stopped after `m` rounds. -/
theorem idealRelaxTransit_prefix {n : Nat} {d : List (List ℚ)} (h : IsSquare n d) {k : Nat}
    (hk : k < n) (hkk : 0 ≤ getCell d k k) :
    ∀ m, m ≤ n →
      IsSquare n ((List.range m).foldl (fun r i => idealRelaxRow n k i r) d) ∧
      ∀ i' j', j' < n →
        getCell ((List.range m).foldl (fun r i => idealRelaxRow n k i r) d) i' j' =
          if i' < m then idealRelaxValue (getCell d i' k) (getCell d k j') (getCell d i' j')
          else getCell d i' j' := by
  intro m
  induction m with
  | zero =>
    intro _
    refine ⟨h, fun i' j' _ => ?_⟩
    rw [if_neg (by omega)]
    rfl
  | succ m ih =>
    intro hm
    obtain ⟨hsq, hcell⟩ := ih (by omega)
    rw [List.range_succ, List.foldl_append]
    simp only [List.foldl_cons, List.foldl_nil]
    have hkk' : 0 ≤ getCell ((List.range m).foldl (fun r i => idealRelaxRow n k i r) d) k k := by
      rw [hcell k k hk]
      split
      · rw [idealRelaxValue_self_right hkk]; exact hkk
      · exact hkk
    obtain ⟨hsq', hcell'⟩ := idealRelaxRow_spec hsq (show m < n by omega) hkk'
    refine ⟨hsq', fun i' j' hj' => ?_⟩
    rw [hcell' i' j' hj', hcell m k hk, hcell k j' hj', hcell m j' hj', hcell i' j' hj']
    have e1 : (if m < m then idealRelaxValue (getCell d m k) (getCell d k k) (getCell d m k)
        else getCell d m k) = getCell d m k := by
      rw [if_neg (by omega)]
    have e2 : (if k < m then idealRelaxValue (getCell d k k) (getCell d k j') (getCell d k j')
        else getCell d k j') = getCell d k j' := by
      split
      · exact idealRelaxValue_self_left hkk
      · rfl
    have e3 : (if m < m then idealRelaxValue (getCell d m k) (getCell d k j') (getCell d m j')
        else getCell d m j') = getCell d m j' := by
      rw [if_neg (by omega)]
    rw [e1, e2, e3]
    by_cases hc : i' = m
    · rw [if_pos hc, if_pos (by omega), hc]
    · rw [if_neg hc]
      by_cases hc2 : i' < m
      · rw [if_pos hc2, if_pos (by omega)]
      · rw [if_neg hc2, if_neg (by omega)]

/-- One round of the outer loop, although it works in place, relaxes every cell with the
values the table had when the round began. -/
theorem idealRelaxTransit_spec {n : Nat} {d : List (List ℚ)} (h : IsSquare n d) {k : Nat}
    (hk : k < n) (hkk : 0 ≤ getCell d k k) :
    IsSquare n (idealRelaxTransit n k d) ∧
      ∀ i j, i < n → j < n → getCell (idealRelaxTransit n k d) i j =
        idealRelaxValue (getCell d i k) (getCell d k j) (getCell d i j) := by
  obtain ⟨hsq, hcell⟩ := idealRelaxTransit_prefix h hk hkk n (le_refl n)
  refine ⟨hsq, fun i j hi hj => ?_⟩
  unfold idealRelaxTransit
  rw [hcell i j hj, if_pos hi]

/-! ## Floyd-Warshall: what the rounds preserve -/

theorem idealRelaxValue_nonneg {a b c : ℚ} (ha : 0 ≤ a) (hb : 0 ≤ b) (hc : 0 ≤ c) :
    0 ≤ idealRelaxValue a b c := by
  unfold idealRelaxValue
  split
  · split
    · linarith
    · exact hc
  · exact hc

theorem idealRelaxValue_le (a b c : ℚ) : idealRelaxValue a b c ≤ c := by
  unfold idealRelaxValue
  split
  · split
    · linarith
    · exact le_refl c
  · exact le_refl c

theorem idealRelaxValue_comm (a b c : ℚ) : idealRelaxValue a b c = idealRelaxValue b a c := by
  unfold idealRelaxValue
  rw [add_comm a b]
  by_cases hg : a ≠ INT_MAX ∧ b ≠ INT_MAX
  · rw [if_pos hg, if_pos hg.symm]
  · rw [if_neg hg, if_neg (fun h => hg h.symm)]

theorem idealRelaxValue_cases (a b c : ℚ) :
    idealRelaxValue a b c = c ∨
      (idealRelaxValue a b c = a + b ∧ a ≠ INT_MAX ∧ b ≠ INT_MAX ∧ a + b < c) := by
  unfold idealRelaxValue
  by_cases hg : a ≠ INT_MAX ∧ b ≠ INT_MAX
  · rw [if_pos hg]
    by_cases hlt : a + b < c
    · rw [if_pos hlt]; exact Or.inr ⟨rfl, hg.1, hg.2, hlt⟩
    · rw [if_neg hlt]; exact Or.inl rfl
  · rw [if_neg hg]; exact Or.inl rfl

/-- When no entry exceeds the sentinel, the guard on the sentinel never blocks a relaxation
that would lower the cell. -/
theorem idealRelaxValue_le_add {a b c : ℚ} (ha : 0 ≤ a) (hb : 0 ≤ b) (hc : c ≤ INT_MAX) :
    idealRelaxValue a b c ≤ a + b := by
  unfold idealRelaxValue
  by_cases hg : a ≠ INT_MAX ∧ b ≠ INT_MAX
  · rw [if_pos hg]
    split
    · exact le_refl _
    · linarith
  · rw [if_neg hg]
    rw [not_and_or, not_not, not_not] at hg
    rcases hg with hg | hg <;> rw [hg] at * <;> linarith

/-- Induction over the rounds of the outer loop of `idealShortestRoutes`. -/
theorem idealRoutes_induction (n : Nat) (P : Nat → List (List ℚ) → Prop)
    (m : List (List ℚ)) (h0 : P 0 m)
    (hstep : ∀ k d, k < n → P k d → P (k + 1) (idealRelaxTransit n k d)) :
    ∀ K, K ≤ n → P K ((List.range K).foldl (fun r k => idealRelaxTransit n k r) m) := by
  intro K
  induction K with
  | zero => intro _; exact h0
  | succ K ih =>
    intro hK
    rw [List.range_succ, List.foldl_append]
    exact hstep K _ (by omega) (ih (by omega))

/-- The table stays square, its entries stay non-negative and never grow. -/
theorem idealRoutes_basic (net : SouthwestRailwayNetwork)
    (hsq : IsSquare net.total_stations net.distance_matrix)
    (hnn : ∀ i j, i < net.total_stations → j < net.total_stations →
      0 ≤ getCell net.distance_matrix i j) :
    IsSquare net.total_stations (idealShortestRoutes net) ∧
      ∀ i j, i < net.total_stations → j < net.total_stations →
        0 ≤ getCell (idealShortestRoutes net) i j ∧
        getCell (idealShortestRoutes net) i j ≤ getCell net.distance_matrix i j := by
  refine idealRoutes_induction net.total_stations
    (fun _ d => IsSquare net.total_stations d ∧
      ∀ i j, i < net.total_stations → j < net.total_stations →
        0 ≤ getCell d i j ∧ getCell d i j ≤ getCell net.distance_matrix i j)
    net.distance_matrix ⟨hsq, fun i j hi hj => ⟨hnn i j hi hj, le_refl _⟩⟩ ?_
    net.total_stations (le_refl _)
  rintro k d hk ⟨hd, hcells⟩
  obtain ⟨hd', hcell'⟩ := idealRelaxTransit_spec hd hk (hcells k k hk hk).1
  refine ⟨hd', fun i j hi hj => ?_⟩
  rw [hcell' i j hi hj]
  exact ⟨idealRelaxValue_nonneg (hcells i k hi hk).1 (hcells k j hk hj).1 (hcells i j hi hj).1,
    le_trans (idealRelaxValue_le _ _ _) (hcells i j hi hj).2⟩

/-- A symmetric matrix gives a symmetric table. -/
theorem idealRoutes_symm (net : SouthwestRailwayNetwork)
    (hsq : IsSquare net.total_stations net.distance_matrix)
    (hnn : ∀ i j, i < net.total_stations → j < net.total_stations →
      0 ≤ getCell net.distance_matrix i j)
    (hsymm : ∀ i j, i < net.total_stations → j < net.total_stations →
      getCell net.distance_matrix i j = getCell net.distance_matrix j i) :
    ∀ i j, i < net.total_stations → j < net.total_stations →
      getCell (idealShortestRoutes net) i j = getCell (idealShortestRoutes net) j i := by
  have := idealRoutes_induction net.total_stations
    (fun _ d => IsSquare net.total_stations d ∧
      (∀ i j, i < net.total_stations → j < net.total_stations → 0 ≤ getCell d i j) ∧
      ∀ i j, i < net.total_stations → j < net.total_stations → getCell d i j = getCell d j i)
    net.distance_matrix ⟨hsq, hnn, hsymm⟩ ?_ net.total_stations (le_refl _)
  · exact this.2.2
  rintro k d hk ⟨hd, hnn', hsymm'⟩
  obtain ⟨hd', hcell'⟩ := idealRelaxTransit_spec hd hk (hnn' k k hk hk)
  refine ⟨hd', fun i j hi hj => ?_, fun i j hi hj => ?_⟩
  · rw [hcell' i j hi hj]
    exact idealRelaxValue_nonneg (hnn' i k hi hk) (hnn' k j hk hj) (hnn' i j hi hj)
  · rw [hcell' i j hi hj, hcell' j i hj hi, idealRelaxValue_comm, hsymm' i k hi hk,
      hsymm' k j hk hj, hsymm' i j hi hj]

/-- When no matrix entry exceeds the sentinel, the table satisfies the triangle inequality. -/
theorem idealRoutes_triangle (net : SouthwestRailwayNetwork)
    (hsq : IsSquare net.total_stations net.distance_matrix)
    (hnn : ∀ i j, i < net.total_stations → j < net.total_stations →
      0 ≤ getCell net.distance_matrix i j)
    (hle : ∀ i j, i < net.total_stations → j < net.total_stations →
      getCell net.distance_matrix i j ≤ INT_MAX) :
    ∀ i j l, i < net.total_stations → j < net.total_stations → l < net.total_stations →
      getCell (idealShortestRoutes net) i j ≤
        getCell (idealShortestRoutes net) i l + getCell (idealShortestRoutes net) l j := by
  have := idealRoutes_induction net.total_stations
    (fun K d => IsSquare net.total_stations d ∧
      (∀ i j, i < net.total_stations → j < net.total_stations →
        0 ≤ getCell d i j ∧ getCell d i j ≤ INT_MAX) ∧
      ∀ i j l, i < net.total_stations → j < net.total_stations → l < K →
        getCell d i j ≤ getCell d i l + getCell d l j)
    net.distance_matrix
    ⟨hsq, fun i j hi hj => ⟨hnn i j hi hj, hle i j hi hj⟩, fun i j l _ _ hl => by omega⟩ ?_
    net.total_stations (le_refl _)
  · exact fun i j l hi hj hl => this.2.2 i j l hi hj hl
  rintro k d hk ⟨hd, hb, htri⟩
  obtain ⟨hd', hcell'⟩ := idealRelaxTransit_spec hd hk (hb k k hk hk).1
  refine ⟨hd', fun i j hi hj => ?_, fun i j l hi hj hl => ?_⟩
  · rw [hcell' i j hi hj]
    exact ⟨idealRelaxValue_nonneg (hb i k hi hk).1 (hb k j hk hj).1 (hb i j hi hj).1,
      le_trans (idealRelaxValue_le _ _ _) (hb i j hi hj).2⟩
  · have hln : l < net.total_stations := by omega
    rw [hcell' i j hi hj, hcell' i l hi hln, hcell' l j hln hj]
    have hij1 := idealRelaxValue_le (getCell d i k) (getCell d k j) (getCell d i j)
    have hij2 := idealRelaxValue_le_add (hb i k hi hk).1 (hb k j hk hj).1 (hb i j hi hj).2
    rcases Nat.lt_succ_iff_lt_or_eq.mp hl with hlk | hlk
    · have t1 := htri i j l hi hj hlk
      have t2 := htri i k l hi hk hlk
      have t3 := htri k j l hk hj hlk
      have n1 := (hb k l hk hln).1
      have n2 := (hb l k hln hk).1
      rcases idealRelaxValue_cases (getCell d i k) (getCell d k l) (getCell d i l) with e1 | ⟨e1, -⟩ <;>
        rcases idealRelaxValue_cases (getCell d l k) (getCell d k j) (getCell d l j) with
          e2 | ⟨e2, -⟩ <;>
        rw [e1, e2] <;> linarith
    · subst hlk
      rw [idealRelaxValue_self_right (hb l l hln hln).1, idealRelaxValue_self_left (hb l l hln hln).1]
      exact hij2

/-! ## The distance matrix of a built network -/

theorem connectStations_matrix {n : Nat} {net : SouthwestRailwayNetwork}
    (hsq : IsSquare n net.distance_matrix) {a b : Nat} (ha : a < n) (hb : b < n) (w : ℚ) :
    IsSquare n (connectStations net a b w).distance_matrix ∧
      ∀ i j, getCell (connectStations net a b w).distance_matrix i j =
        if (i = a ∧ j = b) ∨ (i = b ∧ j = a) then w else getCell net.distance_matrix i j := by
  refine ⟨isSquare_setCell (isSquare_setCell hsq _ _ _) _ _ _, fun i j => ?_⟩
  show getCell (setCell (setCell net.distance_matrix a b w) b a w) i j = _
  rw [getCell_setCell (isSquare_setCell hsq _ _ _) hb ha, getCell_setCell hsq ha hb]
  by_cases h1 : i = b ∧ j = a
  · rw [if_pos h1, if_pos (Or.inr h1)]
  · rw [if_neg h1]
    by_cases h2 : i = a ∧ j = b
    · rw [if_pos h2, if_pos (Or.inl h2)]
    · rw [if_neg h2, if_neg (by tauto)]

theorem buildNetwork_snoc (n : Nat) (calls : List RailwayLink) (c : RailwayLink) :
    buildNetwork n (calls ++ [c]) =
      connectStations (buildNetwork n calls) c.origin_station c.destination_station
        c.track_distance := by
  simp [buildNetwork, List.foldl_append]

/-- Every entry of the matrix is either as the constructor left it, when no link joins the two
stations, or the weight of a link that joins them; and the matrix is symmetric. -/
theorem buildNetwork_matrix (n : Nat) (calls : List RailwayLink)
    (hrange : ∀ c ∈ calls, c.origin_station < n ∧ c.destination_station < n) :
    IsSquare n (buildNetwork n calls).distance_matrix ∧
      ∀ i j, i < n → j < n →
        getCell (buildNetwork n calls).distance_matrix i j =
          getCell (buildNetwork n calls).distance_matrix j i ∧
        ((getCell (buildNetwork n calls).distance_matrix i j = (if i = j then 0 else INT_MAX) ∧
            ¬ ∃ l ∈ calls, Joins l i j) ∨
          ∃ l ∈ calls, Joins l i j ∧
            getCell (buildNetwork n calls).distance_matrix i j = l.track_distance) := by
  induction calls using List.reverseRecOn with
  | nil =>
    obtain ⟨m, p, hEq, hsq, -, hcell, -⟩ := mkNetwork_spec n
    have hm : (buildNetwork n []).distance_matrix = m := by
      show (mkNetwork n).distance_matrix = m
      rw [hEq]
    rw [hm]
    refine ⟨hsq, fun i j hi hj => ⟨?_, Or.inl ⟨hcell i j hi hj, by simp⟩⟩⟩
    rw [hcell i j hi hj, hcell j i hj hi]
    by_cases hij : i = j
    · rw [if_pos hij, if_pos hij.symm]
    · rw [if_neg hij, if_neg (Ne.symm hij)]
  | append_singleton calls c ih =>
    have hrange' : ∀ e ∈ calls, e.origin_station < n ∧ e.destination_station < n :=
      fun e he => hrange e (List.mem_append_left _ he)
    obtain ⟨hca, hcb⟩ := hrange c (List.mem_append_right _ (List.mem_singleton.mpr rfl))
    obtain ⟨hsq, hcells⟩ := ih hrange'
    rw [buildNetwork_snoc]
    obtain ⟨hsq', hcell'⟩ := connectStations_matrix hsq hca hcb c.track_distance
    refine ⟨hsq', fun i j hi hj => ?_⟩
    rw [hcell' i j, hcell' j i]
    obtain ⟨hsym, hcase⟩ := hcells i j hi hj
    by_cases hc : (i = c.origin_station ∧ j = c.destination_station) ∨
        (i = c.destination_station ∧ j = c.origin_station)
    · have hc' : (j = c.origin_station ∧ i = c.destination_station) ∨
          (j = c.destination_station ∧ i = c.origin_station) := by tauto
      rw [if_pos hc, if_pos hc']
      refine ⟨rfl, Or.inr ⟨c, List.mem_append_right _ (List.mem_singleton.mpr rfl), ?_, rfl⟩⟩
      rcases hc with ⟨h1, h2⟩ | ⟨h1, h2⟩
      · exact Or.inl ⟨h1.symm, h2.symm⟩
      · exact Or.inr ⟨h2.symm, h1.symm⟩
    · have hc' : ¬ ((j = c.origin_station ∧ i = c.destination_station) ∨
          (j = c.destination_station ∧ i = c.origin_station)) := by tauto
      rw [if_neg hc, if_neg hc']
      refine ⟨hsym, ?_⟩
      rcases hcase with ⟨hval, hno⟩ | ⟨l, hl, hj', hval⟩
      · left
        refine ⟨hval, ?_⟩
        rintro ⟨l, hl, hjl⟩
        rcases List.mem_append.mp hl with hl | hl
        · exact hno ⟨l, hl, hjl⟩
        · rw [List.mem_singleton.mp hl] at hjl
          apply hc
          rcases hjl with ⟨h1, h2⟩ | ⟨h1, h2⟩
          · exact Or.inl ⟨h1.symm, h2.symm⟩
          · exact Or.inr ⟨h2.symm, h1.symm⟩
      · exact Or.inr ⟨l, List.mem_append_left _ hl, hj', hval⟩

/-- A link that no later link overwrites has its weight in the matrix, in both directions. -/
theorem buildNetwork_lastWritten (n : Nat) (pre post : List RailwayLink) (e : RailwayLink)
    (hrange : ∀ c ∈ pre ++ e :: post, c.origin_station < n ∧ c.destination_station < n)
    (hlast : ∀ l ∈ post, ¬ SamePair l e) :
    getCell (buildNetwork n (pre ++ e :: post)).distance_matrix
        e.origin_station e.destination_station = e.track_distance ∧
      getCell (buildNetwork n (pre ++ e :: post)).distance_matrix
        e.destination_station e.origin_station = e.track_distance := by
  have untouched : ∀ (cs : List RailwayLink) (net : SouthwestRailwayNetwork),
      IsSquare n net.distance_matrix →
      (∀ c ∈ cs, c.origin_station < n ∧ c.destination_station < n) →
      (∀ l ∈ cs, ¬ SamePair l e) →
      let out := cs.foldl (fun net c =>
        connectStations net c.origin_station c.destination_station c.track_distance) net
      getCell out.distance_matrix e.origin_station e.destination_station =
          getCell net.distance_matrix e.origin_station e.destination_station ∧
        getCell out.distance_matrix e.destination_station e.origin_station =
          getCell net.distance_matrix e.destination_station e.origin_station := by
    intro cs
    induction cs with
    | nil => intro net _ _ _; exact ⟨rfl, rfl⟩
    | cons c cs ih =>
      intro net hsq hr hl
      obtain ⟨hca, hcb⟩ := hr c (List.mem_cons_self _ _)
      obtain ⟨hsq', hcell'⟩ := connectStations_matrix hsq hca hcb c.track_distance
      have hne := hl c (List.mem_cons_self _ _)
      obtain ⟨h1, h2⟩ := ih _ hsq' (fun x hx => hr x (List.mem_cons_of_mem _ hx))
        (fun x hx => hl x (List.mem_cons_of_mem _ hx))
      simp only [List.foldl_cons]
      rw [h1, h2, hcell', hcell']
      unfold SamePair at hne
      rw [if_neg (by intro h; apply hne; tauto), if_neg (by intro h; apply hne; tauto)]
      exact ⟨rfl, rfl⟩
  have hpre : ∀ c ∈ pre, c.origin_station < n ∧ c.destination_station < n :=
    fun c hc => hrange c (List.mem_append_left _ hc)
  obtain ⟨hea, heb⟩ := hrange e (List.mem_append_right _ (List.mem_cons_self _ _))
  obtain ⟨hsq, -⟩ := buildNetwork_matrix n pre hpre
  obtain ⟨hsq', hcell'⟩ := connectStations_matrix hsq hea heb e.track_distance
  have hsplit : buildNetwork n (pre ++ e :: post) =
      post.foldl (fun net c =>
        connectStations net c.origin_station c.destination_station c.track_distance)
        (connectStations (buildNetwork n pre) e.origin_station e.destination_station
          e.track_distance) := by
    simp [buildNetwork, List.foldl_append]
  obtain ⟨h1, h2⟩ := untouched post _ hsq'
    (fun c hc => hrange c (List.mem_append_right _ (List.mem_cons_of_mem _ hc))) hlast
  rw [hsplit, h1, h2, hcell', hcell']
  rw [if_pos (Or.inl ⟨rfl, rfl⟩), if_pos (Or.inr ⟨rfl, rfl⟩)]
  exact ⟨rfl, rfl⟩

/-! ## Routes -/

theorem isRoute_append {links : List RailwayLink} {r1 r2 : List Nat} {u x v : Nat}
    (h1 : IsRoute links r1 u x) (h2 : IsRoute links r2 x v) : IsRoute links (r1 ++ r2) u v := by
  induction r1 generalizing u with
  | nil => rw [show u = x from h1]; exact h2
  | cons y r1 ih => exact ⟨h1.1, ih h1.2⟩

theorem routeLength_append {links : List RailwayLink} (m : List (List ℚ)) {r1 : List Nat}
    (r2 : List Nat) {u x : Nat} (h1 : IsRoute links r1 u x) :
    routeLength m (r1 ++ r2) u = routeLength m r1 u + routeLength m r2 x := by
  induction r1 generalizing u with
  | nil => rw [show u = x from h1]; simp [routeLength]
  | cons y r1 ih =>
    show getCell m u y + routeLength m (r1 ++ r2) y = getCell m u y + routeLength m r1 y + _
    rw [ih h1.2, add_assoc]

theorem isRoute_connected {links : List RailwayLink} {r : List Nat} {u v : Nat}
    (h : IsRoute links r u v) : Connected links u v := by
  induction r generalizing u with
  | nil => rw [show u = v from h]; exact connected_refl _ _
  | cons y r ih =>
    obtain ⟨⟨l, hl, hj⟩, hrest⟩ := h
    exact connected_trans (connected_of_joins hl hj) (ih hrest)

theorem joins_lt {n : Nat} {links : List RailwayLink}
    (hrange : ∀ c ∈ links, c.origin_station < n ∧ c.destination_station < n)
    {l : RailwayLink} (hl : l ∈ links) {u x : Nat} (hj : Joins l u x) : u < n ∧ x < n := by
  obtain ⟨ha, hb⟩ := hrange l hl
  rcases hj with ⟨h1, h2⟩ | ⟨h1, h2⟩
  · rw [← h1, ← h2]; exact ⟨ha, hb⟩
  · rw [← h1, ← h2]; exact ⟨hb, ha⟩

/-- A walk along links whose weights are in the matrix is a route of the same length. -/
theorem walk_to_route {links : List RailwayLink} {m : List (List ℚ)} :
    ∀ (es : List RailwayLink) (u v : Nat), IsWalk es u v →
      (∀ e ∈ es, e ∈ links ∧
        getCell m e.origin_station e.destination_station = e.track_distance ∧
        getCell m e.destination_station e.origin_station = e.track_distance) →
      ∃ r : List Nat, IsRoute links r u v ∧ routeLength m r u = totalWeight es ∧
        (es ≠ [] → r ≠ []) := by
  intro es
  induction es with
  | nil =>
    intro u v hw _
    exact ⟨[], hw, rfl, fun h => absurd rfl h⟩
  | cons e es ih =>
    intro u v hw hes
    obtain ⟨x, hj, hrest⟩ := hw
    obtain ⟨r, hr, hlen, -⟩ := ih x v hrest (fun e' he' => hes e' (List.mem_cons_of_mem _ he'))
    obtain ⟨hmem, hw1, hw2⟩ := hes e (List.mem_cons_self _ _)
    refine ⟨x :: r, ⟨⟨e, hmem, hj⟩, hr⟩, ?_, fun _ => List.cons_ne_nil _ _⟩
    show getCell m u x + routeLength m r x = totalWeight (e :: es)
    have hux : getCell m u x = e.track_distance := by
      rcases hj with ⟨h1, h2⟩ | ⟨h1, h2⟩
      · rw [← h1, ← h2]; exact hw1
      · rw [← h1, ← h2]; exact hw2
    rw [hux, hlen]
    simp [totalWeight]

theorem totalWeight_le_of_sublist {es links : List RailwayLink} (hsub : es.Sublist links)
    (hnn : ∀ e ∈ links, 0 ≤ e.track_distance) : totalWeight es ≤ totalWeight links := by
  induction hsub with
  | slnil => exact le_refl _
  | @cons l1 l2 a _ ih =>
    have h1 := ih (fun e he => hnn e (List.mem_cons_of_mem _ he))
    have h2 := hnn a (List.mem_cons_self _ _)
    simp only [totalWeight, List.map_cons, List.sum_cons] at h1 ⊢
    linarith
  | @cons₂ l1 l2 a _ ih =>
    have h1 := ih (fun e he => hnn e (List.mem_cons_of_mem _ he))
    simp only [totalWeight, List.map_cons, List.sum_cons] at h1 ⊢
    linarith

theorem totalWeight_le_of_subperm {es links : List RailwayLink} (hsub : es.Subperm links)
    (hnn : ∀ e ∈ links, 0 ≤ e.track_distance) : totalWeight es ≤ totalWeight links := by
  obtain ⟨l, hperm, hsl⟩ := hsub
  have : totalWeight es = totalWeight l := by
    unfold totalWeight
    exact ((hperm.map _).sum_eq).symm
  rw [this]
  exact totalWeight_le_of_sublist hsl hnn

/-! ## The links whose weight is in the matrix -/

theorem samePair_joins {l e : RailwayLink} (h : SamePair l e) :
    Joins l e.origin_station e.destination_station := by
  rcases h with ⟨h1, h2⟩ | ⟨h1, h2⟩
  · exact Or.inl ⟨h1, h2⟩
  · exact Or.inr ⟨h1, h2⟩

theorem lastWritten_sublist : ∀ calls : List RailwayLink, (lastWritten calls).Sublist calls := by
  intro calls
  induction calls with
  | nil => exact List.Sublist.refl _
  | cons c rest ih =>
    unfold lastWritten
    split
    · exact ih.cons _
    · exact ih.cons₂ _

theorem lastWritten_split : ∀ (calls : List RailwayLink) (e : RailwayLink),
    e ∈ lastWritten calls →
      ∃ pre post, calls = pre ++ e :: post ∧ ∀ l ∈ post, ¬ SamePair l e := by
  intro calls
  induction calls with
  | nil => intro e he; simp [lastWritten] at he
  | cons c rest ih =>
    intro e he
    unfold lastWritten at he
    split at he
    · obtain ⟨pre, post, hEq, hlast⟩ := ih e he
      exact ⟨c :: pre, post, by rw [hEq]; rfl, hlast⟩
    · rename_i hno
      rcases List.mem_cons.mp he with hec | he
      · subst hec
        exact ⟨[], rest, rfl, fun l hl hs => hno ⟨l, hl, hs⟩⟩
      · obtain ⟨pre, post, hEq, hlast⟩ := ih e he
        exact ⟨c :: pre, post, by rw [hEq]; rfl, hlast⟩

theorem lastWritten_covers : ∀ (calls : List RailwayLink) (c : RailwayLink), c ∈ calls →
    ∃ e ∈ lastWritten calls, SamePair e c := by
  intro calls
  induction calls with
  | nil => intro c hc; simp at hc
  | cons c0 rest ih =>
    intro c hc
    have hrest : ∀ x ∈ rest, ∃ e ∈ lastWritten (c0 :: rest), SamePair e x := by
      intro x hx
      obtain ⟨e, he, hs⟩ := ih x hx
      refine ⟨e, ?_, hs⟩
      unfold lastWritten
      split
      · exact he
      · exact List.mem_cons_of_mem _ he
    rcases List.mem_cons.mp hc with hc | hc
    · subst hc
      by_cases hover : ∃ l ∈ rest, SamePair l c
      · obtain ⟨l, hl, hs⟩ := hover
        obtain ⟨e, he, hs'⟩ := hrest l hl
        refine ⟨e, he, ?_⟩
        unfold SamePair at hs hs' ⊢
        omega
      · refine ⟨c, ?_, Or.inl ⟨rfl, rfl⟩⟩
        unfold lastWritten
        rw [if_neg hover]
        exact List.mem_cons_self _ _
    · exact hrest c hc

theorem connected_lastWritten {calls : List RailwayLink} {u v : Nat}
    (h : Connected calls u v) : Connected (lastWritten calls) u v := by
  refine connected_of_links_connected ?_ h
  intro c hc
  obtain ⟨e, he, hs⟩ := lastWritten_covers calls c hc
  exact connected_of_joins he (samePair_joins hs)

/-- When the weights are non-negative and sum to less than the sentinel, two different
stations that are joined are joined by a route shorter than the sentinel. -/
theorem exists_short_route {n : Nat} {calls : List RailwayLink} (hvalid : ValidCalls n calls)
    (hsum : totalWeight calls < INT_MAX) {i j : Nat} (hc : Connected calls i j) (hne : i ≠ j) :
    ∃ r : List Nat, r ≠ [] ∧ IsRoute calls r i j ∧
      routeLength (buildNetwork n calls).distance_matrix r i < INT_MAX := by
  obtain ⟨es, hsub, hwalk⟩ := exists_trail (connected_lastWritten hc) hne
  have hesne : es ≠ [] := by
    rintro rfl
    exact hne hwalk
  have hrange : ∀ c ∈ calls, c.origin_station < n ∧ c.destination_station < n :=
    fun c hc => ⟨(hvalid c hc).1, (hvalid c hc).2.1⟩
  have hes : ∀ e ∈ es, e ∈ calls ∧
      getCell (buildNetwork n calls).distance_matrix e.origin_station e.destination_station =
        e.track_distance ∧
      getCell (buildNetwork n calls).distance_matrix e.destination_station e.origin_station =
        e.track_distance := by
    intro e he
    have heL : e ∈ lastWritten calls := hsub.subset he
    obtain ⟨pre, post, hEq, hlast⟩ := lastWritten_split calls e heL
    refine ⟨(lastWritten_sublist calls).subset heL, ?_⟩
    have := buildNetwork_lastWritten n pre post e (by rw [← hEq]; exact hrange) hlast
    rw [← hEq] at this
    exact this
  obtain ⟨r, hr, hlen, hrne⟩ := walk_to_route es i j hwalk hes
  refine ⟨r, hrne hesne, hr, ?_⟩
  rw [hlen]
  have hnn : ∀ e ∈ calls, 0 ≤ e.track_distance := fun e he => (hvalid e he).2.2
  have h1 : totalWeight es ≤ totalWeight (lastWritten calls) :=
    totalWeight_le_of_subperm hsub
      (fun e he => hnn e ((lastWritten_sublist calls).subset he))
  have h2 := totalWeight_le_of_sublist (lastWritten_sublist calls) hnn
  linarith

/-! ## Floyd-Warshall on a built network -/

theorem int_max_pos : (0 : ℚ) < INT_MAX := by
  unfold INT_MAX; norm_num

theorem weight_le_totalWeight {calls : List RailwayLink}
    (hnn : ∀ e ∈ calls, 0 ≤ e.track_distance) {e : RailwayLink} (he : e ∈ calls) :
    e.track_distance ≤ totalWeight calls := by
  have := totalWeight_le_of_sublist (List.singleton_sublist.mpr he) hnn
  simpa [totalWeight] using this

/-- The matrix of a network built by valid calls: square, symmetric, non-negative, and an
entry other than the sentinel belongs to the diagonal or to a pair joined by a link. -/
theorem buildNetwork_table {n : Nat} {calls : List RailwayLink} (hvalid : ValidCalls n calls) :
    (buildNetwork n calls).total_stations = n ∧
      IsSquare n (buildNetwork n calls).distance_matrix ∧
      (∀ i j, i < n → j < n → 0 ≤ getCell (buildNetwork n calls).distance_matrix i j) ∧
      (∀ i j, i < n → j < n →
        getCell (buildNetwork n calls).distance_matrix i j =
          getCell (buildNetwork n calls).distance_matrix j i) ∧
      ∀ bound : ℚ, INT_MAX ≤ bound → (∀ c ∈ calls, c.track_distance ≤ bound) →
        ∀ i j, i < n → j < n → getCell (buildNetwork n calls).distance_matrix i j ≤ bound := by
  have hrange : ∀ c ∈ calls, c.origin_station < n ∧ c.destination_station < n :=
    fun c hc => ⟨(hvalid c hc).1, (hvalid c hc).2.1⟩
  obtain ⟨hsq, hcells⟩ := buildNetwork_matrix n calls hrange
  refine ⟨(buildNetwork_frame n calls).1, hsq, ?_, fun i j hi hj => (hcells i j hi hj).1, ?_⟩
  · intro i j hi hj
    rcases (hcells i j hi hj).2 with ⟨hval, -⟩ | ⟨l, hl, -, hval⟩
    · rw [hval]
      split
      · exact le_refl _
      · exact le_of_lt int_max_pos
    · rw [hval]; exact (hvalid l hl).2.2
  · intro bound hb hw i j hi hj
    rcases (hcells i j hi hj).2 with ⟨hval, -⟩ | ⟨l, hl, -, hval⟩
    · rw [hval]
      split
      · exact le_trans (le_of_lt int_max_pos) hb
      · exact hb
    · rw [hval]; exact hw l hl

/-- Every entry of the table other than the sentinel is the length of a route. -/
theorem idealRoutes_route {n : Nat} {calls : List RailwayLink} (hvalid : ValidCalls n calls) :
    ∀ i j, i < n → j < n →
      getCell (idealShortestRoutes (buildNetwork n calls)) i j ≠ INT_MAX →
      ∃ r : List Nat, IsRoute calls r i j ∧
        routeLength (buildNetwork n calls).distance_matrix r i =
          getCell (idealShortestRoutes (buildNetwork n calls)) i j := by
  have hrange : ∀ c ∈ calls, c.origin_station < n ∧ c.destination_station < n :=
    fun c hc => ⟨(hvalid c hc).1, (hvalid c hc).2.1⟩
  obtain ⟨hn, hsq, hnn, -, -⟩ := buildNetwork_table hvalid
  obtain ⟨-, hcells⟩ := buildNetwork_matrix n calls hrange
  have := idealRoutes_induction n
    (fun _ d => IsSquare n d ∧ (∀ i j, i < n → j < n → 0 ≤ getCell d i j) ∧
      ∀ i j, i < n → j < n → getCell d i j ≠ INT_MAX →
        ∃ r : List Nat, IsRoute calls r i j ∧
          routeLength (buildNetwork n calls).distance_matrix r i = getCell d i j)
    (buildNetwork n calls).distance_matrix ⟨hsq, hnn, ?_⟩ ?_ n (le_refl _)
  · have hres := this.2.2
    unfold idealShortestRoutes
    rw [hn]
    exact hres
  · intro i j hi hj hne
    rcases (hcells i j hi hj).2 with ⟨hval, -⟩ | ⟨l, hl, hjoin, -⟩
    · by_cases hij : i = j
      · rw [hval, if_pos hij]
        exact ⟨[], hij, rfl⟩
      · rw [hval, if_neg hij] at hne
        exact absurd rfl hne
    · exact ⟨[j], ⟨⟨l, hl, hjoin⟩, rfl⟩, by simp [routeLength]⟩
  · rintro k d hk ⟨hd, hnn', hroute⟩
    obtain ⟨hd', hcell'⟩ := idealRelaxTransit_spec hd hk (hnn' k k hk hk)
    refine ⟨hd', fun i j hi hj => ?_, fun i j hi hj => ?_⟩
    · rw [hcell' i j hi hj]
      exact idealRelaxValue_nonneg (hnn' i k hi hk) (hnn' k j hk hj) (hnn' i j hi hj)
    · rw [hcell' i j hi hj]
      rcases idealRelaxValue_cases (getCell d i k) (getCell d k j) (getCell d i j) with
        e | ⟨e, h1, h2, -⟩
      · rw [e]; exact hroute i j hi hj
      · rw [e]
        intro _
        obtain ⟨r1, hr1, hl1⟩ := hroute i k hi hk h1
        obtain ⟨r2, hr2, hl2⟩ := hroute k j hk hj h2
        exact ⟨r1 ++ r2, isRoute_append hr1 hr2, by rw [routeLength_append _ r2 hr1, hl1, hl2]⟩

theorem isRoute_end_lt {n : Nat} {calls : List RailwayLink}
    (hrange : ∀ c ∈ calls, c.origin_station < n ∧ c.destination_station < n) {v : Nat} :
    ∀ (r : List Nat) (a : Nat), a < n → IsRoute calls r a v → v < n := by
  intro r
  induction r with
  | nil => intro a ha h; rw [← show a = v from h]; exact ha
  | cons z r ih =>
    intro a _ h
    obtain ⟨⟨l, hl, hj⟩, hrest⟩ := h
    exact ih z (joins_lt hrange hl hj).2 hrest

/-- In a table that satisfies the triangle inequality and lies below the matrix, no entry
exceeds the length of a route of at least one step. -/
theorem table_le_route {n : Nat} {calls : List RailwayLink} {m table : List (List ℚ)}
    (hrange : ∀ c ∈ calls, c.origin_station < n ∧ c.destination_station < n)
    (hle : ∀ i j, i < n → j < n → getCell table i j ≤ getCell m i j)
    (htri : ∀ i j l, i < n → j < n → l < n →
      getCell table i j ≤ getCell table i l + getCell table l j) :
    ∀ (r : List Nat) (u v : Nat), r ≠ [] → IsRoute calls r u v →
      getCell table u v ≤ routeLength m r u := by
  intro r
  induction r with
  | nil => intro u v h; exact absurd rfl h
  | cons x r ih =>
    intro u v _ hr
    obtain ⟨⟨l, hl, hj⟩, hrest⟩ := hr
    obtain ⟨hu, hx⟩ := joins_lt hrange hl hj
    cases r with
    | nil =>
      rw [show x = v from hrest]
      simp only [routeLength, add_zero]
      rw [← show x = v from hrest]
      exact hle u x hu hx
    | cons y r' =>
      have hv : v < n := isRoute_end_lt hrange (y :: r') x hx hrest
      have h1 := ih x v (List.cons_ne_nil _ _) hrest
      have h2 := htri u v x hu hv hx
      have h3 := hle u x hu hx
      show getCell table u v ≤ getCell m u x + routeLength m (y :: r') x
      linarith

/-! ## Following parent links -/

theorem parentIter_of_root {parent : List Nat} {r : Nat} (hr : IsRoot parent r) :
    ∀ k, parentIter parent k r = r := by
  intro k
  induction k with
  | zero => rfl
  | succ k ih => rw [parentIter, hr, ih]

theorem parentIter_add (parent : List Nat) (j k x : Nat) :
    parentIter parent (j + k) x = parentIter parent k (parentIter parent j x) := by
  induction j generalizing x with
  | zero => simp [parentIter]
  | succ j ih => rw [Nat.succ_add, parentIter, ih, parentIter]

theorem parentIter_stable {parent : List Nat} {x j : Nat}
    (hr : IsRoot parent (parentIter parent j x)) {k : Nat} (hjk : j ≤ k) :
    parentIter parent k x = parentIter parent j x := by
  obtain ⟨d, rfl⟩ := Nat.exists_eq_add_of_le hjk
  rw [parentIter_add, parentIter_of_root hr]

/-- Two roots reached from the same station are the same root. -/
theorem reachesRootAt_unique {parent : List Nat} {t r r' : Nat}
    (h : ReachesRootAt parent t r) (h' : ReachesRootAt parent t r') : r = r' := by
  obtain ⟨hr, k, hk⟩ := h
  obtain ⟨hr', k', hk'⟩ := h'
  rcases Nat.le_total k k' with hle | hle
  · rw [← hk] at hr
    rw [← hk, ← hk', parentIter_stable hr hle]
  · rw [← hk'] at hr'
    rw [← hk, ← hk', parentIter_stable hr' hle]

theorem rootFrom_eq_parentIter (parent : List Nat) :
    ∀ (fuel x : Nat), ∃ k, k ≤ fuel ∧ rootFrom parent fuel x = parentIter parent k x := by
  intro fuel
  induction fuel with
  | zero => intro x; exact ⟨0, le_refl _, rfl⟩
  | succ f ih =>
    intro x
    by_cases hx : parent.getD x 0 = x
    · exact ⟨0, Nat.zero_le _, by rw [rootFrom_of_root hx]; rfl⟩
    · obtain ⟨k, hk, hEq⟩ := ih (parent.getD x 0)
      exact ⟨k + 1, by omega, by rw [rootFrom_succ_step hx, hEq]; rfl⟩

/-- In a well-formed parent array the representative `rootOf` is the root reached by
following the parent links, and it is reached within as many steps as there are stations. -/
theorem reachesRootAt_rootOf {parent : List Nat} (hwf : WellFormedParents parent) {t : Nat}
    (ht : t < parent.length) :
    ReachesRootAt parent t (rootOf parent t) ∧
      ∃ k, k ≤ parent.length ∧ IsRoot parent (parentIter parent k t) := by
  obtain ⟨k, hk, hEq⟩ := rootFrom_eq_parentIter parent parent.length t
  have hroot := (rootOf_isRoot hwf ht).2
  refine ⟨⟨hroot, k, hEq.symm⟩, k, hk, ?_⟩
  show parent.getD (parentIter parent k t) 0 = parentIter parent k t
  rw [← hEq]
  exact hroot

theorem reachesRootAt_iff {parent : List Nat} (hwf : WellFormedParents parent) {t : Nat}
    (ht : t < parent.length) (r : Nat) : ReachesRootAt parent t r ↔ r = rootOf parent t :=
  ⟨fun h => reachesRootAt_unique h (reachesRootAt_rootOf hwf ht).1,
    fun h => h ▸ (reachesRootAt_rootOf hwf ht).1⟩

/-- Parent links that are in range and lead every station to a root form a well-formed
array. -/
theorem wellFormedParents_of_reach {parent : List Nat}
    (h : ∀ x, x < parent.length → parent.getD x 0 < parent.length ∧
      ∃ k, IsRoot parent (parentIter parent k x)) : WellFormedParents parent := by
  classical
  let height : Nat → Nat := fun x =>
    if hx : x < parent.length then Nat.find (h x hx).2 else 0
  have hr : Ranked parent height := by
    intro x hx
    refine ⟨(h x hx).1, fun hne => ?_⟩
    have hp := (h x hx).1
    simp only [height, dif_pos hx, dif_pos hp]
    have hspec := Nat.find_spec (h x hx).2
    cases hk : Nat.find (h x hx).2 with
    | zero =>
      rw [hk] at hspec
      exact absurd hspec hne
    | succ j =>
      rw [hk] at hspec
      have : Nat.find (h (parent.getD x 0) hp).2 ≤ j := Nat.find_min' _ hspec
      omega
  exact wellFormed_of_ranked hr

theorem wellFormedParents_of_unionFind {n : Nat} {net : SouthwestRailwayNetwork}
    (h : UnionFindWellFormed n net) : WellFormedParents net.station_parent := by
  obtain ⟨hlen, -, hx⟩ := h
  apply wellFormedParents_of_reach
  rw [hlen]
  exact hx

theorem unionFind_of_wellFormedParents {n : Nat} {net : SouthwestRailwayNetwork}
    (hlen : net.station_parent.length = n) (hrk : net.station_rank.length = n)
    (hwf : WellFormedParents net.station_parent) : UnionFindWellFormed n net := by
  refine ⟨hlen, hrk, fun x hx => ?_⟩
  obtain ⟨height, -, hr⟩ := id hwf
  have hx' : x < net.station_parent.length := by rw [hlen]; exact hx
  obtain ⟨-, k, -, hk⟩ := reachesRootAt_rootOf hwf hx'
  exact ⟨hlen ▸ (hr x hx').1, k, hk⟩

/-! ## Union-find: the merge in detail -/

theorem set_root_self {parent : List Nat} {r : Nat} (hr : parent.getD r 0 = r) :
    parent.set r r = parent := by
  apply List.ext_getElem?
  intro i
  rw [List.getElem?_set]
  by_cases hir : r = i
  · subst hir
    rw [if_pos rfl]
    by_cases hlt : r < parent.length
    · rw [if_pos hlt]
      rw [List.getD_eq_getElem _ _ hlt] at hr
      rw [List.getElem?_eq_getElem hlt, hr]
    · rw [if_neg hlt, List.getElem?_eq_none (Nat.le_of_not_lt hlt)]
  · rw [if_neg hir]

/-- What `mergeStationGroups` returns on a well-formed state: the two finds leave a parent
array with the same representatives, and the union by rank writes one link into it. -/
theorem mergeStationGroups_detail (net : SouthwestRailwayNetwork)
    (hwf : WellFormedParents net.station_parent) (fuel a b : Nat)
    (ha : a < net.station_parent.length) (hb : b < net.station_parent.length)
    (hfuel : net.station_parent.length ≤ fuel) :
    ∃ p2 : List Nat, p2.length = net.station_parent.length ∧ WellFormedParents p2 ∧
      (∀ t, t < net.station_parent.length → rootOf p2 t = rootOf net.station_parent t) ∧
      mergeStationGroups fuel net a b =
        some
          (if net.station_rank.getD (rootOf net.station_parent a) 0 <
              net.station_rank.getD (rootOf net.station_parent b) 0 then
            { net with
              station_parent :=
                p2.set (rootOf net.station_parent a) (rootOf net.station_parent b) }
          else if net.station_rank.getD (rootOf net.station_parent a) 0 >
              net.station_rank.getD (rootOf net.station_parent b) 0 then
            { net with
              station_parent :=
                p2.set (rootOf net.station_parent b) (rootOf net.station_parent a) }
          else
            { net with
              station_parent :=
                p2.set (rootOf net.station_parent b) (rootOf net.station_parent a)
              station_rank :=
                net.station_rank.set (rootOf net.station_parent a)
                  (net.station_rank.getD (rootOf net.station_parent a) 0 + 1) }) := by
  obtain ⟨p1, hfind1, hlen1, hwf1, hroots1⟩ := findStationRoot_wf net hwf fuel a ha hfuel
  have hb1 : b < p1.length := by rw [hlen1]; exact hb
  obtain ⟨p2, hfind2, hlen2, hwf2, hroots2⟩ :=
    findStationRoot_wf { net with station_parent := p1 } hwf1 fuel b hb1
      (by rw [hlen1]; exact hfuel)
  simp only at hfind2 hlen2 hwf2 hroots2
  rw [hroots1 b hb] at hfind2
  refine ⟨p2, by rw [hlen2, hlen1], hwf2, ?_, ?_⟩
  · intro t ht
    rw [hroots2 t (by rw [hlen1]; exact ht), hroots1 t ht]
  · unfold mergeStationGroups
    rw [hfind1]
    simp only
    rw [hfind2]
    simp only
    split
    · rfl
    · split <;> rfl

/-- The parent array that `mergeStationGroups` leaves is well formed, whether or not the two
stations were in one set. -/
theorem wellFormed_after_link {p2 : List Nat} (hwf2 : WellFormedParents p2) {x y : Nat}
    (hx : x < p2.length) (hy : y < p2.length) (hrx : p2.getD x 0 = x) (hry : p2.getD y 0 = y) :
    WellFormedParents (p2.set x y) ∧ (p2.set x y).length = p2.length ∧
      IsRoot (p2.set x y) y ∧
      ∀ t, t < p2.length → rootOf (p2.set x y) t = if rootOf p2 t = x then y else rootOf p2 t := by
  by_cases hxy : y = x
  · subst hxy
    rw [set_root_self hry]
    refine ⟨hwf2, rfl, hry, fun t _ => ?_⟩
    split
    · rename_i h; exact h
    · rfl
  · obtain ⟨hwf3, hroots3⟩ := rootOf_link hwf2 hy hx hry hrx hxy
    refine ⟨hwf3, List.length_set _ _ _, ?_, hroots3⟩
    show (p2.set x y).getD y 0 = y
    rw [getD_set_eq, if_neg (fun h => hxy h.1), hry]

theorem mkNetwork_wellFormed (n : Nat) : UnionFindWellFormed n (mkNetwork n) := by
  obtain ⟨m, p, hEq, -, hlen, -, hpar⟩ := mkNetwork_spec n
  rw [hEq]
  refine ⟨hlen, List.length_replicate _ _, fun x hx => ?_⟩
  show p.getD x 0 < n ∧ ∃ k, IsRoot p (parentIter p k x)
  rw [hpar x hx]
  exact ⟨hx, 0, hpar x hx⟩

/-- Whatever the two stations, `mergeStationGroups` on a well-formed state comes back with a
well-formed state and changes only the two union-find arrays. -/
theorem mergeStationGroups_wellFormed {n : Nat} {net : SouthwestRailwayNetwork}
    (hwf : UnionFindWellFormed n net) {a b fuel : Nat} (ha : a < n) (hb : b < n)
    (hfuel : n ≤ fuel) :
    ∃ net', mergeStationGroups fuel net a b = some net' ∧ UnionFindWellFormed n net' ∧
      net' = { net with station_parent := net'.station_parent,
                        station_rank := net'.station_rank } := by
  have hwfp := wellFormedParents_of_unionFind hwf
  obtain ⟨hlen, hrk, -⟩ := hwf
  have ha0 : a < net.station_parent.length := by rw [hlen]; exact ha
  have hb0 : b < net.station_parent.length := by rw [hlen]; exact hb
  obtain ⟨p2, hlen2, hwf2, hroots2, hmerge⟩ :=
    mergeStationGroups_detail net hwfp fuel a b ha0 hb0 (by rw [hlen]; exact hfuel)
  have hRa := rootOf_isRoot hwf2 (show a < p2.length by rw [hlen2]; exact ha0)
  have hRb := rootOf_isRoot hwf2 (show b < p2.length by rw [hlen2]; exact hb0)
  rw [hroots2 a ha0] at hRa
  rw [hroots2 b hb0] at hRb
  obtain ⟨hwfab, hlenab, -, -⟩ := wellFormed_after_link hwf2 hRa.1 hRb.1 hRa.2 hRb.2
  obtain ⟨hwfba, hlenba, -, -⟩ := wellFormed_after_link hwf2 hRb.1 hRa.1 hRb.2 hRa.2
  rw [hmerge]
  split
  · exact ⟨_, rfl, unionFind_of_wellFormedParents (by rw [← hlen, ← hlen2]; exact hlenab) hrk
      hwfab, rfl⟩
  · split
    · exact ⟨_, rfl, unionFind_of_wellFormedParents (by rw [← hlen, ← hlen2]; exact hlenba) hrk
        hwfba, rfl⟩
    · exact ⟨_, rfl, unionFind_of_wellFormedParents (by rw [← hlen, ← hlen2]; exact hlenba)
        (by rw [List.length_set]; exact hrk) hwfba, rfl⟩

theorem mergedState_reachable : ReachableByUnionFind 3 mergedState :=
  @ReachableByUnionFind.merge 3 (mkNetwork 3) mergedState 3 0 1
    ReachableByUnionFind.construct (by decide) (by decide) (by decide!)

/-! ## The Floyd-Warshall run as a state transformer -/

theorem relaxCellRun_foldl (k i : Nat) (l : List Nat) (s : RoutesRun) :
    l.foldl (fun s end_station => relaxCellRun k i end_station s) s =
      RoutesRun.mk s.network
        (l.foldl (fun r end_station => relaxCell k i end_station r) s.shortest_routes) := by
  induction l generalizing s with
  | nil => rfl
  | cons e l ih =>
    rw [List.foldl_cons, ih, List.foldl_cons]
    rfl

theorem relaxRowRun_foldl (k : Nat) (l : List Nat) (s : RoutesRun) :
    l.foldl (fun s start_station =>
        (List.range s.network.total_stations).foldl
          (fun s end_station => relaxCellRun k start_station end_station s) s) s =
      RoutesRun.mk s.network
        (l.foldl (fun r start_station => relaxRow s.network.total_stations k start_station r)
          s.shortest_routes) := by
  induction l generalizing s with
  | nil => rfl
  | cons i l ih =>
    rw [List.foldl_cons, ih, List.foldl_cons, relaxCellRun_foldl]
    rfl

theorem relaxTransitRun_foldl (l : List Nat) (s : RoutesRun) :
    l.foldl (fun s transit_station =>
        (List.range s.network.total_stations).foldl (fun s start_station =>
          (List.range s.network.total_stations).foldl
            (fun s end_station => relaxCellRun transit_station start_station end_station s) s)
          s) s =
      RoutesRun.mk s.network
        (l.foldl (fun r transit_station =>
          relaxTransit s.network.total_stations transit_station r) s.shortest_routes) := by
  induction l generalizing s with
  | nil => rfl
  | cons k l ih =>
    rw [List.foldl_cons, ih, List.foldl_cons, relaxRowRun_foldl]
    rfl

/-! ## The Kruskal loop from an arbitrary well-formed union-find state -/

/-- One iteration of the loop on any well-formed state: it comes back, the sets only grow,
the two ends of the link are in one set afterwards, and the link is appended exactly when
its ends were in different sets before. -/
theorem kruskalLoop_step_wf {n fuel : Nat} (hfuel : n ≤ fuel)
    (net : SouthwestRailwayNetwork)
    (hlen : net.station_parent.length = n) (hwf : WellFormedParents net.station_parent)
    (l : RailwayLink) (hla : l.origin_station < n) (hlb : l.destination_station < n) :
    ∃ parent' rank', parent'.length = n ∧ rank'.length = net.station_rank.length ∧
      WellFormedParents parent' ∧
      (∀ u v, u < n → v < n → rootOf net.station_parent u = rootOf net.station_parent v →
        rootOf parent' u = rootOf parent' v) ∧
      rootOf parent' l.origin_station = rootOf parent' l.destination_station ∧
      ((rootOf net.station_parent l.origin_station =
            rootOf net.station_parent l.destination_station ∧
          (∀ t, t < n → rootOf parent' t = rootOf net.station_parent t) ∧
          ∀ rest mst total, kruskalLoop fuel (l :: rest) net mst total =
            kruskalLoop fuel rest { net with station_parent := parent', station_rank := rank' }
              mst total) ∨
        (rootOf net.station_parent l.origin_station ≠
            rootOf net.station_parent l.destination_station ∧
          ∀ rest mst total, kruskalLoop fuel (l :: rest) net mst total =
            kruskalLoop fuel rest { net with station_parent := parent', station_rank := rank' }
              (mst ++ [l]) (Double.add total (Double.finite l.track_distance)))) := by
  obtain ⟨p1, hfind1, hlen1, hwf1, hroots1⟩ :=
    findStationRoot_wf net hwf fuel l.origin_station (hlen ▸ hla) (hlen ▸ hfuel)
  obtain ⟨p2, hfind2, hlen2, hwf2, hroots2⟩ :=
    findStationRoot_wf { net with station_parent := p1 } hwf1 fuel l.destination_station
      (by rw [hlen1, hlen]; exact hlb) (by rw [hlen1, hlen]; exact hfuel)
  simp only at hfind2 hlen2 hwf2 hroots2
  rw [hroots1 _ (hlen ▸ hlb)] at hfind2
  have hlenp2 : p2.length = n := by rw [hlen2, hlen1, hlen]
  have hroots : ∀ t, t < n → rootOf p2 t = rootOf net.station_parent t := by
    intro t ht
    rw [hroots2 t (by rw [hlen1, hlen]; exact ht), hroots1 t (hlen ▸ ht)]
  by_cases hr : rootOf net.station_parent l.origin_station ≠
      rootOf net.station_parent l.destination_station
  · obtain ⟨p3, hlen3, hwf3, hroots3, hmerge⟩ :=
      mergeStationGroups_detail { net with station_parent := p2 } hwf2 fuel
        l.origin_station l.destination_station (by rw [hlenp2]; exact hla)
        (by rw [hlenp2]; exact hlb) (by rw [hlenp2]; exact hfuel)
    simp only at hmerge hlen3 hroots3
    have hlenp3 : p3.length = n := by rw [hlen3, hlenp2]
    have hRa := rootOf_isRoot hwf3 (show l.origin_station < p3.length by rw [hlenp3]; exact hla)
    have hRb := rootOf_isRoot hwf3
      (show l.destination_station < p3.length by rw [hlenp3]; exact hlb)
    have h3a : rootOf p3 l.origin_station = rootOf p2 l.origin_station :=
      hroots3 _ (by rw [hlenp2]; exact hla)
    have h3b : rootOf p3 l.destination_station = rootOf p2 l.destination_station :=
      hroots3 _ (by rw [hlenp2]; exact hlb)
    rw [h3a] at hRa
    rw [h3b] at hRb
    have key : ∀ x y,
        (x = rootOf p2 l.origin_station ∧ y = rootOf p2 l.destination_station) ∨
          (x = rootOf p2 l.destination_station ∧ y = rootOf p2 l.origin_station) →
        (p3.set x y).length = n ∧ WellFormedParents (p3.set x y) ∧
          (∀ u v, u < n → v < n →
            rootOf net.station_parent u = rootOf net.station_parent v →
            rootOf (p3.set x y) u = rootOf (p3.set x y) v) ∧
          rootOf (p3.set x y) l.origin_station = rootOf (p3.set x y) l.destination_station := by
      intro x y hxy
      have hx : x < p3.length ∧ p3.getD x 0 = x := by
        rcases hxy with ⟨h, -⟩ | ⟨h, -⟩ <;> rw [h]
        · exact hRa
        · exact hRb
      have hy : y < p3.length ∧ p3.getD y 0 = y := by
        rcases hxy with ⟨-, h⟩ | ⟨-, h⟩ <;> rw [h]
        · exact hRb
        · exact hRa
      obtain ⟨hwf4, hlen4, -, hroots4⟩ := wellFormed_after_link hwf3 hx.1 hy.1 hx.2 hy.2
      refine ⟨by rw [hlen4, hlenp3], hwf4, ?_, ?_⟩
      · intro u v hu hv huv
        rw [hroots4 u (by rw [hlenp3]; exact hu), hroots4 v (by rw [hlenp3]; exact hv),
          hroots3 u (by rw [hlenp2]; exact hu), hroots3 v (by rw [hlenp2]; exact hv),
          hroots u hu, hroots v hv, huv]
      · rw [hroots4 _ (by rw [hlenp3]; exact hla), hroots4 _ (by rw [hlenp3]; exact hlb),
          h3a, h3b]
        rcases hxy with ⟨h1, h2⟩ | ⟨h1, h2⟩ <;> rw [h1, h2] <;> simp
    have hloop : ∀ net3, mergeStationGroups fuel { net with station_parent := p2 }
          l.origin_station l.destination_station = some net3 →
        ∀ rest mst total, kruskalLoop fuel (l :: rest) net mst total =
          kruskalLoop fuel rest net3 (mst ++ [l]) (Double.add total (Double.finite l.track_distance)) := by
      intro net3 hm rest mst total
      rw [kruskalLoop, hfind1]
      simp only
      rw [hfind2]
      simp only
      rw [if_pos hr, hm]
    by_cases h1 : net.station_rank.getD (rootOf p2 l.origin_station) 0 <
        net.station_rank.getD (rootOf p2 l.destination_station) 0
    · rw [if_pos h1] at hmerge
      obtain ⟨k1, k2, k3, k4⟩ := key _ _ (Or.inl ⟨rfl, rfl⟩)
      exact ⟨_, net.station_rank, k1, rfl, k2, k3, k4, Or.inr ⟨hr, hloop _ hmerge⟩⟩
    · rw [if_neg h1] at hmerge
      obtain ⟨k1, k2, k3, k4⟩ := key _ _ (Or.inr ⟨rfl, rfl⟩)
      by_cases h2 : net.station_rank.getD (rootOf p2 l.origin_station) 0 >
          net.station_rank.getD (rootOf p2 l.destination_station) 0
      · rw [if_pos h2] at hmerge
        exact ⟨_, net.station_rank, k1, rfl, k2, k3, k4, Or.inr ⟨hr, hloop _ hmerge⟩⟩
      · rw [if_neg h2] at hmerge
        exact ⟨_, _, k1, List.length_set _ _ _, k2, k3, k4, Or.inr ⟨hr, hloop _ hmerge⟩⟩
  · have hr' := not_not.mp hr
    refine ⟨p2, net.station_rank, hlenp2, rfl, hwf2, ?_, ?_, Or.inl ⟨hr', hroots, ?_⟩⟩
    · intro u v hu hv huv
      rw [hroots u hu, hroots v hv, huv]
    · rw [hroots _ hla, hroots _ hlb, hr']
    · intro rest mst total
      rw [kruskalLoop, hfind1]
      simp only
      rw [hfind2]
      simp only
      rw [if_neg hr]

/-- The loop on any well-formed state: it comes back; what it appends is a subsequence of
the links it was given; it changes only the two union-find arrays; the sets only grow and
the two ends of every link are in one set at the end; and when the two ends of every link
are in one set from the start it appends nothing. -/
theorem kruskalLoop_runs {n fuel : Nat} (hfuel : n ≤ fuel) :
    ∀ (links : List RailwayLink) (net : SouthwestRailwayNetwork) (mst : List RailwayLink)
      (total : Double),
      net.station_parent.length = n → WellFormedParents net.station_parent →
      (∀ l ∈ links, l.origin_station < n ∧ l.destination_station < n) →
      ∃ out taken, kruskalLoop fuel links net mst total = some out ∧
        taken.Sublist links ∧ out.mst_railway_tracks = mst ++ taken ∧
        out.total_track_length = addLengths total taken ∧
        out.network = { net with station_parent := out.network.station_parent,
                                 station_rank := out.network.station_rank } ∧
        out.network.station_parent.length = n ∧
        out.network.station_rank.length = net.station_rank.length ∧
        WellFormedParents out.network.station_parent ∧
        (∀ u v, u < n → v < n → rootOf net.station_parent u = rootOf net.station_parent v →
          rootOf out.network.station_parent u = rootOf out.network.station_parent v) ∧
        (∀ l ∈ links, rootOf out.network.station_parent l.origin_station =
          rootOf out.network.station_parent l.destination_station) ∧
        ((∀ l ∈ links, rootOf net.station_parent l.origin_station =
            rootOf net.station_parent l.destination_station) → taken = []) := by
  intro links
  induction links with
  | nil =>
    intro net mst total hlen hwf _
    exact ⟨_, [], rfl, List.Sublist.refl _, (List.append_nil _).symm, rfl, rfl, hlen, rfl, hwf,
      fun _ _ _ _ h => h, fun l hl => absurd hl (List.not_mem_nil l), fun _ => rfl⟩
  | cons l rest ih =>
    intro net mst total hlen hwf hrange
    have hl := hrange l (List.mem_cons_self _ _)
    have hrest : ∀ e ∈ rest, e.origin_station < n ∧ e.destination_station < n :=
      fun e he => hrange e (List.mem_cons_of_mem _ he)
    obtain ⟨p', r', hlen', hrk', hwf', hmono, hjoin, hcase⟩ :=
      kruskalLoop_step_wf hfuel net hlen hwf l hl.1 hl.2
    rcases hcase with ⟨hsame, hroots, hstep⟩ | ⟨hdiff, hstep⟩
    · obtain ⟨out, taken, hrun, hsub, hmst, htot, hframe, hlenO, hrkO, hwfO, hmonoO, hjoinO,
        hnone⟩ :=
        ih { net with station_parent := p', station_rank := r' } mst total hlen' hwf' hrest
      refine ⟨out, taken, by rw [hstep]; exact hrun, hsub.cons l, hmst, htot, ?_, hlenO,
        hrkO.trans hrk', hwfO,
        fun u v hu hv huv => hmonoO u v hu hv (hmono u v hu hv huv), ?_, ?_⟩
      · rw [hframe]
      · intro e he
        rcases List.mem_cons.mp he with rfl | he
        · exact hmonoO _ _ hl.1 hl.2 hjoin
        · exact hjoinO e he
      · intro hall
        exact hnone (fun e he => by
          show rootOf p' _ = rootOf p' _
          rw [hroots _ (hrest e he).1, hroots _ (hrest e he).2]
          exact hall e (List.mem_cons_of_mem _ he))
    · obtain ⟨out, taken, hrun, hsub, hmst, htot, hframe, hlenO, hrkO, hwfO, hmonoO, hjoinO, -⟩ :=
        ih { net with station_parent := p', station_rank := r' } (mst ++ [l])
          (Double.add total (Double.finite l.track_distance)) hlen' hwf' hrest
      refine ⟨out, l :: taken, by rw [hstep]; exact hrun, hsub.cons₂ l, ?_, ?_, ?_, hlenO,
        hrkO.trans hrk', hwfO,
        fun u v hu hv huv => hmonoO u v hu hv (hmono u v hu hv huv), ?_, ?_⟩
      · rw [hmst, List.append_assoc, List.singleton_append]
      · rw [htot]
        rfl
      · rw [hframe]
      · intro e he
        rcases List.mem_cons.mp he with rfl | he
        · exact hmonoO _ _ hl.1 hl.2 hjoin
        · exact hjoinO e he
      · intro hall
        exact absurd (hall l (List.mem_cons_self _ _)) hdiff

theorem buildNetwork_wellFormed (n : Nat) (calls : List RailwayLink) :
    UnionFindWellFormed n (buildNetwork n calls) := by
  obtain ⟨hlen, hwf, -⟩ := buildNetwork_unionFind n calls
  refine unionFind_of_wellFormedParents hlen ?_ hwf
  rw [(buildNetwork_frame n calls).2.2.2.1]
  exact (mkNetwork_wellFormed n).2.1

/-! ## Rounding to `double` -/

theorem halvings_spec : ∀ fuel n, n ≤ fuel → 1 ≤ n →
    2 ^ halvings fuel n ≤ n ∧ n < 2 ^ (halvings fuel n + 1) := by
  intro fuel
  induction fuel with
  | zero => intro n h0 h1; omega
  | succ fuel ih =>
    intro n hle h1
    unfold halvings
    by_cases h2 : 2 ≤ n
    · rw [if_pos h2]
      obtain ⟨hlo, hhi⟩ := ih (n / 2) (by omega) (by omega)
      constructor
      · rw [pow_succ]; omega
      · rw [pow_succ]; omega
    · rw [if_neg h2]
      constructor
      · simp; omega
      · simp; omega

theorem abs_eq_natAbs_div (x : ℚ) : |x| = (x.num.natAbs : ℚ) / (x.den : ℚ) := by
  conv_lhs => rw [← Rat.num_div_den x]
  rw [abs_div, Nat.cast_natAbs, Int.cast_abs, Nat.abs_cast]

theorem binaryExponent_spec {x : ℚ} (hx : x ≠ 0) :
    (2 : ℚ) ^ binaryExponent x ≤ |x| ∧ |x| < (2 : ℚ) ^ (binaryExponent x + 1) := by
  have ha1 : 1 ≤ x.num.natAbs := Nat.one_le_iff_ne_zero.mpr (by
    rw [Ne, Int.natAbs_eq_zero]; exact Rat.num_ne_zero.mpr hx)
  have hb1 : 1 ≤ x.den := x.den_pos
  obtain ⟨halo, hahi⟩ := halvings_spec x.num.natAbs x.num.natAbs (le_refl _) ha1
  obtain ⟨hblo, hbhi⟩ := halvings_spec x.den x.den (le_refl _) hb1
  have hbpos : (0 : ℚ) < (x.den : ℚ) := by exact_mod_cast hb1
  have halo' : (2 : ℚ) ^ (halvings x.num.natAbs x.num.natAbs) ≤ (x.num.natAbs : ℚ) := by
    exact_mod_cast halo
  have hahi' : (x.num.natAbs : ℚ) < (2 : ℚ) ^ (halvings x.num.natAbs x.num.natAbs + 1) := by
    exact_mod_cast hahi
  have hblo' : (2 : ℚ) ^ (halvings x.den x.den) ≤ (x.den : ℚ) := by exact_mod_cast hblo
  have hbhi' : (x.den : ℚ) < (2 : ℚ) ^ (halvings x.den x.den + 1) := by exact_mod_cast hbhi
  have h2 : (2 : ℚ) ≠ 0 := two_ne_zero
  have hupper : |x| < (2 : ℚ) ^
      ((halvings x.num.natAbs x.num.natAbs : ℤ) - (halvings x.den x.den : ℤ) + 1) := by
    rw [abs_eq_natAbs_div, div_lt_iff₀ hbpos]
    have e : (2 : ℚ) ^ ((halvings x.num.natAbs x.num.natAbs : ℤ) -
        (halvings x.den x.den : ℤ) + 1) * (2 : ℚ) ^ (halvings x.den x.den) =
        (2 : ℚ) ^ (halvings x.num.natAbs x.num.natAbs + 1) := by
      rw [← zpow_natCast, ← zpow_natCast, ← zpow_add₀ h2]
      congr 1
      push_cast
      ring
    calc (x.num.natAbs : ℚ) < (2 : ℚ) ^ (halvings x.num.natAbs x.num.natAbs + 1) := hahi'
      _ = (2 : ℚ) ^ ((halvings x.num.natAbs x.num.natAbs : ℤ) -
          (halvings x.den x.den : ℤ) + 1) * (2 : ℚ) ^ (halvings x.den x.den) := e.symm
      _ ≤ _ := by
        apply mul_le_mul_of_nonneg_left hblo'
        positivity
  have hlower : (2 : ℚ) ^
      ((halvings x.num.natAbs x.num.natAbs : ℤ) - (halvings x.den x.den : ℤ) - 1) ≤ |x| := by
    rw [abs_eq_natAbs_div, le_div_iff₀ hbpos]
    have e : (2 : ℚ) ^ ((halvings x.num.natAbs x.num.natAbs : ℤ) -
        (halvings x.den x.den : ℤ) - 1) * (2 : ℚ) ^ (halvings x.den x.den + 1) =
        (2 : ℚ) ^ (halvings x.num.natAbs x.num.natAbs) := by
      rw [← zpow_natCast, ← zpow_natCast, ← zpow_add₀ h2]
      congr 1
      push_cast
      ring
    calc _ ≤ (2 : ℚ) ^ ((halvings x.num.natAbs x.num.natAbs : ℤ) -
          (halvings x.den x.den : ℤ) - 1) * (2 : ℚ) ^ (halvings x.den x.den + 1) := by
            apply mul_le_mul_of_nonneg_left (le_of_lt hbhi')
            positivity
      _ = (2 : ℚ) ^ (halvings x.num.natAbs x.num.natAbs) := e
      _ ≤ _ := halo'
  unfold binaryExponent
  split
  · rename_i h
    exact ⟨h, hupper⟩
  · rename_i h
    refine ⟨hlower, ?_⟩
    rw [sub_add_cancel]
    exact lt_of_not_le h

theorem floor_le_roundHalfEven (r : ℚ) : ⌊r⌋ ≤ roundHalfEven r := by
  unfold roundHalfEven
  split_ifs <;> omega

theorem roundHalfEven_le_floor_add_one (r : ℚ) : roundHalfEven r ≤ ⌊r⌋ + 1 := by
  unfold roundHalfEven
  split_ifs <;> omega

theorem roundHalfEven_intCast (m : ℤ) : roundHalfEven (m : ℚ) = m := by
  unfold roundHalfEven
  rw [Int.floor_intCast, sub_self, if_pos (by norm_num)]

theorem le_roundHalfEven {m : ℤ} {r : ℚ} (h : (m : ℚ) ≤ r) : m ≤ roundHalfEven r :=
  le_trans (Int.le_floor.mpr h) (floor_le_roundHalfEven r)

theorem roundHalfEven_le {m : ℤ} {r : ℚ} (h : r ≤ (m : ℚ)) : roundHalfEven r ≤ m := by
  rcases eq_or_lt_of_le h with hEq | hlt
  · rw [hEq, roundHalfEven_intCast]
  · have : ⌊r⌋ < m := Int.floor_lt.mpr hlt
    have := roundHalfEven_le_floor_add_one r
    omega

/-- The level that fixes the spacing around `y`. -/
theorem quantum_eq (y : ℚ) :
    quantum y = (2 : ℚ) ^ (max (binaryExponent y) (-1022) - 52) := rfl

theorem quantum_pos (y : ℚ) : 0 < quantum y := zpow_pos (by norm_num) _

theorem two_zpow_le {m n : ℤ} (h : m ≤ n) : (2 : ℚ) ^ m ≤ (2 : ℚ) ^ n :=
  zpow_le_zpow_right₀ (by norm_num) h

theorem two_zpow_lt {m n : ℤ} (h : m < n) : (2 : ℚ) ^ m < (2 : ℚ) ^ n :=
  zpow_lt_zpow_right₀ (by norm_num) h

theorem cast_two_pow_int (k : ℕ) : (((2 : ℤ) ^ k : ℤ) : ℚ) = (2 : ℚ) ^ (k : ℤ) := by
  rw [zpow_natCast]; push_cast; rfl

theorem cast_two_pow_nat (k : ℕ) : (((2 : ℕ) ^ k : ℕ) : ℚ) = (2 : ℚ) ^ (k : ℤ) := by
  rw [zpow_natCast]; push_cast; rfl

theorem two_zpow_add (m n : ℤ) : (2 : ℚ) ^ (m + n) = (2 : ℚ) ^ m * (2 : ℚ) ^ n :=
  zpow_add₀ two_ne_zero m n

/-- A multiple of `2 ^ c` is a whole multiple of the spacing `2 ^ d` when `d ≤ c`. -/
theorem grid_multiple (n : ℕ) {c d : ℤ} (h : d ≤ c) :
    (n : ℚ) * (2 : ℚ) ^ c / (2 : ℚ) ^ d = ((n * 2 ^ (c - d).toNat : ℤ) : ℚ) := by
  have hpos : (0 : ℚ) < (2 : ℚ) ^ d := zpow_pos (by norm_num) _
  rw [div_eq_iff (ne_of_gt hpos)]
  push_cast
  rw [mul_assoc, ← zpow_natCast, ← two_zpow_add, Int.toNat_of_nonneg (by omega)]
  congr 2
  ring

/-- What rounding does to a positive number: the quotient by the spacing is below `2 ^ 53`,
so is its rounding, and above the subnormal range the result is at least `2 ^ e`. -/
theorem round_pos_setup {y : ℚ} (hy : 0 < y) :
    y / quantum y < (2 : ℚ) ^ (53 : ℤ) ∧
      0 ≤ roundHalfEven (y / quantum y) ∧
      roundHalfEven (y / quantum y) ≤ 2 ^ 53 ∧
      (-1022 < binaryExponent y →
        (2 : ℚ) ^ binaryExponent y ≤ (roundHalfEven (y / quantum y) : ℚ) * quantum y) := by
  obtain ⟨hlo, hhi⟩ := binaryExponent_spec (ne_of_gt hy)
  rw [abs_of_pos hy] at hlo hhi
  have hq := quantum_pos y
  have h1 : y / quantum y < (2 : ℚ) ^ (53 : ℤ) := by
    rw [div_lt_iff₀ hq, quantum_eq, ← two_zpow_add]
    exact lt_of_lt_of_le hhi (two_zpow_le (by omega))
  refine ⟨h1, ?_, ?_, ?_⟩
  · exact le_roundHalfEven (by
      rw [Int.cast_zero]
      exact le_of_lt (div_pos hy hq))
  · exact roundHalfEven_le (by
      rw [cast_two_pow_int]
      exact le_of_lt h1)
  · intro hL
    have hmax : max (binaryExponent y) (-1022) = binaryExponent y := max_eq_left (le_of_lt hL)
    have hN : (2 : ℤ) ^ 52 ≤ roundHalfEven (y / quantum y) := le_roundHalfEven (by
      rw [cast_two_pow_int, le_div_iff₀ hq, quantum_eq, hmax, ← two_zpow_add]
      refine le_trans (two_zpow_le ?_) hlo
      push_cast
      omega)
    have hN' : (2 : ℚ) ^ (52 : ℤ) ≤ (roundHalfEven (y / quantum y) : ℚ) := by
      have h : (((2 : ℤ) ^ 52 : ℤ) : ℚ) ≤ (roundHalfEven (y / quantum y) : ℚ) :=
        Int.cast_le.mpr hN
      rw [cast_two_pow_int] at h
      exact h
    calc (2 : ℚ) ^ binaryExponent y = (2 : ℚ) ^ (52 : ℤ) * quantum y := by
          rw [quantum_eq, hmax, ← two_zpow_add]
          congr 1
          ring
      _ ≤ _ := mul_le_mul_of_nonneg_right hN' (le_of_lt hq)

theorem round_of_pos {y : ℚ} (hy : 0 < y) :
    Double.round y =
      if (2 : ℚ) ^ (1024 : ℤ) ≤ (roundHalfEven (y / quantum y) : ℚ) * quantum y then
        Double.posInf
      else Double.finite ((roundHalfEven (y / quantum y) : ℚ) * quantum y) := by
  obtain ⟨-, h0, -, -⟩ := round_pos_setup hy
  have hnn : (0 : ℚ) ≤ (roundHalfEven (y / quantum y) : ℚ) * quantum y :=
    mul_nonneg (by exact_mod_cast h0) (le_of_lt (quantum_pos y))
  unfold Double.round
  rw [if_neg (ne_of_gt hy), abs_of_nonneg hnn, if_pos hy]

theorem hasDoubleForm_nonneg {x : ℚ} (h : HasDoubleForm x) : 0 ≤ x := by
  obtain ⟨n, c, -, -, -, rfl⟩ := h
  exact mul_nonneg (Nat.cast_nonneg n) (le_of_lt (zpow_pos (by norm_num) _))

theorem hasDoubleForm_zero : HasDoubleForm 0 := ⟨0, 0, by norm_num, by norm_num, by norm_num, by simp⟩

/-- Rounding never goes below a `double` that the rounded number is at least. -/
theorem le_round {x y : ℚ} (hx : HasDoubleForm x) (hxy : x ≤ y) :
    Double.round y = Double.posInf ∨ ∃ z, Double.round y = Double.finite z ∧ x ≤ z := by
  have hx0 := hasDoubleForm_nonneg hx
  rcases eq_or_lt_of_le (le_trans hx0 hxy) with hy0 | hy
  · right
    refine ⟨0, ?_, by rw [hy0]; exact hxy⟩
    rw [← hy0]
    unfold Double.round
    rw [if_pos rfl]
  · have hq := quantum_pos y
    obtain ⟨-, -, -, hbig⟩ := round_pos_setup hy
    have key : x ≤ (roundHalfEven (y / quantum y) : ℚ) * quantum y := by
      obtain ⟨n, c, hn, hc1, hc2, rfl⟩ := hx
      by_cases hc : max (binaryExponent y) (-1022) - 52 ≤ c
      · have hm := grid_multiple n hc
        rw [← quantum_eq] at hm
        have hle : ((n * 2 ^ (c - (max (binaryExponent y) (-1022) - 52)).toNat : ℤ) : ℚ) ≤
            y / quantum y := by
          rw [← hm]
          exact div_le_div_of_nonneg_right hxy (le_of_lt hq)
        have := le_roundHalfEven hle
        calc (n : ℚ) * (2 : ℚ) ^ c
            = ((n * 2 ^ (c - (max (binaryExponent y) (-1022) - 52)).toNat : ℤ) : ℚ) *
                quantum y := by rw [← hm, div_mul_cancel₀ _ (ne_of_gt hq)]
          _ ≤ _ := mul_le_mul_of_nonneg_right (by exact_mod_cast this) (le_of_lt hq)
      · have hL : -1022 < binaryExponent y := by
          by_contra hcon
          rw [max_eq_right (by omega)] at hc
          omega
        rw [max_eq_left (le_of_lt hL)] at hc
        refine le_trans ?_ (hbig hL)
        have hn' : (n : ℚ) ≤ (2 : ℚ) ^ (53 : ℤ) := by
          have h : (n : ℚ) ≤ (((2 : ℕ) ^ 53 : ℕ) : ℚ) := Nat.cast_le.mpr (le_of_lt hn)
          rw [cast_two_pow_nat] at h
          exact h
        calc (n : ℚ) * (2 : ℚ) ^ c ≤ (2 : ℚ) ^ (53 : ℤ) * (2 : ℚ) ^ c :=
              mul_le_mul_of_nonneg_right hn' (le_of_lt (zpow_pos (by norm_num) _))
          _ = (2 : ℚ) ^ (53 + c) := (two_zpow_add _ _).symm
          _ ≤ _ := two_zpow_le (by omega)
    rw [round_of_pos hy]
    split
    · exact Or.inl rfl
    · exact Or.inr ⟨_, rfl, key⟩

/-- Rounding is the identity on the `double` values. -/
theorem round_of_hasDoubleForm {z : ℚ} (hz : HasDoubleForm z) :
    Double.round z = Double.finite z := by
  have hz0 := hasDoubleForm_nonneg hz
  rcases eq_or_lt_of_le hz0 with h0 | hpos
  · rw [← h0]
    unfold Double.round
    rw [if_pos rfl]
  · obtain ⟨n, c, hn, hc1, hc2, hzEq⟩ := hz
    have hq := quantum_pos z
    obtain ⟨hlo, -⟩ := binaryExponent_spec (ne_of_gt hpos)
    rw [abs_of_pos hpos] at hlo
    have hn' : (n : ℚ) < (2 : ℚ) ^ (53 : ℤ) := by
      have h : (n : ℚ) < (((2 : ℕ) ^ 53 : ℕ) : ℚ) := Nat.cast_lt.mpr hn
      rw [cast_two_pow_nat] at h
      exact h
    have hzlt : z < (2 : ℚ) ^ (53 + c) := by
      rw [hzEq, two_zpow_add]
      exact mul_lt_mul_of_pos_right hn' (zpow_pos (by norm_num) _)
    have hbe : binaryExponent z < 53 + c :=
      (zpow_lt_zpow_iff_right₀ (by norm_num : (1 : ℚ) < 2)).mp (lt_of_le_of_lt hlo hzlt)
    have hc : max (binaryExponent z) (-1022) - 52 ≤ c := by
      rcases max_cases (binaryExponent z) (-1022) with ⟨h, -⟩ | ⟨h, -⟩ <;> rw [h] <;> omega
    have hm := grid_multiple n hc
    rw [← quantum_eq, ← hzEq] at hm
    have hval : (roundHalfEven (z / quantum z) : ℚ) * quantum z = z := by
      rw [hm, roundHalfEven_intCast, ← hm, div_mul_cancel₀ _ (ne_of_gt hq)]
    rw [round_of_pos hpos, hval, if_neg]
    rw [not_le]
    exact lt_of_lt_of_le hzlt (two_zpow_le (by omega))

/-- What rounding returns for a non-negative number is a `double`. -/
theorem hasDoubleForm_of_round {y z : ℚ} (hy : 0 ≤ y) (h : Double.round y = Double.finite z) :
    HasDoubleForm z := by
  rcases eq_or_lt_of_le hy with h0 | hpos
  · rw [← h0] at h
    unfold Double.round at h
    rw [if_pos rfl] at h
    injection h with h
    rw [← h]
    exact hasDoubleForm_zero
  · obtain ⟨-, hN0, hN53, hbig⟩ := round_pos_setup hpos
    rw [round_of_pos hpos] at h
    split at h
    · exact Double.noConfusion h
    · rename_i hfin
      rw [not_le] at hfin
      injection h with h
      rw [← h]
      have hLle : max (binaryExponent y) (-1022) ≤ 1023 := by
        by_contra hcon
        have hL : -1022 < binaryExponent y := by
          rcases max_cases (binaryExponent y) (-1022) with ⟨h1, -⟩ | ⟨h1, -⟩ <;> omega
        have hge : (1024 : ℤ) ≤ binaryExponent y := by
          rw [max_eq_left (le_of_lt hL)] at hcon
          omega
        exact absurd (lt_of_le_of_lt (le_trans (two_zpow_le hge) (hbig hL)) hfin) (lt_irrefl _)
      rcases eq_or_lt_of_le hN53 with hEq | hlt
      · refine ⟨2 ^ 52, max (binaryExponent y) (-1022) - 51, by norm_num, ?_, ?_, ?_⟩
        · rcases max_cases (binaryExponent y) (-1022) with ⟨h1, h2⟩ | ⟨h1, h2⟩ <;> omega
        · have hval : (roundHalfEven (y / quantum y) : ℚ) * quantum y =
              (2 : ℚ) ^ (max (binaryExponent y) (-1022) + 1) := by
            rw [hEq, quantum_eq, cast_two_pow_int, ← two_zpow_add]
            congr 1
            push_cast
            ring
          rw [hval] at hfin
          have := (zpow_lt_zpow_iff_right₀ (by norm_num : (1 : ℚ) < 2)).mp hfin
          omega
        · rw [hEq, quantum_eq, cast_two_pow_int, cast_two_pow_nat, ← two_zpow_add,
            ← two_zpow_add]
          congr 1
          push_cast
          ring
      · refine ⟨(roundHalfEven (y / quantum y)).toNat,
          max (binaryExponent y) (-1022) - 52, ?_, ?_, ?_, ?_⟩
        · have := Int.toNat_of_nonneg hN0
          omega
        · rcases max_cases (binaryExponent y) (-1022) with ⟨h1, h2⟩ | ⟨h1, h2⟩ <;> omega
        · omega
        · rw [quantum_eq]
          congr 1
          have := Int.toNat_of_nonneg hN0
          exact_mod_cast this.symm

/-- Rounding a non-negative number gives a non-negative `double` or overflows. -/
theorem round_nonneg {y : ℚ} (hy : 0 ≤ y) :
    Double.round y = Double.posInf ∨
      ∃ z, Double.round y = Double.finite z ∧ 0 ≤ z ∧ HasDoubleForm z := by
  rcases le_round hasDoubleForm_zero hy with h | ⟨z, hz, hz0⟩
  · exact Or.inl h
  · exact Or.inr ⟨z, hz, hz0, hasDoubleForm_of_round hy hz⟩

/-! ## The local table of `calculateShortestRoutes` -/

theorem getRoute_setRoute_eq (t : List (List Double)) (i j : Nat) (v : Double) (i' j' : Nat) :
    getRoute (setRoute t i j v) i' j' =
      if i' = i ∧ j' = j ∧ i < t.length ∧ j < (t.getD i []).length then v
      else getRoute t i' j' := by
  unfold getRoute setRoute
  rw [getD_set_eq]
  by_cases hii : i' = i ∧ i < t.length
  · rw [if_pos hii, getD_set_eq, hii.1]
    by_cases hjj : j' = j ∧ j < (t.getD i []).length
    · rw [if_pos hjj, if_pos ⟨rfl, hjj.1, hii.2, hjj.2⟩]
    · rw [if_neg hjj, if_neg (fun h => hjj ⟨h.2.1, h.2.2.2⟩)]
  · rw [if_neg hii, if_neg (fun h => hii ⟨h.1, h.2.2.1⟩)]

theorem isSquareTable_setRoute {n : Nat} {t : List (List Double)} (h : IsSquareTable n t)
    (i j : Nat) (v : Double) : IsSquareTable n (setRoute t i j v) := by
  refine ⟨by rw [setRoute, List.length_set]; exact h.1, ?_⟩
  intro row hrow
  by_cases hi : i < t.length
  · rcases List.mem_or_eq_of_mem_set hrow with hmem | hEq
    · exact h.2 row hmem
    · rw [hEq, List.length_set, List.getD_eq_getElem _ _ hi]
      exact h.2 _ (List.getElem_mem _)
  · rw [setRoute, List.set_eq_of_length_le (Nat.le_of_not_lt hi)] at hrow
    exact h.2 row hrow

theorem getRoute_setRoute {n : Nat} {t : List (List Double)} (h : IsSquareTable n t)
    {i j : Nat} (hi : i < n) (hj : j < n) (v : Double) (i' j' : Nat) :
    getRoute (setRoute t i j v) i' j' = if i' = i ∧ j' = j then v else getRoute t i' j' := by
  have hi' : i < t.length := by rw [h.1]; exact hi
  have hrow : (t.getD i []).length = n := by
    rw [List.getD_eq_getElem _ _ hi']
    exact h.2 _ (List.getElem_mem _)
  rw [getRoute_setRoute_eq]
  by_cases hc : i' = i ∧ j' = j
  · rw [if_pos hc, if_pos ⟨hc.1, hc.2, hi', by rw [hrow]; exact hj⟩]
  · rw [if_neg hc, if_neg (fun hh => hc ⟨hh.1, hh.2.1⟩)]

theorem getD_map_nil {α β : Type} (f : α → β) (m : List (List α)) (i : Nat) :
    ((m.map (fun row => row.map f)).getD i []) = (m.getD i []).map f := by
  simp only [List.getD_eq_getElem?_getD, List.getElem?_map]
  cases m[i]? <;> rfl

theorem getD_map_default {α β : Type} (f : α → β) (row : List α) (j : Nat) (d : α) :
    (row.map f).getD j (f d) = f (row.getD j d) := by
  simp only [List.getD_eq_getElem?_getD, List.getElem?_map]
  cases row[j]? <;> rfl

/-- The copy holds, cell by cell, the numbers of the matrix. -/
theorem getRoute_copyMatrix (m : List (List ℚ)) (i j : Nat) :
    getRoute (copyMatrix m) i j = Double.finite (getCell m i j) := by
  unfold getRoute copyMatrix getCell
  rw [getD_map_nil, getD_map_default]

theorem setRoute_copyMatrix (m : List (List ℚ)) (i j : Nat) (v : ℚ) :
    setRoute (copyMatrix m) i j (Double.finite v) = copyMatrix (setCell m i j v) := by
  unfold setRoute copyMatrix setCell
  rw [getD_map_nil, List.map_set, List.map_set]

theorem isSquareTable_copyMatrix {n : Nat} {m : List (List ℚ)} (h : IsSquare n m) :
    IsSquareTable n (copyMatrix m) := by
  refine ⟨by unfold copyMatrix; rw [List.length_map]; exact h.1, ?_⟩
  intro row hrow
  unfold copyMatrix at hrow
  obtain ⟨r, hr, rfl⟩ := List.mem_map.mp hrow
  rw [List.length_map]
  exact h.2 r hr

/-! ## Comparisons of `double` values -/

theorem equal_finite (a b : ℚ) : Double.equal (Double.finite a) (Double.finite b) ↔ a = b :=
  Iff.rfl

theorem lt_finite (a b : ℚ) : Double.lt (Double.finite a) (Double.finite b) ↔ a < b :=
  Iff.rfl

theorem not_posInf_lt (x : Double) : ¬ Double.lt Double.posInf x := by
  cases x <;> exact fun h => h

theorem add_finite (a b : ℚ) :
    Double.add (Double.finite a) (Double.finite b) = Double.round (a + b) := rfl

/-- The sum of two distances that is below a third value is a distance. -/
theorem isDistance_add {x y z : Double} (hx : IsDistance x) (hy : IsDistance y)
    (hlt : Double.lt (Double.add x y) z) : IsDistance (Double.add x y) := by
  obtain ⟨a, rfl, ha, -⟩ := hx
  obtain ⟨b, rfl, hb, -⟩ := hy
  rw [add_finite] at hlt ⊢
  rcases round_nonneg (add_nonneg ha hb) with h | ⟨s, hs, hs0, hform⟩
  · rw [h] at hlt
    exact absurd hlt (not_posInf_lt z)
  · rw [hs]
    exact ⟨s, rfl, hs0, hform⟩

/-- Adding a distance to a distance never gives less than the first. -/
theorem not_add_lt_self {x y : Double} (hx : IsDistance x) (hy : IsDistance y) :
    ¬ Double.lt (Double.add x y) x := by
  obtain ⟨a, rfl, ha, hform⟩ := hx
  obtain ⟨b, rfl, hb, -⟩ := hy
  rw [add_finite]
  rcases le_round hform (show a ≤ a + b by linarith) with h | ⟨s, hs, hle⟩
  · rw [h]
    exact not_posInf_lt _
  · rw [hs, lt_finite]
    exact not_lt.mpr hle

theorem add_comm_double (x y : Double) : Double.add x y = Double.add y x := by
  cases x <;> cases y <;> first | rfl | (simp only [add_finite]; rw [add_comm])

/-! ## The innermost loop body -/

theorem relaxValue_isDistance {a b c : Double} (ha : IsDistance a) (hb : IsDistance b)
    (hc : IsDistance c) : IsDistance (relaxValue a b c) := by
  unfold relaxValue
  split
  · split
    · rename_i hlt
      exact isDistance_add ha hb hlt
    · exact hc
  · exact hc

theorem relaxValue_comm (a b c : Double) : relaxValue a b c = relaxValue b a c := by
  unfold relaxValue
  rw [add_comm_double a b]
  by_cases hg : ¬ Double.equal a (Double.finite INT_MAX) ∧
      ¬ Double.equal b (Double.finite INT_MAX)
  · rw [if_pos hg, if_pos hg.symm]
  · rw [if_neg hg, if_neg (fun h => hg h.symm)]

theorem relaxValue_self_right {a b : Double} (ha : IsDistance a) (hb : IsDistance b) :
    relaxValue a b a = a := by
  unfold relaxValue
  split
  · rw [if_neg (not_add_lt_self ha hb)]
  · rfl

theorem relaxValue_self_left {a b : Double} (ha : IsDistance a) (hb : IsDistance b) :
    relaxValue a b b = b := by
  rw [relaxValue_comm]
  exact relaxValue_self_right hb ha

theorem relaxCell_eq (k i j : Nat) (d : List (List Double)) :
    relaxCell k i j d =
        setRoute d i j (relaxValue (getRoute d i k) (getRoute d k j) (getRoute d i j))
      ∨ relaxCell k i j d = d := by
  unfold relaxCell relaxValue
  by_cases hg : ¬ Double.equal (getRoute d i k) (Double.finite INT_MAX) ∧
      ¬ Double.equal (getRoute d k j) (Double.finite INT_MAX)
  · rw [if_pos hg, if_pos hg]
    by_cases hlt : Double.lt (Double.add (getRoute d i k) (getRoute d k j)) (getRoute d i j)
    · left; simp only [hlt, if_true]
    · right; simp only [hlt, if_false]
  · right; rw [if_neg hg]

theorem isSquareTable_relaxCell {n : Nat} {d : List (List Double)} (h : IsSquareTable n d)
    (k i j : Nat) : IsSquareTable n (relaxCell k i j d) := by
  rcases relaxCell_eq k i j d with hEq | hEq <;> rw [hEq]
  · exact isSquareTable_setRoute h _ _ _
  · exact h

theorem getRoute_relaxCell {n : Nat} {d : List (List Double)} (h : IsSquareTable n d)
    {k i j : Nat} (hi : i < n) (hj : j < n) (i' j' : Nat) :
    getRoute (relaxCell k i j d) i' j' =
      if i' = i ∧ j' = j then relaxValue (getRoute d i k) (getRoute d k j) (getRoute d i j)
      else getRoute d i' j' := by
  unfold relaxCell relaxValue
  by_cases hg : ¬ Double.equal (getRoute d i k) (Double.finite INT_MAX) ∧
      ¬ Double.equal (getRoute d k j) (Double.finite INT_MAX)
  · rw [if_pos hg, if_pos hg]
    by_cases hlt : Double.lt (Double.add (getRoute d i k) (getRoute d k j)) (getRoute d i j)
    · simp only [hlt, if_true]
      exact getRoute_setRoute h hi hj _ i' j'
    · simp only [hlt, if_false]
      by_cases hc : i' = i ∧ j' = j
      · rw [if_pos hc, hc.1, hc.2]
      · rw [if_neg hc]
  · rw [if_neg hg, if_neg hg]
    by_cases hc : i' = i ∧ j' = j
    · rw [if_pos hc, hc.1, hc.2]
    · rw [if_neg hc]

/-- What one run of the loop body does to the table, whatever its shape: at most the cell
it visits changes, and it changes only to a sum, through the transit station, of two
entries other than the sentinel that is below the entry it replaces. -/
theorem getRoute_relaxCell_cases (k i j : Nat) (d : List (List Double)) (i' j' : Nat) :
    getRoute (relaxCell k i j d) i' j' = getRoute d i' j' ∨
      (i' = i ∧ j' = j ∧
        ¬ Double.equal (getRoute d i k) (Double.finite INT_MAX) ∧
        ¬ Double.equal (getRoute d k j) (Double.finite INT_MAX) ∧
        Double.lt (Double.add (getRoute d i k) (getRoute d k j)) (getRoute d i j) ∧
        getRoute (relaxCell k i j d) i' j' = Double.add (getRoute d i k) (getRoute d k j)) := by
  unfold relaxCell
  by_cases hg : ¬ Double.equal (getRoute d i k) (Double.finite INT_MAX) ∧
      ¬ Double.equal (getRoute d k j) (Double.finite INT_MAX)
  · rw [if_pos hg]
    by_cases hlt : Double.lt (Double.add (getRoute d i k) (getRoute d k j)) (getRoute d i j)
    · dsimp only
      rw [if_pos hlt, getRoute_setRoute_eq]
      split
      · rename_i hc
        exact Or.inr ⟨hc.1, hc.2.1, hg.1, hg.2, hlt, rfl⟩
      · exact Or.inl rfl
    · dsimp only
      rw [if_neg hlt]
      exact Or.inl rfl
  · rw [if_neg hg]
    exact Or.inl rfl

/-! ## Induction over the loops -/

theorem foldl_range_invariant {α : Type} (P : α → Prop) (f : α → Nat → α) (n : Nat)
    (hstep : ∀ x a, x < n → P a → P (f a x)) :
    ∀ m, m ≤ n → ∀ a, P a → P ((List.range m).foldl f a) := by
  intro m
  induction m with
  | zero => intro _ a ha; exact ha
  | succ m ih =>
    intro hm a ha
    rw [List.range_succ, List.foldl_append]
    exact hstep m _ (by omega) (ih (by omega) a ha)

/-- A property of the table that every run of the loop body preserves holds of the table
that `calculateShortestRoutes` computes. -/
theorem calculateShortestRoutes_invariant (net : SouthwestRailwayNetwork)
    (P : List (List Double) → Prop) (h0 : P (copyMatrix net.distance_matrix))
    (hstep : ∀ k i j t, k < net.total_stations → i < net.total_stations →
      j < net.total_stations → P t → P (relaxCell k i j t)) :
    P (calculateShortestRoutes net) := by
  unfold calculateShortestRoutes
  refine foldl_range_invariant P _ net.total_stations ?_ _ (le_refl _) _ h0
  intro k t hk ht
  unfold relaxTransit
  refine foldl_range_invariant P _ net.total_stations ?_ _ (le_refl _) _ ht
  intro i t' hi ht'
  unfold relaxRow
  refine foldl_range_invariant P _ net.total_stations ?_ _ (le_refl _) _ ht'
  intro j t'' hj ht''
  exact hstep k i j t'' hk hi hj ht''

/-! ## One round of the outer loop, in place -/

/-- The loop over `end_station`, stopped after `m` rounds. -/
theorem relaxRow_prefix {n : Nat} {d : List (List Double)} (h : IsSquareTable n d) {k i : Nat}
    (hk : k < n) (hi : i < n)
    (hgood : ∀ a b, a < n → b < n → IsDistance (getRoute d a b)) :
    ∀ m, m ≤ n →
      IsSquareTable n ((List.range m).foldl (fun r j => relaxCell k i j r) d) ∧
      ∀ i' j', getRoute ((List.range m).foldl (fun r j => relaxCell k i j r) d) i' j' =
        if i' = i ∧ j' < m then relaxValue (getRoute d i k) (getRoute d k j') (getRoute d i j')
        else getRoute d i' j' := by
  intro m
  induction m with
  | zero =>
    intro _
    refine ⟨h, fun i' j' => ?_⟩
    rw [if_neg (by omega)]
    rfl
  | succ m ih =>
    intro hm
    obtain ⟨hsq, hcell⟩ := ih (by omega)
    rw [List.range_succ, List.foldl_append]
    simp only [List.foldl_cons, List.foldl_nil]
    refine ⟨isSquareTable_relaxCell hsq _ _ _, fun i' j' => ?_⟩
    rw [getRoute_relaxCell hsq hi (by omega), hcell i' j', hcell i k, hcell k m, hcell i m]
    have e1 : (if i = i ∧ k < m then
        relaxValue (getRoute d i k) (getRoute d k k) (getRoute d i k)
        else getRoute d i k) = getRoute d i k := by
      split
      · exact relaxValue_self_right (hgood i k hi hk) (hgood k k hk hk)
      · rfl
    have e2 : (if k = i ∧ m < m then
        relaxValue (getRoute d i k) (getRoute d k m) (getRoute d i m)
        else getRoute d k m) = getRoute d k m := by
      rw [if_neg (by omega)]
    have e3 : (if i = i ∧ m < m then
        relaxValue (getRoute d i k) (getRoute d k m) (getRoute d i m)
        else getRoute d i m) = getRoute d i m := by
      rw [if_neg (by omega)]
    rw [e1, e2, e3]
    by_cases hc : i' = i ∧ j' = m
    · rw [if_pos hc, if_pos ⟨hc.1, by omega⟩, hc.2]
    · rw [if_neg hc]
      by_cases hc2 : i' = i ∧ j' < m
      · rw [if_pos hc2, if_pos ⟨hc2.1, by omega⟩]
      · rw [if_neg hc2, if_neg (by omega)]

theorem relaxRow_spec {n : Nat} {d : List (List Double)} (h : IsSquareTable n d) {k i : Nat}
    (hk : k < n) (hi : i < n)
    (hgood : ∀ a b, a < n → b < n → IsDistance (getRoute d a b)) :
    IsSquareTable n (relaxRow n k i d) ∧
      ∀ i' j', j' < n → getRoute (relaxRow n k i d) i' j' =
        if i' = i then relaxValue (getRoute d i k) (getRoute d k j') (getRoute d i j')
        else getRoute d i' j' := by
  obtain ⟨hsq, hcell⟩ := relaxRow_prefix h hk hi hgood n (le_refl n)
  refine ⟨hsq, fun i' j' hj' => ?_⟩
  unfold relaxRow
  rw [hcell i' j']
  by_cases hc : i' = i
  · rw [if_pos ⟨hc, hj'⟩, if_pos hc]
  · rw [if_neg (fun h => hc h.1), if_neg hc]

/-- The loop over `start_station`, stopped after `m` rounds. -/
theorem relaxTransit_prefix {n : Nat} {d : List (List Double)} (h : IsSquareTable n d)
    {k : Nat} (hk : k < n)
    (hgood : ∀ a b, a < n → b < n → IsDistance (getRoute d a b)) :
    ∀ m, m ≤ n →
      IsSquareTable n ((List.range m).foldl (fun r i => relaxRow n k i r) d) ∧
      ∀ i' j', j' < n →
        getRoute ((List.range m).foldl (fun r i => relaxRow n k i r) d) i' j' =
          if i' < m then relaxValue (getRoute d i' k) (getRoute d k j') (getRoute d i' j')
          else getRoute d i' j' := by
  intro m
  induction m with
  | zero =>
    intro _
    refine ⟨h, fun i' j' _ => ?_⟩
    rw [if_neg (by omega)]
    rfl
  | succ m ih =>
    intro hm
    obtain ⟨hsq, hcell⟩ := ih (by omega)
    rw [List.range_succ, List.foldl_append]
    simp only [List.foldl_cons, List.foldl_nil]
    have hgood' : ∀ a b, a < n → b < n →
        IsDistance (getRoute ((List.range m).foldl (fun r i => relaxRow n k i r) d) a b) := by
      intro a b ha hb
      rw [hcell a b hb]
      split
      · exact relaxValue_isDistance (hgood a k ha hk) (hgood k b hk hb) (hgood a b ha hb)
      · exact hgood a b ha hb
    obtain ⟨hsq', hcell'⟩ := relaxRow_spec hsq hk (show m < n by omega) hgood'
    refine ⟨hsq', fun i' j' hj' => ?_⟩
    rw [hcell' i' j' hj', hcell m k hk, hcell k j' hj', hcell m j' hj', hcell i' j' hj']
    have e1 : (if m < m then relaxValue (getRoute d m k) (getRoute d k k) (getRoute d m k)
        else getRoute d m k) = getRoute d m k := by
      rw [if_neg (by omega)]
    have e2 : (if k < m then relaxValue (getRoute d k k) (getRoute d k j') (getRoute d k j')
        else getRoute d k j') = getRoute d k j' := by
      split
      · exact relaxValue_self_left (hgood k k hk hk) (hgood k j' hk hj')
      · rfl
    have e3 : (if m < m then relaxValue (getRoute d m k) (getRoute d k j') (getRoute d m j')
        else getRoute d m j') = getRoute d m j' := by
      rw [if_neg (by omega)]
    rw [e1, e2, e3]
    by_cases hc : i' = m
    · rw [if_pos hc, if_pos (by omega), hc]
    · rw [if_neg hc]
      by_cases hc2 : i' < m
      · rw [if_pos hc2, if_pos (by omega)]
      · rw [if_neg hc2, if_neg (by omega)]

/-- One round of the outer loop, although it works in place and rounds every sum, relaxes
every cell with the values the table had when the round began: the entries of row and
column `k` are distances, which adding a distance never lowers. -/
theorem relaxTransit_spec {n : Nat} {d : List (List Double)} (h : IsSquareTable n d)
    {k : Nat} (hk : k < n)
    (hgood : ∀ a b, a < n → b < n → IsDistance (getRoute d a b)) :
    IsSquareTable n (relaxTransit n k d) ∧
      ∀ i j, i < n → j < n → getRoute (relaxTransit n k d) i j =
        relaxValue (getRoute d i k) (getRoute d k j) (getRoute d i j) := by
  obtain ⟨hsq, hcell⟩ := relaxTransit_prefix h hk hgood n (le_refl n)
  refine ⟨hsq, fun i j hi hj => ?_⟩
  unfold relaxTransit
  rw [hcell i j hj, if_pos hi]

/-- A symmetric table of distances stays one through the rounds of the outer loop. -/
theorem shortestRoutes_symm (net : SouthwestRailwayNetwork)
    (hsq : IsSquareTable net.total_stations (copyMatrix net.distance_matrix))
    (hgood : ∀ i j, i < net.total_stations → j < net.total_stations →
      IsDistance (getRoute (copyMatrix net.distance_matrix) i j))
    (hsymm : ∀ i j, i < net.total_stations → j < net.total_stations →
      getRoute (copyMatrix net.distance_matrix) i j =
        getRoute (copyMatrix net.distance_matrix) j i) :
    ∀ i j, i < net.total_stations → j < net.total_stations →
      IsDistance (getRoute (calculateShortestRoutes net) i j) ∧
      getRoute (calculateShortestRoutes net) i j = getRoute (calculateShortestRoutes net) j i := by
  have key : ∀ K, K ≤ net.total_stations →
      IsSquareTable net.total_stations
          ((List.range K).foldl (fun r k => relaxTransit net.total_stations k r)
            (copyMatrix net.distance_matrix)) ∧
        (∀ i j, i < net.total_stations → j < net.total_stations →
          IsDistance (getRoute ((List.range K).foldl
            (fun r k => relaxTransit net.total_stations k r)
            (copyMatrix net.distance_matrix)) i j)) ∧
        ∀ i j, i < net.total_stations → j < net.total_stations →
          getRoute ((List.range K).foldl (fun r k => relaxTransit net.total_stations k r)
              (copyMatrix net.distance_matrix)) i j =
            getRoute ((List.range K).foldl (fun r k => relaxTransit net.total_stations k r)
              (copyMatrix net.distance_matrix)) j i := by
    intro K
    induction K with
    | zero => intro _; exact ⟨hsq, hgood, hsymm⟩
    | succ K ih =>
      intro hK
      obtain ⟨hd, hg, hs⟩ := ih (by omega)
      rw [List.range_succ, List.foldl_append]
      simp only [List.foldl_cons, List.foldl_nil]
      have hk : K < net.total_stations := by omega
      obtain ⟨hd', hcell'⟩ := relaxTransit_spec hd hk hg
      refine ⟨hd', fun i j hi hj => ?_, fun i j hi hj => ?_⟩
      · rw [hcell' i j hi hj]
        exact relaxValue_isDistance (hg i K hi hk) (hg K j hk hj) (hg i j hi hj)
      · rw [hcell' i j hi hj, hcell' j i hj hi, relaxValue_comm, hs i K hi hk,
          hs K j hk hj, hs i j hi hj]
  obtain ⟨-, hg, hs⟩ := key net.total_stations (le_refl _)
  exact fun i j hi hj => ⟨hg i j hi hj, hs i j hi hj⟩

/-! ## The table in exact arithmetic on a built network -/

/-- For valid calls whose weights sum to less than the sentinel, the table in exact
arithmetic lies below the matrix, satisfies the triangle inequality, and holds a
value other than the sentinel for every two stations that are joined. -/
theorem idealRoutes_bounded {n : Nat} {calls : List RailwayLink} (hvalid : ValidCalls n calls)
    (hsum : totalWeight calls < INT_MAX) :
    (∀ i j, i < n → j < n →
      getCell (idealShortestRoutes (buildNetwork n calls)) i j ≤
        getCell (buildNetwork n calls).distance_matrix i j) ∧
    (∀ (r : List Nat) (u v : Nat), r ≠ [] → IsRoute calls r u v →
      getCell (idealShortestRoutes (buildNetwork n calls)) u v ≤
        routeLength (buildNetwork n calls).distance_matrix r u) ∧
    ∀ i j, i < n → j < n → Connected calls i j →
      getCell (idealShortestRoutes (buildNetwork n calls)) i j < INT_MAX := by
  have hrange : ∀ c ∈ calls, c.origin_station < n ∧ c.destination_station < n :=
    fun c hc => ⟨(hvalid c hc).1, (hvalid c hc).2.1⟩
  have hnnw : ∀ e ∈ calls, 0 ≤ e.track_distance := fun e he => (hvalid e he).2.2
  obtain ⟨hn, hsq, hnn, -, hbound⟩ := buildNetwork_table hvalid
  have hwle : ∀ c ∈ calls, c.track_distance ≤ INT_MAX :=
    fun c hc => le_of_lt (lt_of_le_of_lt (weight_le_totalWeight hnnw hc) hsum)
  have hbasic := idealRoutes_basic (buildNetwork n calls) (by rw [hn]; exact hsq)
    (by rw [hn]; exact hnn)
  have htri := idealRoutes_triangle (buildNetwork n calls) (by rw [hn]; exact hsq)
    (by rw [hn]; exact hnn) (by rw [hn]; exact hbound INT_MAX (le_refl _) hwle)
  rw [hn] at hbasic htri
  have hle : ∀ i j, i < n → j < n →
      getCell (idealShortestRoutes (buildNetwork n calls)) i j ≤
        getCell (buildNetwork n calls).distance_matrix i j :=
    fun i j hi hj => (hbasic.2 i j hi hj).2
  have hroute := table_le_route hrange hle htri
  refine ⟨hle, hroute, ?_⟩
  intro i j hi hj hc
  by_cases hij : i = j
  · subst hij
    obtain ⟨-, hcells⟩ := buildNetwork_matrix n calls hrange
    refine lt_of_le_of_lt (hle i i hi hi) ?_
    rcases (hcells i i hi hi).2 with ⟨hval, -⟩ | ⟨l, hl, -, hval⟩
    · rw [hval, if_pos rfl]; exact int_max_pos
    · rw [hval]; exact lt_of_le_of_lt (weight_le_totalWeight hnnw hl) hsum
  · obtain ⟨r, hrne, hr, hlen⟩ := exists_short_route hvalid hsum hc hij
    exact lt_of_le_of_lt (hroute r i j hrne hr) hlen

/-- In exact arithmetic the entry of a joined pair is the length of a shortest route. -/
theorem idealRoutes_correct (n : Nat) (calls : List RailwayLink)
    (hvalid : ValidCalls n calls)
    (hdistinct : ∀ c ∈ calls, c.origin_station ≠ c.destination_station)
    (hsum : totalWeight (buildNetwork n calls).all_railway_links < INT_MAX) :
    ∀ i j, i < n → j < n → Connected (buildNetwork n calls).all_railway_links i j →
      (∃ r : List Nat, IsRoute (buildNetwork n calls).all_railway_links r i j ∧
        routeLength (buildNetwork n calls).distance_matrix r i =
          getCell (idealShortestRoutes (buildNetwork n calls)) i j) ∧
      ∀ r : List Nat, IsRoute (buildNetwork n calls).all_railway_links r i j →
        getCell (idealShortestRoutes (buildNetwork n calls)) i j ≤
          routeLength (buildNetwork n calls).distance_matrix r i := by
  rw [(buildNetwork_frame n calls).2.1] at hsum ⊢
  have hrange : ∀ c ∈ calls, c.origin_station < n ∧ c.destination_station < n :=
    fun c hc => ⟨(hvalid c hc).1, (hvalid c hc).2.1⟩
  obtain ⟨hle, hroute, hfin⟩ := idealRoutes_bounded hvalid hsum
  intro i j hi hj hc
  refine ⟨idealRoutes_route hvalid i j hi hj (ne_of_lt (hfin i j hi hj hc)), ?_⟩
  intro r hr
  cases r with
  | nil =>
    have hij : i = j := hr
    subst hij
    obtain ⟨-, hcells⟩ := buildNetwork_matrix n calls hrange
    refine le_trans (hle i i hi hi) ?_
    rcases (hcells i i hi hi).2 with ⟨hval, -⟩ | ⟨l, hl, hjoin, -⟩
    · rw [hval, if_pos rfl]; exact le_refl _
    · exfalso
      apply hdistinct l hl
      rcases hjoin with ⟨h1, h2⟩ | ⟨h1, h2⟩ <;> rw [h1, h2]
  | cons x r => exact hroute (x :: r) i j (List.cons_ne_nil _ _) hr

/-- In exact arithmetic the table of a network with weights up to the sentinel satisfies the
triangle inequality. -/
theorem idealRoutes_triangle_built (n : Nat) (calls : List RailwayLink)
    (hvalid : ValidCalls n calls) (hweights : ∀ c ∈ calls, c.track_distance ≤ INT_MAX) :
    ∀ i j k, i < n → j < n → k < n →
      getCell (idealShortestRoutes (buildNetwork n calls)) i j ≤
        getCell (idealShortestRoutes (buildNetwork n calls)) i k +
          getCell (idealShortestRoutes (buildNetwork n calls)) k j := by
  obtain ⟨hn, hsq, hnn, -, hbound⟩ := buildNetwork_table hvalid
  have htri := idealRoutes_triangle (buildNetwork n calls) (by rw [hn]; exact hsq)
    (by rw [hn]; exact hnn) (by rw [hn]; exact hbound INT_MAX (le_refl _) hweights)
  rw [hn] at htri
  exact htri

/-! ## Weights whose sums are exact -/

theorem onGrid_iff (x : ℚ) : OnGrid x ↔ ∃ m : ℤ, x * 2097152 = (m : ℚ) := by
  unfold OnGrid
  constructor
  · intro h
    exact ⟨(x * 2097152).num, (Rat.den_eq_one_iff _).mp h |>.symm⟩
  · rintro ⟨m, hm⟩
    rw [hm]
    exact Rat.den_intCast m

theorem onGrid_add {x y : ℚ} (hx : OnGrid x) (hy : OnGrid y) : OnGrid (x + y) := by
  rw [onGrid_iff] at hx hy ⊢
  obtain ⟨a, ha⟩ := hx
  obtain ⟨b, hb⟩ := hy
  exact ⟨a + b, by push_cast; rw [add_mul, ha, hb]⟩

theorem onGrid_zero : OnGrid 0 := by decide!

theorem onGrid_int_max : OnGrid INT_MAX := by decide!

theorem isExactEntry_zero : IsExactEntry 0 :=
  ⟨onGrid_zero, le_refl _, le_of_lt int_max_pos⟩

theorem isExactEntry_int_max : IsExactEntry INT_MAX :=
  ⟨onGrid_int_max, le_of_lt int_max_pos, le_refl _⟩

/-- A non-negative number below `2 ^ 32` with at most 21 binary places is a `double`. -/
theorem hasDoubleForm_of_onGrid {x : ℚ} (hx : OnGrid x) (h0 : 0 ≤ x) (hlt : x < 4294967296) :
    HasDoubleForm x := by
  obtain ⟨m, hm⟩ := (onGrid_iff x).mp hx
  have hm0 : (0 : ℚ) ≤ (m : ℚ) := by rw [← hm]; positivity
  have hm0' : 0 ≤ m := by exact_mod_cast hm0
  have hmlt : (m : ℚ) < 9007199254740992 := by rw [← hm]; linarith
  have hmlt' : m < 9007199254740992 := by exact_mod_cast hmlt
  refine ⟨m.toNat, -21, by omega, by norm_num, by norm_num, ?_⟩
  have hcast : ((m.toNat : ℕ) : ℚ) = (m : ℚ) := by
    have := Int.toNat_of_nonneg hm0'
    exact_mod_cast this
  rw [hcast, ← hm]
  have h21 : (2 : ℚ) ^ (-21 : ℤ) = 1 / 2097152 := by norm_num [zpow_neg]
  rw [h21]
  ring

theorem isDistance_of_exactEntry {x : ℚ} (hx : IsExactEntry x) :
    IsDistance (Double.finite x) := by
  obtain ⟨hg, h0, hle⟩ := hx
  refine ⟨x, rfl, h0, hasDoubleForm_of_onGrid hg h0 ?_⟩
  unfold INT_MAX at hle
  linarith

/-- The sum of two exact entries is computed exactly. -/
theorem add_exactEntry {a b : ℚ} (ha : IsExactEntry a) (hb : IsExactEntry b) :
    Double.add (Double.finite a) (Double.finite b) = Double.finite (a + b) := by
  rw [add_finite]
  apply round_of_hasDoubleForm
  obtain ⟨hga, ha0, hale⟩ := ha
  obtain ⟨hgb, hb0, hble⟩ := hb
  unfold INT_MAX at hale hble
  exact hasDoubleForm_of_onGrid (onGrid_add hga hgb) (add_nonneg ha0 hb0) (by linarith)

theorem getCell_setCell_eq (m : List (List ℚ)) (i j : Nat) (v : ℚ) (i' j' : Nat) :
    getCell (setCell m i j v) i' j' =
      if i' = i ∧ j' = j ∧ i < m.length ∧ j < (m.getD i []).length then v
      else getCell m i' j' := by
  unfold getCell setCell
  rw [getD_set_eq]
  by_cases hii : i' = i ∧ i < m.length
  · rw [if_pos hii, getD_set_eq, hii.1]
    by_cases hjj : j' = j ∧ j < (m.getD i []).length
    · rw [if_pos hjj, if_pos ⟨rfl, hjj.1, hii.2, hjj.2⟩]
    · rw [if_neg hjj, if_neg (fun h => hjj ⟨h.2.1, h.2.2.2⟩)]
  · rw [if_neg hii, if_neg (fun h => hii ⟨h.1, h.2.2.1⟩)]

/-- On a table of exact entries the loop body of the program does what the loop body with
the exact sum does, and the entries stay exact. -/
theorem relaxCell_eq_ideal (k i j : Nat) (t : List (List ℚ))
    (hexact : ∀ a b, IsExactEntry (getCell t a b)) :
    relaxCell k i j (copyMatrix t) = copyMatrix (idealRelaxCell k i j t) ∧
      ∀ a b, IsExactEntry (getCell (idealRelaxCell k i j t) a b) := by
  unfold relaxCell idealRelaxCell
  simp only [getRoute_copyMatrix, equal_finite]
  by_cases hg : getCell t i k ≠ INT_MAX ∧ getCell t k j ≠ INT_MAX
  · rw [if_pos hg, if_pos hg, add_exactEntry (hexact i k) (hexact k j)]
    simp only [lt_finite]
    by_cases hlt : getCell t i k + getCell t k j < getCell t i j
    · rw [if_pos hlt, if_pos hlt, setRoute_copyMatrix]
      refine ⟨rfl, fun a b => ?_⟩
      rw [getCell_setCell_eq]
      split
      · obtain ⟨hg1, h1, -⟩ := hexact i k
        obtain ⟨hg2, h2, -⟩ := hexact k j
        obtain ⟨-, -, h3⟩ := hexact i j
        exact ⟨onGrid_add hg1 hg2, add_nonneg h1 h2, le_trans (le_of_lt hlt) h3⟩
      · exact hexact a b
    · rw [if_neg hlt, if_neg hlt]
      exact ⟨rfl, hexact⟩
  · rw [if_neg hg, if_neg hg]
    exact ⟨rfl, hexact⟩

theorem foldl_range_simulation {α β : Type} (R : α → β → Prop) (f : α → Nat → α)
    (g : β → Nat → β) (hstep : ∀ x a b, R a b → R (f a x) (g b x)) :
    ∀ (l : List Nat) a b, R a b → R (l.foldl f a) (l.foldl g b) := by
  intro l
  induction l with
  | nil => intro a b h; exact h
  | cons x l ih => intro a b h; exact ih _ _ (hstep x a b h)

/-- When every entry of the distance matrix is exact, the table the program computes is the
table in exact arithmetic, and its entries are exact. -/
theorem calculateShortestRoutes_tablesAgree (net : SouthwestRailwayNetwork)
    (hexact : ∀ a b, IsExactEntry (getCell net.distance_matrix a b)) :
    TablesAgree (calculateShortestRoutes net) (idealShortestRoutes net) := by
  have hcell : ∀ k i j T t, TablesAgree T t →
      TablesAgree (relaxCell k i j T) (idealRelaxCell k i j t) := by
    rintro k i j T t ⟨rfl, hex⟩
    exact relaxCell_eq_ideal k i j t hex
  have hrow : ∀ k i T t, TablesAgree T t →
      TablesAgree (relaxRow net.total_stations k i T)
        (idealRelaxRow net.total_stations k i t) :=
    fun k i T t h => foldl_range_simulation TablesAgree (fun r j => relaxCell k i j r)
      (fun r j => idealRelaxCell k i j r) (fun j a b hab => hcell k i j a b hab) _ T t h
  have htransit : ∀ k T t, TablesAgree T t →
      TablesAgree (relaxTransit net.total_stations k T)
        (idealRelaxTransit net.total_stations k t) :=
    fun k T t h => foldl_range_simulation TablesAgree
      (fun r i => relaxRow net.total_stations k i r)
      (fun r i => idealRelaxRow net.total_stations k i r) (fun i a b hab => hrow k i a b hab)
      _ T t h
  exact foldl_range_simulation TablesAgree
    (fun r k => relaxTransit net.total_stations k r)
    (fun r k => idealRelaxTransit net.total_stations k r) (fun k a b hab => htransit k a b hab)
    (List.range net.total_stations) (copyMatrix net.distance_matrix) net.distance_matrix
    ⟨rfl, hexact⟩

theorem calculateShortestRoutes_eq_ideal (net : SouthwestRailwayNetwork)
    (hexact : ∀ a b, IsExactEntry (getCell net.distance_matrix a b)) :
    calculateShortestRoutes net = copyMatrix (idealShortestRoutes net) :=
  (calculateShortestRoutes_tablesAgree net hexact).1

theorem getCell_out_of_range {n : Nat} {m : List (List ℚ)} (h : IsSquare n m) {i j : Nat}
    (hij : ¬ (i < n ∧ j < n)) : getCell m i j = 0 := by
  unfold getCell
  by_cases hi : i < n
  · have hj : n ≤ j := by
      by_contra hc
      exact hij ⟨hi, by omega⟩
    rw [List.getD_eq_default _ _ (by rw [getD_row_length h hi]; exact hj)]
  · have hrow : m.getD i [] = [] := List.getD_eq_default _ _ (by rw [h.1]; omega)
    rw [hrow]
    rfl

/-- The matrix of a network built by in-range calls with non-negative weights up to the
sentinel that have at most 21 binary places holds exact entries only. -/
theorem buildNetwork_exact {n : Nat} {calls : List RailwayLink} (hvalid : ValidCalls n calls)
    (hgrid : ∀ c ∈ calls, OnGrid c.track_distance)
    (hle : ∀ c ∈ calls, c.track_distance ≤ INT_MAX) :
    ∀ a b, IsExactEntry (getCell (buildNetwork n calls).distance_matrix a b) := by
  have hrange : ∀ c ∈ calls, c.origin_station < n ∧ c.destination_station < n :=
    fun c hc => ⟨(hvalid c hc).1, (hvalid c hc).2.1⟩
  obtain ⟨hsq, hcells⟩ := buildNetwork_matrix n calls hrange
  intro a b
  by_cases hab : a < n ∧ b < n
  · rcases (hcells a b hab.1 hab.2).2 with ⟨hval, -⟩ | ⟨l, hl, -, hval⟩
    · rw [hval]
      split
      · exact isExactEntry_zero
      · exact isExactEntry_int_max
    · rw [hval]
      exact ⟨hgrid l hl, (hvalid l hl).2.2, hle l hl⟩
  · rw [getCell_out_of_range hsq hab]
    exact isExactEntry_zero

/-! ## The table of the program on a built network -/

theorem isDistance_of_isDouble {w : ℚ} (h0 : 0 ≤ w) (hw : IsDouble w) :
    IsDistance (Double.finite w) :=
  ⟨w, rfl, h0, hasDoubleForm_of_round h0 hw⟩

/-- The copy of the matrix of a network built by valid calls with `double` weights: square,
symmetric, and every entry a distance. -/
theorem buildNetwork_distances {n : Nat} {calls : List RailwayLink}
    (hvalid : ValidCalls n calls) (hdouble : ∀ c ∈ calls, IsDouble c.track_distance) :
    (buildNetwork n calls).total_stations = n ∧
      IsSquareTable n (copyMatrix (buildNetwork n calls).distance_matrix) ∧
      (∀ i j, i < n → j < n →
        IsDistance (getRoute (copyMatrix (buildNetwork n calls).distance_matrix) i j)) ∧
      ∀ i j, i < n → j < n →
        getRoute (copyMatrix (buildNetwork n calls).distance_matrix) i j =
          getRoute (copyMatrix (buildNetwork n calls).distance_matrix) j i := by
  have hrange : ∀ c ∈ calls, c.origin_station < n ∧ c.destination_station < n :=
    fun c hc => ⟨(hvalid c hc).1, (hvalid c hc).2.1⟩
  obtain ⟨hsq, hcells⟩ := buildNetwork_matrix n calls hrange
  refine ⟨(buildNetwork_frame n calls).1, isSquareTable_copyMatrix hsq, ?_, ?_⟩
  · intro i j hi hj
    rw [getRoute_copyMatrix]
    rcases (hcells i j hi hj).2 with ⟨hval, -⟩ | ⟨l, hl, -, hval⟩
    · rw [hval]
      split
      · exact isDistance_of_exactEntry isExactEntry_zero
      · exact isDistance_of_exactEntry isExactEntry_int_max
    · rw [hval]
      exact isDistance_of_isDouble (hvalid l hl).2.2 (hdouble l hl)
  · intro i j hi hj
    rw [getRoute_copyMatrix, getRoute_copyMatrix, (hcells i j hi hj).1]

/-- On non-negative weights every entry of the table is a finite non-negative number, at
most the matrix entry of its pair: the loop body only ever lowers a cell. -/
theorem shortestRoutes_below {n : Nat} {calls : List RailwayLink}
    (hvalid : ValidCalls n calls) :
    ∀ i j, i < n → j < n →
      ∃ d, getRoute (calculateShortestRoutes (buildNetwork n calls)) i j = Double.finite d ∧
        0 ≤ d ∧ d ≤ getCell (buildNetwork n calls).distance_matrix i j := by
  obtain ⟨hn, -, hnn, -, -⟩ := buildNetwork_table hvalid
  refine calculateShortestRoutes_invariant (buildNetwork n calls)
    (fun t => ∀ i j, i < n → j < n →
      ∃ d, getRoute t i j = Double.finite d ∧
        0 ≤ d ∧ d ≤ getCell (buildNetwork n calls).distance_matrix i j) ?_ ?_
  · intro i j hi hj
    exact ⟨_, getRoute_copyMatrix _ i j, hnn i j hi hj, le_refl _⟩
  · intro k i j t hk hi hj hP i' j' hi' hj'
    rw [hn] at hk hi hj
    rcases getRoute_relaxCell_cases k i j t i' j' with hEq | ⟨rfl, rfl, -, -, hlt, hEq⟩
    · rw [hEq]
      exact hP i' j' hi' hj'
    · obtain ⟨a, ha, ha0, -⟩ := hP i' k hi hk
      obtain ⟨b, hb, hb0, -⟩ := hP k j' hk hj
      obtain ⟨c, hc, -, hcle⟩ := hP i' j' hi hj
      rw [hEq]
      rw [ha, hb, hc, add_finite] at hlt
      rw [ha, hb, add_finite]
      rcases round_nonneg (add_nonneg ha0 hb0) with h | ⟨z, hz, hz0, -⟩
      · rw [h] at hlt
        exact absurd hlt (not_posInf_lt _)
      · rw [hz] at hlt ⊢
        exact ⟨z, rfl, hz0, le_trans (le_of_lt ((lt_finite z c).mp hlt)) hcle⟩

/-- On weights with at most 21 binary places whose sum is below the sentinel, or that are
each at most the sentinel, the program computes the table in exact arithmetic. -/
theorem buildNetwork_eq_ideal {n : Nat} {calls : List RailwayLink} (hvalid : ValidCalls n calls)
    (hgrid : ∀ c ∈ calls, OnGrid c.track_distance)
    (hle : ∀ c ∈ calls, c.track_distance ≤ INT_MAX) :
    ∀ i j, getRoute (calculateShortestRoutes (buildNetwork n calls)) i j =
      Double.finite (getCell (idealShortestRoutes (buildNetwork n calls)) i j) := by
  intro i j
  rw [calculateShortestRoutes_eq_ideal _ (buildNetwork_exact hvalid hgrid hle),
    getRoute_copyMatrix]

/-- C1. Minimality of Kruskal.  On a freshly constructed network of `n` stations populated by
`connectStations` calls with indices below `n`, whatever sorted permutation `std::sort`
produces and with fuel for every station, the first call of the builder returns a list whose
weight, the exact sum of its weights, is at most the weight of every acyclic set of links of
the link list that joins exactly the pairs of stations the whole link list joins; the returned
list is itself such a set.  The total the builder prints is the running `double` sum of the
returned weights, each addition rounded. -/
theorem kruskal_minimal (sortFn : List RailwayLink → List RailwayLink)
    (hsort : IsSortByDistance sortFn) (n : Nat) (calls : List RailwayLink)
    (hrange : ∀ c ∈ calls, c.origin_station < n ∧ c.destination_station < n)
    (fuel : Nat) (hfuel : n ≤ fuel) :
    ∃ out, buildOptimalRailwayNetworkWith sortFn fuel (buildNetwork n calls) = some out ∧
      out.total_track_length = addLengths (Double.finite 0) out.mst_railway_tracks ∧
      (∀ l ∈ out.mst_railway_tracks, l ∈ (buildNetwork n calls).all_railway_links) ∧
      ¬ HasCycle out.mst_railway_tracks ∧
      (∀ u v, Connected out.mst_railway_tracks u v ↔
        Connected (buildNetwork n calls).all_railway_links u v) ∧
      ∀ forest : List RailwayLink,
        (∀ l ∈ forest, l ∈ (buildNetwork n calls).all_railway_links) →
        ¬ HasCycle forest →
        (∀ u v, Connected forest u v ↔
          Connected (buildNetwork n calls).all_railway_links u v) →
        totalWeight out.mst_railway_tracks ≤ totalWeight forest := by
  obtain ⟨out, hrun, hscan, htotal, hmemK, hacycK, hconn⟩ :=
    buildOptimalRailwayNetworkWith_forest hsort hrange hfuel
  have hlinks := (buildNetwork_frame n calls).2.1
  obtain ⟨hperm, hsorted⟩ := hsort (buildNetwork n calls).all_railway_links
  have hrangeS : ∀ l ∈ sortFn (buildNetwork n calls).all_railway_links,
      l.origin_station < n ∧ l.destination_station < n :=
    fun l hl => hrange l (by rw [← hlinks]; exact hperm.subset hl)
  refine ⟨out, hrun, htotal, hmemK, hacycK, hconn, ?_⟩
  intro forest hmem hacyc hspan
  exact scan_minimal hsorted hrangeS hscan forest (fun l hl => hperm.symm.subset (hmem l hl))
    hacyc (fun u v => (hspan u v).trans (connected_perm hperm u v).symm)

theorem kruskal_minimal_witness :
    ∃ out, buildOptimalRailwayNetworkWith sortLinks 4 scenarioOne = some out ∧
      totalWeight out.mst_railway_tracks ≤
        totalWeight [RailwayLink.mk 0 1 10, RailwayLink.mk 1 2 10, RailwayLink.mk 2 3 20] := by
  obtain ⟨out, hrun, -, -, -, -, hmin⟩ :=
    kruskal_minimal sortLinks sortLinks_isSortByDistance 4
      [⟨0, 1, 10⟩, ⟨1, 2, 10⟩, ⟨0, 2, 5⟩, ⟨2, 3, 20⟩] (by decide) 4 (by decide)
  refine ⟨out, hrun, hmin _ ?_ ?_ ?_⟩
  · rw [(buildNetwork_frame _ _).2.1]; decide
  · simp [not_hasCycle_cons_iff, not_hasCycle_nil, connected_cons, connected_nil_iff]
  · rw [(buildNetwork_frame _ _).2.1]
    apply spans_of_links_connected
    · decide
    · intro l hl
      simp only [List.mem_cons, List.mem_singleton, List.not_mem_nil, or_false] at hl
      rcases hl with rfl | rfl | rfl | rfl <;>
        simp [connected_cons, connected_nil_iff]

/-- C3. Kruskal's result is acyclic.  On a freshly constructed network populated by in-range
`connectStations` calls, the first call of the builder returns a list without a cycle, and
every link of it was accepted in the state reached by the loop on the links sorted before
it, a state in which `findStationRoot` reports the two ends of the link in different sets. -/
theorem kruskal_acyclic (sortFn : List RailwayLink → List RailwayLink)
    (hsort : IsSortByDistance sortFn) (n : Nat) (calls : List RailwayLink)
    (hrange : ∀ c ∈ calls, c.origin_station < n ∧ c.destination_station < n)
    (fuel : Nat) (hfuel : n ≤ fuel) :
    ∃ out, buildOptimalRailwayNetworkWith sortFn fuel (buildNetwork n calls) = some out ∧
      ¬ HasCycle out.mst_railway_tracks ∧
      ∀ acc l tail, out.mst_railway_tracks = acc ++ l :: tail →
        ∃ pre post mid,
          sortFn (buildNetwork n calls).all_railway_links = pre ++ l :: post ∧
          kruskalLoop fuel pre
            { buildNetwork n calls with
              all_railway_links := sortFn (buildNetwork n calls).all_railway_links } [] (Double.finite 0) =
            some mid ∧
          mid.mst_railway_tracks = acc ∧
          ∃ net1 net2,
            findStationRoot fuel mid.network l.origin_station =
              some (rootOf mid.network.station_parent l.origin_station, net1) ∧
            findStationRoot fuel net1 l.destination_station =
              some (rootOf mid.network.station_parent l.destination_station, net2) ∧
            rootOf mid.network.station_parent l.origin_station ≠
              rootOf mid.network.station_parent l.destination_station := by
  obtain ⟨out, hrun, hscan, -⟩ := buildOptimalRailwayNetworkWith_scan hsort hrange hfuel
  obtain ⟨hlen, hwf, hroot⟩ := buildNetwork_unionFind n calls
  have hlinks := (buildNetwork_frame n calls).2.1
  refine ⟨out, hrun, scan_acyclic hscan not_hasCycle_nil, ?_⟩
  intro acc l tail hmst
  obtain ⟨pre, post, mid, hsplit, hpre, hmid, hrep⟩ :=
    kruskalLoop_moment hfuel (sortFn (buildNetwork n calls).all_railway_links)
      { buildNetwork n calls with
        all_railway_links := sortFn (buildNetwork n calls).all_railway_links } [] (Double.finite 0)
      hlen hwf
      (fun u v hu hv => by
        show rootOf (buildNetwork n calls).station_parent u =
          rootOf (buildNetwork n calls).station_parent v ↔ _
        rw [hroot u hu, hroot v hv, connected_nil_iff])
      (fun e he => hrange e (by rw [← hlinks]; exact (hsort _).1.subset he))
      out hrun acc l tail (by rw [hmst]; simp)
  exact ⟨pre, post, mid, hsplit, hpre, by simpa using hmid, hrep⟩

theorem kruskal_acyclic_witness :
    ∃ out, buildOptimalRailwayNetworkWith sortLinks 4 scenarioOne = some out ∧
      ¬ HasCycle out.mst_railway_tracks ∧
      ∀ acc l tail, out.mst_railway_tracks = acc ++ l :: tail →
        ∃ pre post mid,
          sortLinks scenarioOne.all_railway_links = pre ++ l :: post ∧
          kruskalLoop 4 pre
            { scenarioOne with
              all_railway_links := sortLinks scenarioOne.all_railway_links } [] (Double.finite 0) =
            some mid ∧
          mid.mst_railway_tracks = acc ∧
          ∃ net1 net2,
            findStationRoot 4 mid.network l.origin_station =
              some (rootOf mid.network.station_parent l.origin_station, net1) ∧
            findStationRoot 4 net1 l.destination_station =
              some (rootOf mid.network.station_parent l.destination_station, net2) ∧
            rootOf mid.network.station_parent l.origin_station ≠
              rootOf mid.network.station_parent l.destination_station :=
  kruskal_acyclic sortLinks sortLinks_isSortByDistance 4
    [⟨0, 1, 10⟩, ⟨1, 2, 10⟩, ⟨0, 2, 5⟩, ⟨2, 3, 20⟩] (by decide) 4 (by decide)

/-- C4. Edge count of Kruskal's result.  On a freshly constructed network of `n` stations
populated by in-range `connectStations` calls, the graph has some number of connected
components, and whenever it has exactly `k` of them the first call of the builder returns
exactly `n - k` links; when every two stations are joined it returns exactly `n - 1`. -/
theorem kruskal_edge_count (sortFn : List RailwayLink → List RailwayLink)
    (hsort : IsSortByDistance sortFn) (n : Nat) (calls : List RailwayLink)
    (hrange : ∀ c ∈ calls, c.origin_station < n ∧ c.destination_station < n)
    (fuel : Nat) (hfuel : n ≤ fuel) :
    ∃ out, buildOptimalRailwayNetworkWith sortFn fuel (buildNetwork n calls) = some out ∧
      (∃ k, HasComponents n (buildNetwork n calls).all_railway_links k) ∧
      (∀ k, HasComponents n (buildNetwork n calls).all_railway_links k →
        k ≤ n ∧ out.mst_railway_tracks.length = n - k) ∧
      ((∀ u v, u < n → v < n → Connected (buildNetwork n calls).all_railway_links u v) →
        out.mst_railway_tracks.length = n - 1) := by
  obtain ⟨out, hrun, -, -, hmem, hacyc, hconn⟩ :=
    buildOptimalRailwayNetworkWith_forest hsort hrange hfuel
  have hlinks := (buildNetwork_frame n calls).2.1
  have hresR : ∀ l ∈ out.mst_railway_tracks, l.origin_station < n ∧ l.destination_station < n :=
    fun l hl => hrange l (by rw [← hlinks]; exact hmem l hl)
  have hcount : ∀ reps, IsComponentReps n (buildNetwork n calls).all_railway_links reps →
      reps.length + out.mst_railway_tracks.length = n :=
    fun reps hreps => forest_length_add_reps _ hacyc hresR reps
      (isComponentReps_congr (fun u v => (hconn u v).symm) hreps)
  refine ⟨out, hrun, ?_, ?_, ?_⟩
  · obtain ⟨reps, hreps⟩ := exists_componentReps (buildNetwork n calls).all_railway_links n
    exact ⟨reps.length, reps, hreps, rfl⟩
  · rintro k ⟨reps, hreps, rfl⟩
    have := hcount reps hreps
    omega
  · intro hall
    rcases Nat.eq_zero_or_pos n with hn | hn
    · obtain ⟨reps, hreps⟩ := exists_componentReps (buildNetwork n calls).all_railway_links n
      have := hcount reps hreps
      omega
    · have hreps : IsComponentReps n (buildNetwork n calls).all_railway_links [0] := by
        refine ⟨?_, List.pairwise_singleton _ _, ?_⟩
        · intro r hr
          rw [List.mem_singleton.mp hr]; exact hn
        · intro v hv
          exact ⟨0, List.mem_singleton.mpr rfl, hall v 0 hv hn⟩
      have := hcount [0] hreps
      simp only [List.length_singleton] at this
      omega

theorem kruskal_edge_count_witness :
    ∃ out, buildOptimalRailwayNetworkWith sortLinks 4 scenarioTwo = some out ∧
      out.mst_railway_tracks.length = 4 - 2 := by
  obtain ⟨out, hrun, -, hcount, -⟩ :=
    kruskal_edge_count sortLinks sortLinks_isSortByDistance 4
      [⟨0, 1, 5⟩, ⟨2, 3, 5⟩] (by decide) 4 (by decide)
  refine ⟨out, hrun, (hcount 2 ⟨[0, 2], ?_, rfl⟩).2⟩
  rw [(buildNetwork_frame _ _).2.1]
  refine ⟨by decide, ?_, ?_⟩
  · simp [connected_cons, connected_nil_iff]
  · intro v hv
    have : v = 0 ∨ v = 1 ∨ v = 2 ∨ v = 3 := by omega
    rcases this with rfl | rfl | rfl | rfl <;>
      simp [connected_cons, connected_nil_iff]

/-! ## The concrete scenarios -/

theorem scenarioOne_run :
    (buildOptimalRailwayNetwork 4 scenarioOne).map
        (fun o => (o.mst_railway_tracks, o.total_track_length,
          getRoute (calculateShortestRoutes o.network) 0 3)) =
      some ([⟨0, 2, 5⟩, ⟨0, 1, 10⟩, ⟨2, 3, 20⟩], Double.finite 35, Double.finite 25) := by
  decide!

theorem scenarioTwo_run :
    (buildOptimalRailwayNetwork 4 scenarioTwo).map
        (fun o => (o.mst_railway_tracks, o.total_track_length,
          getRoute (calculateShortestRoutes o.network) 0 2)) =
      some ([⟨0, 1, 5⟩, ⟨2, 3, 5⟩], Double.finite 10, Double.finite INT_MAX) := by
  decide!

/-- C5. Scenario 1: with enough fuel for the recursion (four or more), the builder returns
exactly (0-2,5), (0-1,10), (2-3,20) in this order, prints the total 35, which is the sum of the
returned weights, does not select (1-2,10), and the shortest-route table, computed before or
after the builder has run, holds 25 at (0, 3). -/
theorem scenario_one_mst_and_route (fuel : Nat) (hfuel : 4 ≤ fuel) :
    ∃ out, buildOptimalRailwayNetwork fuel scenarioOne = some out ∧
      out.mst_railway_tracks = [⟨0, 2, 5⟩, ⟨0, 1, 10⟩, ⟨2, 3, 20⟩] ∧
      out.total_track_length = Double.finite 35 ∧
      totalWeight out.mst_railway_tracks = 35 ∧
      RailwayLink.mk 1 2 10 ∉ out.mst_railway_tracks ∧
      getRoute (calculateShortestRoutes scenarioOne) 0 3 = Double.finite 25 ∧
      getRoute (calculateShortestRoutes out.network) 0 3 = Double.finite 25 := by
  have hrun := scenarioOne_run
  cases h : buildOptimalRailwayNetwork 4 scenarioOne with
  | none => rw [h] at hrun; exact absurd hrun (by simp)
  | some out =>
    rw [h] at hrun
    simp only [Option.map_some', Option.some.injEq, Prod.mk.injEq] at hrun
    refine ⟨out, buildOptimalRailwayNetworkWith_fuel_mono hfuel h, hrun.1, hrun.2.1, ?_, ?_, ?_,
      hrun.2.2⟩
    · rw [hrun.1]; decide!
    · rw [hrun.1]; decide
    · decide!

theorem scenario_one_mst_and_route_witness :
    ∃ out, buildOptimalRailwayNetwork 7 scenarioOne = some out ∧
      out.mst_railway_tracks = [⟨0, 2, 5⟩, ⟨0, 1, 10⟩, ⟨2, 3, 20⟩] ∧
      out.total_track_length = Double.finite 35 ∧
      totalWeight out.mst_railway_tracks = 35 ∧
      RailwayLink.mk 1 2 10 ∉ out.mst_railway_tracks ∧
      getRoute (calculateShortestRoutes scenarioOne) 0 3 = Double.finite 25 ∧
      getRoute (calculateShortestRoutes out.network) 0 3 = Double.finite 25 :=
  scenario_one_mst_and_route 7 (by decide)

/-- C6. Scenario 2 (disconnected graph): with enough fuel the builder comes back with a
result (no error), the result is exactly the two links, the total is 10, and the
shortest-route table, computed before or after the builder has run, holds the sentinel at
(0, 2), which the display renders as `INF`. -/
theorem scenario_two_forest_and_unreachable (fuel : Nat) (hfuel : 4 ≤ fuel) :
    ∃ out, buildOptimalRailwayNetwork fuel scenarioTwo = some out ∧
      out.mst_railway_tracks = [⟨0, 1, 5⟩, ⟨2, 3, 5⟩] ∧
      out.mst_railway_tracks.length = 2 ∧
      out.total_track_length = Double.finite 10 ∧
      totalWeight out.mst_railway_tracks = 10 ∧
      getRoute (calculateShortestRoutes scenarioTwo) 0 2 = Double.finite INT_MAX ∧
      getRoute (calculateShortestRoutes out.network) 0 2 = Double.finite INT_MAX ∧
      displayCell (getRoute (calculateShortestRoutes scenarioTwo) 0 2) = DisplayCell.INF := by
  have hrun := scenarioTwo_run
  cases h : buildOptimalRailwayNetwork 4 scenarioTwo with
  | none => rw [h] at hrun; exact absurd hrun (by simp)
  | some out =>
    rw [h] at hrun
    simp only [Option.map_some', Option.some.injEq, Prod.mk.injEq] at hrun
    refine ⟨out, buildOptimalRailwayNetworkWith_fuel_mono hfuel h, hrun.1, ?_, hrun.2.1, ?_, ?_,
      hrun.2.2, ?_⟩
    · rw [hrun.1]; rfl
    · rw [hrun.1]; decide!
    · decide!
    · decide!

theorem scenario_two_forest_and_unreachable_witness :
    ∃ out, buildOptimalRailwayNetwork 4 scenarioTwo = some out ∧
      out.mst_railway_tracks = [⟨0, 1, 5⟩, ⟨2, 3, 5⟩] ∧
      out.mst_railway_tracks.length = 2 ∧
      out.total_track_length = Double.finite 10 ∧
      totalWeight out.mst_railway_tracks = 10 ∧
      getRoute (calculateShortestRoutes scenarioTwo) 0 2 = Double.finite INT_MAX ∧
      getRoute (calculateShortestRoutes out.network) 0 2 = Double.finite INT_MAX ∧
      displayCell (getRoute (calculateShortestRoutes scenarioTwo) 0 2) = DisplayCell.INF :=
  scenario_two_forest_and_unreachable 4 (by decide)
/-! ## Claims about the shortest-route table -/

/-- C2, as stated, fails: on the line 0 - 1 - 2 with the `double` weights 0.1 and 0.2 (two
different stations per call, non-negative weights, sum below the sentinel) the stations 0
and 2 are joined by the route through 1, whose length is the exact sum of the two weights,
but the table holds the rounded sum 0.30000000000000004, which is more: the entry is not
the minimum of the route lengths. -/
theorem shortest_routes_counterexample :
    ValidCalls 4 lineScenario.all_railway_links ∧
      (∀ c ∈ lineScenario.all_railway_links, c.origin_station ≠ c.destination_station) ∧
      (∀ c ∈ lineScenario.all_railway_links, IsDouble c.track_distance) ∧
      totalWeight lineScenario.all_railway_links < INT_MAX ∧
      IsRoute lineScenario.all_railway_links [1, 2] 0 2 ∧
      routeLength lineScenario.distance_matrix [1, 2] 0 =
        10808639105689191 / 36028797018963968 ∧
      getRoute (calculateShortestRoutes lineScenario) 0 2 =
        Double.finite (1351079888211149 / 4503599627370496) ∧
      routeLength lineScenario.distance_matrix [1, 2] 0 <
        (1351079888211149 / 4503599627370496 : ℚ) := by
  refine ⟨by unfold ValidCalls; decide!, by decide!, by decide!, by decide!, ?_, by decide!,
    by decide!, by decide!⟩
  rw [show lineScenario.all_railway_links = _ from (buildNetwork_frame _ _).2.1]
  exact ⟨⟨_, List.mem_cons_self _ _, Or.inl ⟨rfl, rfl⟩⟩,
    ⟨_, List.mem_cons_of_mem _ (List.mem_cons_self _ _), Or.inl ⟨rfl, rfl⟩⟩, rfl⟩

/-- C2, amended.  For a network built by the constructor and `connectStations` calls with
indices below `n`, two different stations per call, non-negative weights with at most 21
binary places (whole numbers for instance), and a sum of all link weights below the
sentinel: for every two stations joined by a path, the table entry is a finite number, the
length of some route between them, and at most the length of every route between them,
lengths being sums of matrix entries. -/
theorem shortest_routes_correct (n : Nat) (calls : List RailwayLink)
    (hvalid : ValidCalls n calls)
    (hdistinct : ∀ c ∈ calls, c.origin_station ≠ c.destination_station)
    (hgrid : ∀ c ∈ calls, OnGrid c.track_distance)
    (hsum : totalWeight (buildNetwork n calls).all_railway_links < INT_MAX) :
    ∀ i j, i < n → j < n → Connected (buildNetwork n calls).all_railway_links i j →
      ∃ d, getRoute (calculateShortestRoutes (buildNetwork n calls)) i j = Double.finite d ∧
        (∃ r : List Nat, IsRoute (buildNetwork n calls).all_railway_links r i j ∧
          routeLength (buildNetwork n calls).distance_matrix r i = d) ∧
        ∀ r : List Nat, IsRoute (buildNetwork n calls).all_railway_links r i j →
          d ≤ routeLength (buildNetwork n calls).distance_matrix r i := by
  have hsum' : totalWeight calls < INT_MAX := by
    rw [(buildNetwork_frame n calls).2.1] at hsum
    exact hsum
  have hle : ∀ c ∈ calls, c.track_distance ≤ INT_MAX := fun c hc =>
    le_of_lt (lt_of_le_of_lt (weight_le_totalWeight (fun e he => (hvalid e he).2.2) hc) hsum')
  intro i j hi hj hc
  obtain ⟨hroute, hmin⟩ := idealRoutes_correct n calls hvalid hdistinct hsum i j hi hj hc
  exact ⟨_, buildNetwork_eq_ideal hvalid hgrid hle i j, hroute, hmin⟩

theorem shortest_routes_correct_witness :
    ∃ d, getRoute (calculateShortestRoutes scenarioOne) 0 3 = Double.finite d ∧
      (∃ r : List Nat, IsRoute scenarioOne.all_railway_links r 0 3 ∧
        routeLength scenarioOne.distance_matrix r 0 = d) ∧
      d ≤ routeLength scenarioOne.distance_matrix [1, 2, 3] 0 := by
  have hlinks : scenarioOne.all_railway_links =
      [⟨0, 1, 10⟩, ⟨1, 2, 10⟩, ⟨0, 2, 5⟩, ⟨2, 3, 20⟩] := (buildNetwork_frame _ _).2.1
  have hconn : Connected scenarioOne.all_railway_links 0 3 := by
    rw [hlinks]; simp [connected_cons, connected_nil_iff]
  have hroute : IsRoute scenarioOne.all_railway_links [1, 2, 3] 0 3 := by
    rw [hlinks]
    exact ⟨⟨⟨0, 1, 10⟩, by simp, Or.inl ⟨rfl, rfl⟩⟩, ⟨⟨1, 2, 10⟩, by simp, Or.inl ⟨rfl, rfl⟩⟩,
      ⟨⟨2, 3, 20⟩, by simp, Or.inl ⟨rfl, rfl⟩⟩, rfl⟩
  obtain ⟨d, hd, hr, hmin⟩ :=
    shortest_routes_correct 4 [⟨0, 1, 10⟩, ⟨1, 2, 10⟩, ⟨0, 2, 5⟩, ⟨2, 3, 20⟩]
      (by unfold ValidCalls; decide!) (by decide) (by decide!) (by decide!) 0 3 (by decide)
      (by decide) hconn
  exact ⟨d, hd, hr, hmin [1, 2, 3] hroute⟩

/-- C8, as stated, fails in two ways.  After `connectStations(0, 1, 5000000000)` on three
stations the table holds 5000000000 at (0, 1) and the sentinel at (0, 2) and (2, 1), and
5000000000 exceeds twice the sentinel.  And on the line with the `double` weights 0.1, 0.2,
0.3 the table holds 0.6000000000000001 at (0, 3), 0.1 at (0, 1) and 0.5 at (1, 3): more
than the exact sum of the two, and more than their sum in `double`. -/
theorem triangle_counterexample :
    ValidCalls 3 [⟨0, 1, 5000000000⟩] ∧
      getRoute (calculateShortestRoutes (buildNetwork 3 [⟨0, 1, 5000000000⟩])) 0 1 =
        Double.finite 5000000000 ∧
      getRoute (calculateShortestRoutes (buildNetwork 3 [⟨0, 1, 5000000000⟩])) 0 2 =
        Double.finite INT_MAX ∧
      getRoute (calculateShortestRoutes (buildNetwork 3 [⟨0, 1, 5000000000⟩])) 2 1 =
        Double.finite INT_MAX ∧
      ¬ ((5000000000 : ℚ) ≤ INT_MAX + INT_MAX) ∧
      ValidCalls 4 lineScenario.all_railway_links ∧
      (∀ c ∈ lineScenario.all_railway_links, IsDouble c.track_distance) ∧
      getRoute (calculateShortestRoutes lineScenario) 0 3 =
        Double.finite (1351079888211149 / 2251799813685248) ∧
      getRoute (calculateShortestRoutes lineScenario) 0 1 =
        Double.finite (3602879701896397 / 36028797018963968) ∧
      getRoute (calculateShortestRoutes lineScenario) 1 3 = Double.finite (1 / 2) ∧
      ¬ ((1351079888211149 / 2251799813685248 : ℚ) ≤
        3602879701896397 / 36028797018963968 + 1 / 2) ∧
      ¬ Double.le (getRoute (calculateShortestRoutes lineScenario) 0 3)
        (Double.add (getRoute (calculateShortestRoutes lineScenario) 0 1)
          (getRoute (calculateShortestRoutes lineScenario) 1 3)) := by
  refine ⟨by unfold ValidCalls; decide!, by decide!, by decide!, by decide!, by decide!,
    by unfold ValidCalls; decide!, by decide!, by decide!, by decide!, by decide!, by decide!,
    by decide!⟩

/-- C8, amended.  For a network built by the constructor and `connectStations` calls with
indices below `n` and weights between 0 and the sentinel 2147483647 that have at most 21
binary places (whole numbers for instance), the entries of the table are finite numbers
that satisfy `dist[i][j] <= dist[i][k] + dist[k][j]` for all stations, the sum being exact
and the sentinel counting as the number 2147483647. -/
theorem shortest_routes_triangle (n : Nat) (calls : List RailwayLink)
    (hvalid : ValidCalls n calls) (hgrid : ∀ c ∈ calls, OnGrid c.track_distance)
    (hweights : ∀ c ∈ calls, c.track_distance ≤ INT_MAX) :
    ∀ i j k, i < n → j < n → k < n →
      ∃ a b c,
        getRoute (calculateShortestRoutes (buildNetwork n calls)) i j = Double.finite a ∧
        getRoute (calculateShortestRoutes (buildNetwork n calls)) i k = Double.finite b ∧
        getRoute (calculateShortestRoutes (buildNetwork n calls)) k j = Double.finite c ∧
        a ≤ b + c ∧
        Double.add (Double.finite b) (Double.finite c) = Double.finite (b + c) ∧
        Double.le (getRoute (calculateShortestRoutes (buildNetwork n calls)) i j)
          (Double.add (getRoute (calculateShortestRoutes (buildNetwork n calls)) i k)
            (getRoute (calculateShortestRoutes (buildNetwork n calls)) k j)) := by
  intro i j k hi hj hk
  have hT := buildNetwork_eq_ideal hvalid hgrid hweights
  have htri := idealRoutes_triangle_built n calls hvalid hweights i j k hi hj hk
  obtain ⟨-, hex⟩ := (calculateShortestRoutes_tablesAgree (buildNetwork n calls)
    (buildNetwork_exact hvalid hgrid hweights))
  have hadd := add_exactEntry (hex i k) (hex k j)
  refine ⟨_, _, _, hT i j, hT i k, hT k j, htri, hadd, ?_⟩
  rw [hT i j, hT i k, hT k j, hadd]
  rcases lt_or_eq_of_le htri with h | h
  · exact Or.inl ((lt_finite _ _).mpr h)
  · exact Or.inr ((equal_finite _ _).mpr h)

theorem shortest_routes_triangle_witness :
    ∃ a b c,
      getRoute (calculateShortestRoutes scenarioOne) 0 3 = Double.finite a ∧
      getRoute (calculateShortestRoutes scenarioOne) 0 1 = Double.finite b ∧
      getRoute (calculateShortestRoutes scenarioOne) 1 3 = Double.finite c ∧
      a ≤ b + c ∧
      Double.add (Double.finite b) (Double.finite c) = Double.finite (b + c) ∧
      Double.le (getRoute (calculateShortestRoutes scenarioOne) 0 3)
        (Double.add (getRoute (calculateShortestRoutes scenarioOne) 0 1)
          (getRoute (calculateShortestRoutes scenarioOne) 1 3)) :=
  shortest_routes_triangle 4 [⟨0, 1, 10⟩, ⟨1, 2, 10⟩, ⟨0, 2, 5⟩, ⟨2, 3, 20⟩]
    (by unfold ValidCalls; decide!) (by decide!) (by decide!) 0 3 1 (by decide) (by decide)
    (by decide)

/-- C9, as stated, fails: after `connectStations(0, 1, 5)` and `connectStations(0, 1, 10)` on
two stations the link (0, 1, 5) is in the link list, but the table holds 10 at (0, 1). -/
theorem direct_edge_counterexample :
    ValidCalls 2 [⟨0, 1, 5⟩, ⟨0, 1, 10⟩] ∧
      RailwayLink.mk 0 1 5 ∈ (buildNetwork 2 [⟨0, 1, 5⟩, ⟨0, 1, 10⟩]).all_railway_links ∧
      getRoute (calculateShortestRoutes (buildNetwork 2 [⟨0, 1, 5⟩, ⟨0, 1, 10⟩])) 0 1 =
        Double.finite 10 ∧
      ¬ Double.le (getRoute (calculateShortestRoutes (buildNetwork 2 [⟨0, 1, 5⟩, ⟨0, 1, 10⟩])) 0 1)
        (Double.finite 5) := by
  refine ⟨by unfold ValidCalls; decide!, by decide!, by decide!, by decide!⟩

/-- C9, amended.  For a network built by the constructor and `connectStations` calls with
indices below `n` and non-negative weights, every table entry is a finite non-negative
number that does not exceed the matrix entry of its pair, so for every link (a, b, w) of
the link list that no later link between the same two stations follows, `dist[a][b] <= w`
and `dist[b][a] <= w`. -/
theorem shortest_route_le_last_written (n : Nat) (calls : List RailwayLink)
    (hvalid : ValidCalls n calls) :
    (∀ i j, i < n → j < n →
      ∃ d, getRoute (calculateShortestRoutes (buildNetwork n calls)) i j = Double.finite d ∧
        0 ≤ d ∧ d ≤ getCell (buildNetwork n calls).distance_matrix i j) ∧
    ∀ pre e post, (buildNetwork n calls).all_railway_links = pre ++ e :: post →
      (∀ l ∈ post, ¬ SamePair l e) →
      (∃ d, getRoute (calculateShortestRoutes (buildNetwork n calls))
          e.origin_station e.destination_station = Double.finite d ∧ d ≤ e.track_distance) ∧
      (∃ d, getRoute (calculateShortestRoutes (buildNetwork n calls))
          e.destination_station e.origin_station = Double.finite d ∧ d ≤ e.track_distance) ∧
      Double.le (getRoute (calculateShortestRoutes (buildNetwork n calls))
          e.origin_station e.destination_station) (Double.finite e.track_distance) ∧
      Double.le (getRoute (calculateShortestRoutes (buildNetwork n calls))
          e.destination_station e.origin_station) (Double.finite e.track_distance) := by
  have hrange : ∀ c ∈ calls, c.origin_station < n ∧ c.destination_station < n :=
    fun c hc => ⟨(hvalid c hc).1, (hvalid c hc).2.1⟩
  have hle := shortestRoutes_below hvalid
  refine ⟨hle, ?_⟩
  intro pre e post hEq hlast
  rw [(buildNetwork_frame n calls).2.1] at hEq
  have he : e ∈ calls := by rw [hEq]; exact List.mem_append_right _ (List.mem_cons_self _ _)
  obtain ⟨hea, heb⟩ := hrange e he
  have hw := buildNetwork_lastWritten n pre post e (by rw [← hEq]; exact hrange) hlast
  rw [← hEq] at hw
  obtain ⟨d1, hd1, -, hle1⟩ := hle _ _ hea heb
  obtain ⟨d2, hd2, -, hle2⟩ := hle _ _ heb hea
  rw [hw.1] at hle1
  rw [hw.2] at hle2
  have hcmp : ∀ d : ℚ, d ≤ e.track_distance →
      Double.le (Double.finite d) (Double.finite e.track_distance) := by
    intro d hd
    rcases lt_or_eq_of_le hd with h | h
    · exact Or.inl ((lt_finite _ _).mpr h)
    · exact Or.inr ((equal_finite _ _).mpr h)
  refine ⟨⟨d1, hd1, hle1⟩, ⟨d2, hd2, hle2⟩, ?_, ?_⟩
  · rw [hd1]; exact hcmp d1 hle1
  · rw [hd2]; exact hcmp d2 hle2

theorem shortest_route_le_last_written_witness :
    (∃ d, getRoute (calculateShortestRoutes (buildNetwork 2 [⟨0, 1, 5⟩, ⟨0, 1, 10⟩])) 0 1 =
        Double.finite d ∧ d ≤ 10) ∧
      (∃ d, getRoute (calculateShortestRoutes (buildNetwork 2 [⟨0, 1, 5⟩, ⟨0, 1, 10⟩])) 1 0 =
        Double.finite d ∧ d ≤ 10) ∧
      Double.le (getRoute (calculateShortestRoutes (buildNetwork 2 [⟨0, 1, 5⟩, ⟨0, 1, 10⟩])) 0 1)
        (Double.finite 10) ∧
      Double.le (getRoute (calculateShortestRoutes (buildNetwork 2 [⟨0, 1, 5⟩, ⟨0, 1, 10⟩])) 1 0)
        (Double.finite 10) :=
  (shortest_route_le_last_written 2 [⟨0, 1, 5⟩, ⟨0, 1, 10⟩] (by unfold ValidCalls; decide!)).2
    [⟨0, 1, 5⟩] ⟨0, 1, 10⟩ [] (buildNetwork_frame _ _).2.1 (by simp)

/-- C10. Symmetry of the Floyd-Warshall output.  For a network built by the constructor and
`connectStations` calls with indices below `n` and non-negative weights, the weights being
values of the type `double` as they are in the program, the table computed in place by the
triple loop, every sum rounded, satisfies `dist[i][j] == dist[j][i]` for all stations: the
two entries are the same finite number. -/
theorem shortest_routes_symmetric (n : Nat) (calls : List RailwayLink)
    (hvalid : ValidCalls n calls) (hdouble : ∀ c ∈ calls, IsDouble c.track_distance) :
    ∀ i j, i < n → j < n →
      getRoute (calculateShortestRoutes (buildNetwork n calls)) i j =
        getRoute (calculateShortestRoutes (buildNetwork n calls)) j i ∧
      Double.equal (getRoute (calculateShortestRoutes (buildNetwork n calls)) i j)
        (getRoute (calculateShortestRoutes (buildNetwork n calls)) j i) := by
  obtain ⟨hn, hsq, hgood, hsymm⟩ := buildNetwork_distances hvalid hdouble
  have h := shortestRoutes_symm (buildNetwork n calls) (by rw [hn]; exact hsq)
    (by rw [hn]; exact hgood) (by rw [hn]; exact hsymm)
  rw [hn] at h
  intro i j hi hj
  obtain ⟨⟨d, hd, -, -⟩, hEq⟩ := h i j hi hj
  refine ⟨hEq, ?_⟩
  rw [← hEq, hd]
  exact (equal_finite _ _).mpr rfl

theorem shortest_routes_symmetric_witness :
    getRoute (calculateShortestRoutes lineScenario) 0 3 =
        getRoute (calculateShortestRoutes lineScenario) 3 0 ∧
      Double.equal (getRoute (calculateShortestRoutes lineScenario) 0 3)
        (getRoute (calculateShortestRoutes lineScenario) 3 0) :=
  shortest_routes_symmetric 4
    [⟨0, 1, 3602879701896397 / 36028797018963968⟩, ⟨1, 2, 3602879701896397 / 18014398509481984⟩,
      ⟨2, 3, 5404319552844595 / 18014398509481984⟩]
    (by unfold ValidCalls; decide!) (by decide!) 0 3 (by decide) (by decide)

/-! ## Claims about the union-find -/

/-- C14. `findStationRoot` returns the representative and preserves the partition.  On a
well-formed union-find state, for an in-range station and fuel for every station, the call
returns the self-parented root reached from the station by following the parent links of
the state before the call; it changes only the parent array, leaves a well-formed state, and
every station reaches after the call the root it reached before. -/
theorem find_returns_representative (n : Nat) (net : SouthwestRailwayNetwork)
    (station fuel : Nat) (hwf : UnionFindWellFormed n net) (hs : station < n)
    (hfuel : n ≤ fuel) :
    ∃ root net', findStationRoot fuel net station = some (root, net') ∧
      ReachesRootAt net.station_parent station root ∧
      root = rootOf net.station_parent station ∧
      UnionFindWellFormed n net' ∧
      net' = { net with station_parent := net'.station_parent } ∧
      ∀ t, t < n → ∀ r,
        ReachesRootAt net'.station_parent t r ↔ ReachesRootAt net.station_parent t r := by
  have hwfp := wellFormedParents_of_unionFind hwf
  obtain ⟨hlen, hrk, -⟩ := hwf
  obtain ⟨p1, hfind, hlen1, hwf1, hroots1⟩ :=
    findStationRoot_wf net hwfp fuel station (by rw [hlen]; exact hs) (by rw [hlen]; exact hfuel)
  refine ⟨_, _, hfind, (reachesRootAt_rootOf hwfp (by rw [hlen]; exact hs)).1, rfl,
    unionFind_of_wellFormedParents (by rw [← hlen]; exact hlen1) hrk hwf1, rfl, ?_⟩
  intro t ht r
  have ht0 : t < net.station_parent.length := by rw [hlen]; exact ht
  show ReachesRootAt p1 t r ↔ _
  rw [reachesRootAt_iff hwf1 (by rw [hlen1]; exact ht0), reachesRootAt_iff hwfp ht0,
    hroots1 t ht0]

theorem chainState_wellFormed : UnionFindWellFormed 3 chainState := by
  refine ⟨rfl, rfl, ?_⟩
  intro x hx
  have : x = 0 ∨ x = 1 ∨ x = 2 := by omega
  rcases this with rfl | rfl | rfl
  · exact ⟨by decide, 2, by decide⟩
  · exact ⟨by decide, 1, by decide⟩
  · exact ⟨by decide, 0, by decide⟩

theorem find_returns_representative_witness :
    ∃ root net', findStationRoot 3 chainState 0 = some (root, net') ∧
      ReachesRootAt chainState.station_parent 0 root ∧
      root = rootOf chainState.station_parent 0 ∧
      UnionFindWellFormed 3 net' ∧
      net' = { chainState with station_parent := net'.station_parent } ∧
      ∀ t, t < 3 → ∀ r,
        ReachesRootAt net'.station_parent t r ↔ ReachesRootAt chainState.station_parent t r :=
  find_returns_representative 3 chainState 0 3 chainState_wellFormed (by decide) (by decide)

/-- C15. Union by rank.  On a well-formed union-find state, for in-range stations whose
representatives `ra` and `rb` differ and fuel for every station, `mergeStationGroups` comes
back having attached the lower-rank representative under the higher-rank one with all ranks
unchanged, or, the ranks being equal, `rb` under `ra` with the rank of `ra` raised by exactly
one; only the two union-find arrays change, the state stays well formed, and afterwards two
stations have the same representative exactly when they had before or one was in the set of
`a` and the other in the set of `b`. -/
theorem merge_by_rank (n : Nat) (net : SouthwestRailwayNetwork) (a b fuel : Nat)
    (hwf : UnionFindWellFormed n net) (ha : a < n) (hb : b < n) (hfuel : n ≤ fuel)
    (hne : rootOf net.station_parent a ≠ rootOf net.station_parent b) :
    ∃ net', mergeStationGroups fuel net a b = some net' ∧
      UnionFindWellFormed n net' ∧
      net' = { net with station_parent := net'.station_parent,
                        station_rank := net'.station_rank } ∧
      ((net.station_rank.getD (rootOf net.station_parent a) 0 <
            net.station_rank.getD (rootOf net.station_parent b) 0 ∧
          net'.station_parent.getD (rootOf net.station_parent a) 0 =
            rootOf net.station_parent b ∧
          IsRoot net'.station_parent (rootOf net.station_parent b) ∧
          net'.station_rank = net.station_rank) ∨
        (net.station_rank.getD (rootOf net.station_parent b) 0 <
            net.station_rank.getD (rootOf net.station_parent a) 0 ∧
          net'.station_parent.getD (rootOf net.station_parent b) 0 =
            rootOf net.station_parent a ∧
          IsRoot net'.station_parent (rootOf net.station_parent a) ∧
          net'.station_rank = net.station_rank) ∨
        (net.station_rank.getD (rootOf net.station_parent a) 0 =
            net.station_rank.getD (rootOf net.station_parent b) 0 ∧
          net'.station_parent.getD (rootOf net.station_parent b) 0 =
            rootOf net.station_parent a ∧
          IsRoot net'.station_parent (rootOf net.station_parent a) ∧
          net'.station_rank.getD (rootOf net.station_parent a) 0 =
            net.station_rank.getD (rootOf net.station_parent a) 0 + 1 ∧
          ∀ x, x ≠ rootOf net.station_parent a →
            net'.station_rank.getD x 0 = net.station_rank.getD x 0)) ∧
      ∀ t u, t < n → u < n →
        (rootOf net'.station_parent t = rootOf net'.station_parent u ↔
          rootOf net.station_parent t = rootOf net.station_parent u ∨
          (rootOf net.station_parent t = rootOf net.station_parent a ∧
            rootOf net.station_parent u = rootOf net.station_parent b) ∨
          (rootOf net.station_parent t = rootOf net.station_parent b ∧
            rootOf net.station_parent u = rootOf net.station_parent a)) := by
  have hwfp := wellFormedParents_of_unionFind hwf
  obtain ⟨hlen, hrk, -⟩ := hwf
  have ha0 : a < net.station_parent.length := by rw [hlen]; exact ha
  have hb0 : b < net.station_parent.length := by rw [hlen]; exact hb
  obtain ⟨p2, hlen2, hwf2, hroots2, hmerge⟩ :=
    mergeStationGroups_detail net hwfp fuel a b ha0 hb0 (by rw [hlen]; exact hfuel)
  have hRa := rootOf_isRoot hwf2 (show a < p2.length by rw [hlen2]; exact ha0)
  have hRb := rootOf_isRoot hwf2 (show b < p2.length by rw [hlen2]; exact hb0)
  rw [hroots2 a ha0] at hRa
  rw [hroots2 b hb0] at hRb
  have hiff : ∀ (x y : Nat),
      ((x = rootOf net.station_parent a ∧ y = rootOf net.station_parent b) ∨
        (x = rootOf net.station_parent b ∧ y = rootOf net.station_parent a)) →
      ∀ p3 : List Nat,
      (∀ t, t < p2.length → rootOf p3 t = if rootOf p2 t = x then y else rootOf p2 t) →
      ∀ t u, t < n → u < n →
        (rootOf p3 t = rootOf p3 u ↔
          rootOf net.station_parent t = rootOf net.station_parent u ∨
          (rootOf net.station_parent t = rootOf net.station_parent a ∧
            rootOf net.station_parent u = rootOf net.station_parent b) ∨
          (rootOf net.station_parent t = rootOf net.station_parent b ∧
            rootOf net.station_parent u = rootOf net.station_parent a)) := by
    intro x y hxy p3 hp3 t u ht hu
    have ht0 : t < net.station_parent.length := by rw [hlen]; exact ht
    have hu0 : u < net.station_parent.length := by rw [hlen]; exact hu
    rw [hp3 t (by rw [hlen2]; exact ht0), hp3 u (by rw [hlen2]; exact hu0), hroots2 t ht0,
      hroots2 u hu0]
    have := link_iff_aux (rootOf net.station_parent t) (rootOf net.station_parent u)
      (rootOf net.station_parent a) (rootOf net.station_parent b) x y hne hxy
    rw [this]
    constructor
    · rintro (h | ⟨h1, h2⟩ | ⟨h1, h2⟩)
      · exact Or.inl h
      · exact Or.inr (Or.inl ⟨h1, h2.symm⟩)
      · exact Or.inr (Or.inr ⟨h1, h2.symm⟩)
    · rintro (h | ⟨h1, h2⟩ | ⟨h1, h2⟩)
      · exact Or.inl h
      · exact Or.inr (Or.inl ⟨h1, h2.symm⟩)
      · exact Or.inr (Or.inr ⟨h1, h2.symm⟩)
  rw [hmerge]
  by_cases h1 : net.station_rank.getD (rootOf net.station_parent a) 0 <
      net.station_rank.getD (rootOf net.station_parent b) 0
  · rw [if_pos h1]
    obtain ⟨hwf3, hlen3, hroot3, hroots3⟩ := wellFormed_after_link hwf2 hRa.1 hRb.1 hRa.2 hRb.2
    refine ⟨_, rfl, unionFind_of_wellFormedParents (by rw [← hlen, ← hlen2]; exact hlen3) hrk
      hwf3, rfl, Or.inl ⟨h1, ?_, hroot3, rfl⟩,
      hiff _ _ (Or.inl ⟨rfl, rfl⟩) _ hroots3⟩
    show (p2.set _ _).getD _ 0 = _
    rw [getD_set_eq, if_pos ⟨rfl, hRa.1⟩]
  · rw [if_neg h1]
    obtain ⟨hwf3, hlen3, hroot3, hroots3⟩ := wellFormed_after_link hwf2 hRb.1 hRa.1 hRb.2 hRa.2
    have hget : (p2.set (rootOf net.station_parent b) (rootOf net.station_parent a)).getD
        (rootOf net.station_parent b) 0 = rootOf net.station_parent a := by
      rw [getD_set_eq, if_pos ⟨rfl, hRb.1⟩]
    by_cases h2 : net.station_rank.getD (rootOf net.station_parent a) 0 >
        net.station_rank.getD (rootOf net.station_parent b) 0
    · rw [if_pos h2]
      exact ⟨_, rfl, unionFind_of_wellFormedParents (by rw [← hlen, ← hlen2]; exact hlen3) hrk
        hwf3, rfl, Or.inr (Or.inl ⟨h2, hget, hroot3, rfl⟩),
        hiff _ _ (Or.inr ⟨rfl, rfl⟩) _ hroots3⟩
    · rw [if_neg h2]
      have hRan : rootOf net.station_parent a < net.station_rank.length := by
        rw [hrk, ← hlen, ← hlen2]; exact hRa.1
      refine ⟨_, rfl, unionFind_of_wellFormedParents (by rw [← hlen, ← hlen2]; exact hlen3)
        (by rw [List.length_set]; exact hrk) hwf3, rfl,
        Or.inr (Or.inr ⟨by omega, hget, hroot3, ?_, ?_⟩),
        hiff _ _ (Or.inr ⟨rfl, rfl⟩) _ hroots3⟩
      · show (net.station_rank.set _ _).getD _ 0 = _
        rw [getD_set_eq, if_pos ⟨rfl, hRan⟩]
      · intro x hx
        show (net.station_rank.set _ _).getD _ 0 = _
        rw [getD_set_eq, if_neg (fun h => hx h.1)]

theorem merge_by_rank_witness :
    ∃ net', mergeStationGroups 3 (mkNetwork 3) 0 1 = some net' ∧
      net'.station_parent = [0, 0, 2] ∧ net'.station_rank = [1, 0, 0] := by
  obtain ⟨net', hmerge, -⟩ :=
    merge_by_rank 3 (mkNetwork 3) 0 1 3 (mkNetwork_wellFormed 3) (by decide) (by decide)
      (by decide) (by decide)
  have hrun : (mergeStationGroups 3 (mkNetwork 3) 0 1).map
      (fun s => (s.station_parent, s.station_rank)) = some ([0, 0, 2], [1, 0, 0]) := by decide
  rw [hmerge] at hrun
  simp only [Option.map_some', Option.some.injEq, Prod.mk.injEq] at hrun
  exact ⟨net', hmerge, hrun.1, hrun.2⟩

/-- C19. Union-find well-formedness invariant.  In every state reached from the constructor
by calls of `findStationRoot` and `mergeStationGroups` with stations below `n`, both arrays
have `n` entries, every parent entry is below `n`, following the parent links from any
station reaches a self-parented root within at most `n` steps, and so `findStationRoot` and
`mergeStationGroups` come back for every in-range station whenever the fuel is at least
`n`. -/
theorem unionFind_invariant (n : Nat) (net : SouthwestRailwayNetwork)
    (h : ReachableByUnionFind n net) :
    UnionFindWellFormed n net ∧
      (∀ x, x < n → net.station_parent.getD x 0 < n ∧
        ∃ k, k ≤ n ∧ IsRoot net.station_parent (parentIter net.station_parent k x)) ∧
      (∀ station fuel, station < n → n ≤ fuel →
        ∃ root net', findStationRoot fuel net station = some (root, net')) ∧
      ∀ a b fuel, a < n → b < n → n ≤ fuel →
        ∃ net', mergeStationGroups fuel net a b = some net' := by
  have hwf : UnionFindWellFormed n net := by
    induction h with
    | construct => exact mkNetwork_wellFormed n
    | @find net net' fuel station root _ hs hfind ih =>
      have hwfp := wellFormedParents_of_unionFind ih
      obtain ⟨hlen, hrk, -⟩ := ih
      obtain ⟨p1, hfind1, hlen1, hwf1, -⟩ :=
        findStationRoot_wf net hwfp (max fuel n) station (by rw [hlen]; exact hs)
          (by rw [hlen]; exact le_max_right _ _)
      rw [findStationRoot_fuel_mono (le_max_left fuel n) hfind] at hfind1
      simp only [Option.some.injEq, Prod.mk.injEq] at hfind1
      rw [hfind1.2]
      exact unionFind_of_wellFormedParents (by rw [← hlen]; exact hlen1) hrk hwf1
    | @merge net net' fuel a b _ ha hb hmerge ih =>
      obtain ⟨net2, hmerge2, hwf2, -⟩ :=
        mergeStationGroups_wellFormed ih ha hb (le_max_right fuel n)
      rw [mergeStationGroups_fuel_mono (le_max_left fuel n) hmerge] at hmerge2
      simp only [Option.some.injEq] at hmerge2
      rw [hmerge2]
      exact hwf2
  have hwfp := wellFormedParents_of_unionFind hwf
  refine ⟨hwf, ?_, ?_, ?_⟩
  · intro x hx
    obtain ⟨hlen, -, hreach⟩ := hwf
    obtain ⟨-, k, hk, hroot⟩ := reachesRootAt_rootOf hwfp (show x < net.station_parent.length by
      rw [hlen]; exact hx)
    exact ⟨(hreach x hx).1, k, by rw [← hlen]; exact hk, hroot⟩
  · intro station fuel hs hfuel
    obtain ⟨hlen, -, -⟩ := hwf
    obtain ⟨p1, hfind1, -⟩ :=
      findStationRoot_wf net hwfp fuel station (by rw [hlen]; exact hs)
        (by rw [hlen]; exact hfuel)
    exact ⟨_, _, hfind1⟩
  · intro a b fuel ha hb hfuel
    obtain ⟨net', hmerge, -⟩ := mergeStationGroups_wellFormed hwf ha hb hfuel
    exact ⟨net', hmerge⟩

/-- C20. Merging within one set.  On a well-formed union-find state, for in-range stations
that already have the same representative `r` (the two stations may be equal) and fuel for
every station, `mergeStationGroups` comes back with every station keeping its
representative and `r` still a self-parented root, but the state is not the one before: the
rank of `r` is raised by exactly one, the other ranks are unchanged. -/
theorem merge_within_one_set (n : Nat) (net : SouthwestRailwayNetwork) (a b fuel : Nat)
    (hwf : UnionFindWellFormed n net) (ha : a < n) (hb : b < n) (hfuel : n ≤ fuel)
    (hsame : rootOf net.station_parent a = rootOf net.station_parent b) :
    ∃ net', mergeStationGroups fuel net a b = some net' ∧
      UnionFindWellFormed n net' ∧
      net' = { net with station_parent := net'.station_parent,
                        station_rank := net'.station_rank } ∧
      (∀ t, t < n → rootOf net'.station_parent t = rootOf net.station_parent t) ∧
      (∀ t, t < n → ∀ r,
        ReachesRootAt net'.station_parent t r ↔ ReachesRootAt net.station_parent t r) ∧
      IsRoot net'.station_parent (rootOf net.station_parent a) ∧
      net'.station_rank.getD (rootOf net.station_parent a) 0 =
        net.station_rank.getD (rootOf net.station_parent a) 0 + 1 ∧
      (∀ x, x ≠ rootOf net.station_parent a →
        net'.station_rank.getD x 0 = net.station_rank.getD x 0) ∧
      net' ≠ net := by
  have hwfp := wellFormedParents_of_unionFind hwf
  obtain ⟨hlen, hrk, -⟩ := hwf
  have ha0 : a < net.station_parent.length := by rw [hlen]; exact ha
  have hb0 : b < net.station_parent.length := by rw [hlen]; exact hb
  obtain ⟨p2, hlen2, hwf2, hroots2, hmerge⟩ :=
    mergeStationGroups_detail net hwfp fuel a b ha0 hb0 (by rw [hlen]; exact hfuel)
  have hRa := rootOf_isRoot hwf2 (show a < p2.length by rw [hlen2]; exact ha0)
  rw [hroots2 a ha0] at hRa
  rw [← hsame, if_neg (lt_irrefl _), if_neg (lt_irrefl _), set_root_self hRa.2] at hmerge
  have hRan : rootOf net.station_parent a < net.station_rank.length := by
    rw [hrk, ← hlen, ← hlen2]; exact hRa.1
  have hrank : (net.station_rank.set (rootOf net.station_parent a)
      (net.station_rank.getD (rootOf net.station_parent a) 0 + 1)).getD
        (rootOf net.station_parent a) 0 =
      net.station_rank.getD (rootOf net.station_parent a) 0 + 1 := by
    rw [getD_set_eq, if_pos ⟨rfl, hRan⟩]
  refine ⟨_, hmerge, unionFind_of_wellFormedParents (by rw [← hlen]; exact hlen2)
    (by rw [List.length_set]; exact hrk) hwf2, rfl, ?_, ?_, hRa.2, hrank, ?_, ?_⟩
  · intro t ht
    exact hroots2 t (by rw [hlen]; exact ht)
  · intro t ht r
    have ht0 : t < net.station_parent.length := by rw [hlen]; exact ht
    show ReachesRootAt p2 t r ↔ _
    rw [reachesRootAt_iff hwf2 (by rw [hlen2]; exact ht0), reachesRootAt_iff hwfp ht0,
      hroots2 t ht0]
  · intro x hx
    show (net.station_rank.set _ _).getD _ 0 = _
    rw [getD_set_eq, if_neg (fun h => hx h.1)]
  · intro hEq
    have := congrArg (fun s => s.station_rank.getD (rootOf net.station_parent a) 0) hEq
    simp only [hrank] at this
    omega

theorem merge_within_one_set_witness :
    ∃ net', mergeStationGroups 3 chainState 0 1 = some net' ∧
      UnionFindWellFormed 3 net' ∧
      net' = { chainState with station_parent := net'.station_parent,
                               station_rank := net'.station_rank } ∧
      (∀ t, t < 3 → rootOf net'.station_parent t = rootOf chainState.station_parent t) ∧
      (∀ t, t < 3 → ∀ r,
        ReachesRootAt net'.station_parent t r ↔ ReachesRootAt chainState.station_parent t r) ∧
      IsRoot net'.station_parent (rootOf chainState.station_parent 0) ∧
      net'.station_rank.getD (rootOf chainState.station_parent 0) 0 =
        chainState.station_rank.getD (rootOf chainState.station_parent 0) 0 + 1 ∧
      (∀ x, x ≠ rootOf chainState.station_parent 0 →
        net'.station_rank.getD x 0 = chainState.station_rank.getD x 0) ∧
      net' ≠ chainState :=
  merge_within_one_set 3 chainState 0 1 3 chainState_wellFormed (by decide) (by decide)
    (by decide) (by decide)

theorem unionFind_invariant_witness :
    UnionFindWellFormed 3 mergedState ∧
      (∀ x, x < 3 → mergedState.station_parent.getD x 0 < 3 ∧
        ∃ k, k ≤ 3 ∧
          IsRoot mergedState.station_parent (parentIter mergedState.station_parent k x)) ∧
      (∀ station fuel, station < 3 → 3 ≤ fuel →
        ∃ root net', findStationRoot fuel mergedState station = some (root, net')) ∧
      ∀ a b fuel, a < 3 → b < 3 → 3 ≤ fuel →
        ∃ net', mergeStationGroups fuel mergedState a b = some net' :=
  unionFind_invariant 3 mergedState mergedState_reachable

/-! ## The distance matrix under `connectStations`, and the frame of the two algorithms -/

/-- C12. Symmetry invariant of the distance matrix.  In every state reached from the
constructor by `connectStations` calls with indices below `n`, whatever the weights,
`distance_matrix[i][j] = distance_matrix[j][i]` for all stations `i`, `j`. -/
theorem distance_matrix_symmetric (n : Nat) (calls : List RailwayLink)
    (hrange : ∀ c ∈ calls, c.origin_station < n ∧ c.destination_station < n) :
    ∀ i j, i < n → j < n →
      getCell (buildNetwork n calls).distance_matrix i j =
        getCell (buildNetwork n calls).distance_matrix j i :=
  fun i j hi hj => ((buildNetwork_matrix n calls hrange).2 i j hi hj).1

theorem distance_matrix_symmetric_witness :
    getCell (buildNetwork 3 [⟨0, 1, 5⟩, ⟨1, 1, 7⟩, ⟨2, 0, -4⟩, ⟨1, 0, 9⟩]).distance_matrix 0 1 =
      getCell (buildNetwork 3 [⟨0, 1, 5⟩, ⟨1, 1, 7⟩, ⟨2, 0, -4⟩, ⟨1, 0, 9⟩]).distance_matrix
        1 0 :=
  distance_matrix_symmetric 3 [⟨0, 1, 5⟩, ⟨1, 1, 7⟩, ⟨2, 0, -4⟩, ⟨1, 0, 9⟩] (by decide) 0 1
    (by decide) (by decide)

/-- C13, as stated, fails: `connectStations(0, 0, 5)` on a fresh network of one station is a
call with indices in range and a non-negative weight, and it leaves 5 on the diagonal. -/
theorem zero_diagonal_counterexample :
    ValidCalls 1 [⟨0, 0, 5⟩] ∧
      getCell (buildNetwork 1 [⟨0, 0, 5⟩]).distance_matrix 0 0 = 5 ∧
      getCell (buildNetwork 1 [⟨0, 0, 5⟩]).distance_matrix 0 0 ≠ 0 := by
  refine ⟨by unfold ValidCalls; decide!, by decide!, by decide!⟩

/-- C13, amended.  In every state reached from the constructor by `connectStations` calls
with indices below `n`, `distance_matrix[i][i] = 0` for every station `i` that no call
connected to itself, so for every station when each call has two different end points; and
a call `connectStations(i, i, w)` that no later call on `(i, i)` follows leaves `w` there. -/
theorem zero_diagonal_without_self_links (n : Nat) (calls : List RailwayLink)
    (hrange : ∀ c ∈ calls, c.origin_station < n ∧ c.destination_station < n) :
    ∀ i, i < n →
      ((∀ c ∈ calls, ¬ (c.origin_station = i ∧ c.destination_station = i)) →
        getCell (buildNetwork n calls).distance_matrix i i = 0) ∧
      ∀ pre post w, calls = pre ++ RailwayLink.mk i i w :: post →
        (∀ c ∈ post, ¬ (c.origin_station = i ∧ c.destination_station = i)) →
        getCell (buildNetwork n calls).distance_matrix i i = w := by
  intro i hi
  constructor
  · intro hno
    rcases ((buildNetwork_matrix n calls hrange).2 i i hi hi).2 with ⟨hval, -⟩ | ⟨l, hl, hj, -⟩
    · rw [hval, if_pos rfl]
    · exact absurd (by rcases hj with h | h <;> exact h) (hno l hl)
  · intro pre post w hcalls hno
    subst hcalls
    exact (buildNetwork_lastWritten n pre post ⟨i, i, w⟩ hrange (fun l hl hsame =>
      hno l hl (by rcases hsame with h | h <;> exact h))).1

theorem zero_diagonal_without_self_links_witness :
    getCell (buildNetwork 3 [⟨0, 1, 5⟩, ⟨1, 1, 7⟩, ⟨2, 0, 4⟩]).distance_matrix 0 0 = 0 ∧
      getCell (buildNetwork 3 [⟨0, 1, 5⟩, ⟨1, 1, 7⟩, ⟨2, 0, 4⟩]).distance_matrix 1 1 = 7 :=
  ⟨(zero_diagonal_without_self_links 3 [⟨0, 1, 5⟩, ⟨1, 1, 7⟩, ⟨2, 0, 4⟩] (by decide) 0
      (by decide)).1 (by decide),
    (zero_diagonal_without_self_links 3 [⟨0, 1, 5⟩, ⟨1, 1, 7⟩, ⟨2, 0, 4⟩] (by decide) 1
      (by decide)).2 [⟨0, 1, 5⟩] [⟨2, 0, 4⟩] 7 rfl (by decide)⟩

/-- C16. Effect and frame of `connectStations`.  On a state whose matrix is `N` by `N` and
for `a`, `b` below `N`, the call `connectStations(a, b, w)` appends exactly the link
`(a, b, w)` at the end of the link list, every earlier element staying in its place; it
sets `distance_matrix[a][b]` and `distance_matrix[b][a]` to `w` and leaves every other
entry, the size of the matrix, the station count, the station names and the parent and rank
arrays unchanged. -/
theorem connectStations_effect_and_frame (net : SouthwestRailwayNetwork) (a b : Nat) (w : ℚ)
    (hsq : IsSquare net.total_stations net.distance_matrix)
    (ha : a < net.total_stations) (hb : b < net.total_stations) :
    (connectStations net a b w).all_railway_links =
        net.all_railway_links ++ [RailwayLink.mk a b w] ∧
      (connectStations net a b w).all_railway_links.length =
        net.all_railway_links.length + 1 ∧
      (∀ k, k < net.all_railway_links.length →
        (connectStations net a b w).all_railway_links[k]? = net.all_railway_links[k]?) ∧
      (connectStations net a b w).all_railway_links[net.all_railway_links.length]? =
        some (RailwayLink.mk a b w) ∧
      getCell (connectStations net a b w).distance_matrix a b = w ∧
      getCell (connectStations net a b w).distance_matrix b a = w ∧
      (∀ i j, ¬ ((i = a ∧ j = b) ∨ (i = b ∧ j = a)) →
        getCell (connectStations net a b w).distance_matrix i j =
          getCell net.distance_matrix i j) ∧
      IsSquare net.total_stations (connectStations net a b w).distance_matrix ∧
      (connectStations net a b w).total_stations = net.total_stations ∧
      (connectStations net a b w).station_names = net.station_names ∧
      (connectStations net a b w).station_parent = net.station_parent ∧
      (connectStations net a b w).station_rank = net.station_rank := by
  obtain ⟨hsq', hcell⟩ := connectStations_matrix hsq ha hb w
  refine ⟨rfl, ?_, ?_, ?_, ?_, ?_, ?_, hsq', rfl, rfl, rfl, rfl⟩
  · show (net.all_railway_links ++ [RailwayLink.mk a b w]).length = _
    rw [List.length_append, List.length_singleton]
  · intro k hk
    show (net.all_railway_links ++ [RailwayLink.mk a b w])[k]? = _
    exact List.getElem?_append_left hk
  · show (net.all_railway_links ++ [RailwayLink.mk a b w])[net.all_railway_links.length]? = _
    rw [List.getElem?_append_right (le_refl _), Nat.sub_self]
    rfl
  · rw [hcell a b, if_pos (Or.inl ⟨rfl, rfl⟩)]
  · rw [hcell b a, if_pos (Or.inr ⟨rfl, rfl⟩)]
  · intro i j hij
    rw [hcell i j, if_neg hij]

theorem connectStations_effect_and_frame_witness :
    (connectStations chainState 0 2 7).all_railway_links =
        chainState.all_railway_links ++ [RailwayLink.mk 0 2 7] ∧
      (connectStations chainState 0 2 7).all_railway_links.length =
        chainState.all_railway_links.length + 1 ∧
      (∀ k, k < chainState.all_railway_links.length →
        (connectStations chainState 0 2 7).all_railway_links[k]? =
          chainState.all_railway_links[k]?) ∧
      (connectStations chainState 0 2 7).all_railway_links[
          chainState.all_railway_links.length]? = some (RailwayLink.mk 0 2 7) ∧
      getCell (connectStations chainState 0 2 7).distance_matrix 0 2 = 7 ∧
      getCell (connectStations chainState 0 2 7).distance_matrix 2 0 = 7 ∧
      (∀ i j, ¬ ((i = 0 ∧ j = 2) ∨ (i = 2 ∧ j = 0)) →
        getCell (connectStations chainState 0 2 7).distance_matrix i j =
          getCell chainState.distance_matrix i j) ∧
      IsSquare chainState.total_stations (connectStations chainState 0 2 7).distance_matrix ∧
      (connectStations chainState 0 2 7).total_stations = chainState.total_stations ∧
      (connectStations chainState 0 2 7).station_names = chainState.station_names ∧
      (connectStations chainState 0 2 7).station_parent = chainState.station_parent ∧
      (connectStations chainState 0 2 7).station_rank = chainState.station_rank :=
  connectStations_effect_and_frame chainState 0 2 7
    (by unfold IsSquare; decide) (by decide) (by decide)

/-- C17. Floyd-Warshall leaves the graph untouched.  For every network state, the run of
`calculateShortestRoutes` ends with the members exactly as they were before the call: the
distance matrix, the link list, the station names, the station count and the union-find
arrays; what it computes is the table built in its local copy of the matrix. -/
theorem calculateShortestRoutes_frame (net : SouthwestRailwayNetwork) :
    (calculateShortestRoutesRun net).network = net ∧
      (calculateShortestRoutesRun net).network.distance_matrix = net.distance_matrix ∧
      (calculateShortestRoutesRun net).network.all_railway_links = net.all_railway_links ∧
      (calculateShortestRoutesRun net).network.station_names = net.station_names ∧
      (calculateShortestRoutesRun net).network.station_parent = net.station_parent ∧
      (calculateShortestRoutesRun net).network.station_rank = net.station_rank ∧
      (calculateShortestRoutesRun net).network.total_stations = net.total_stations ∧
      (calculateShortestRoutesRun net).shortest_routes = calculateShortestRoutes net := by
  have h : calculateShortestRoutesRun net = RoutesRun.mk net (calculateShortestRoutes net) := by
    unfold calculateShortestRoutesRun
    rw [relaxTransitRun_foldl]
    rfl
  rw [h]
  exact ⟨rfl, rfl, rfl, rfl, rfl, rfl, rfl, rfl⟩

/-! ## Order of the result, and the builder called twice -/

/-- C18. Order of the MST result.  On every state with a well-formed union-find whose link
list (the links inserted by `connectStations`) has its indices below `n`, with any sort that
meets the contract of `std::sort` and fuel for every station, the builder returns a list in
non-decreasing weight order that is a subsequence of the link list sorted by weight, and
each returned link is an element of the link list. -/
theorem mst_result_order (sortFn : List RailwayLink → List RailwayLink)
    (hsort : IsSortByDistance sortFn) (n : Nat) (net : SouthwestRailwayNetwork)
    (hwf : UnionFindWellFormed n net)
    (hrange : ∀ c ∈ net.all_railway_links, c.origin_station < n ∧ c.destination_station < n)
    (fuel : Nat) (hfuel : n ≤ fuel) :
    ∃ out, buildOptimalRailwayNetworkWith sortFn fuel net = some out ∧
      out.mst_railway_tracks.Pairwise (fun a b => a.track_distance ≤ b.track_distance) ∧
      out.mst_railway_tracks.Sublist (sortFn net.all_railway_links) ∧
      (sortFn net.all_railway_links).Perm net.all_railway_links ∧
      (sortFn net.all_railway_links).Pairwise
        (fun a b => a.track_distance ≤ b.track_distance) ∧
      ∀ e ∈ out.mst_railway_tracks, e ∈ net.all_railway_links := by
  obtain ⟨hperm, hsorted⟩ := hsort net.all_railway_links
  obtain ⟨out, taken, hrun, hsub, hmst, -⟩ :=
    kruskalLoop_runs hfuel (sortFn net.all_railway_links)
      { net with all_railway_links := sortFn net.all_railway_links } [] (Double.finite 0)
      hwf.1 (wellFormedParents_of_unionFind hwf)
      (fun l hl => hrange l (hperm.subset hl))
  rw [List.nil_append] at hmst
  refine ⟨out, hrun, ?_, ?_, hperm, hsorted, ?_⟩
  · rw [hmst]; exact hsorted.sublist hsub
  · rw [hmst]; exact hsub
  · intro e he
    rw [hmst] at he
    exact hperm.subset (hsub.subset he)

theorem mst_result_order_witness :
    ∃ out, buildOptimalRailwayNetworkWith sortLinks 4 scenarioOne = some out ∧
      out.mst_railway_tracks.Pairwise (fun a b => a.track_distance ≤ b.track_distance) ∧
      out.mst_railway_tracks.Sublist (sortLinks scenarioOne.all_railway_links) ∧
      (sortLinks scenarioOne.all_railway_links).Perm scenarioOne.all_railway_links ∧
      (sortLinks scenarioOne.all_railway_links).Pairwise
        (fun a b => a.track_distance ≤ b.track_distance) ∧
      ∀ e ∈ out.mst_railway_tracks, e ∈ scenarioOne.all_railway_links :=
  mst_result_order sortLinks sortLinks_isSortByDistance 4 scenarioOne
    (buildNetwork_wellFormed 4 _) (by decide) 4 (by decide)

/-- C11, as stated, fails: on scenario 1 the first call of the builder returns three links
and leaves all four stations in the set of station 0; the second call starts from that
state, not from a union-find with each station in its own set, and returns no link. -/
theorem fresh_unionFind_counterexample :
    (buildOptimalRailwayNetwork 4 scenarioOne).bind (fun first =>
        (buildOptimalRailwayNetwork 4 first.network).map (fun second =>
          (first.mst_railway_tracks, first.network.station_parent,
            second.mst_railway_tracks))) =
      some ([⟨0, 2, 5⟩, ⟨0, 1, 10⟩, ⟨2, 3, 20⟩], [0, 0, 0, 0], []) := by
  decide!

/-- C11, amended.  The builder does not reinitialise the union-find: it runs on the state it
finds.  On a network built by the constructor and in-range `connectStations` calls the first
call starts with each station in its own set; it leaves the sorted link list and a
union-find in which the two ends of every link are in one set; the second call in succession
starts from that state, accepts no link and returns the empty list with total 0.  So the
two calls return the same list exactly when no call joined two different stations. -/
theorem second_call_returns_nothing (sortFn : List RailwayLink → List RailwayLink)
    (hsort : IsSortByDistance sortFn) (n : Nat) (calls : List RailwayLink)
    (hrange : ∀ c ∈ calls, c.origin_station < n ∧ c.destination_station < n)
    (fuel : Nat) (hfuel : n ≤ fuel) :
    ∃ first second,
      buildOptimalRailwayNetworkWith sortFn fuel (buildNetwork n calls) = some first ∧
      buildOptimalRailwayNetworkWith sortFn fuel first.network = some second ∧
      (∀ i, i < n → (buildNetwork n calls).station_parent.getD i 0 = i) ∧
      first.network.all_railway_links = sortFn calls ∧
      UnionFindWellFormed n first.network ∧
      (∀ l ∈ calls, rootOf first.network.station_parent l.origin_station =
        rootOf first.network.station_parent l.destination_station) ∧
      second.mst_railway_tracks = [] ∧ second.total_track_length = Double.finite 0 ∧
      (second.mst_railway_tracks = first.mst_railway_tracks ↔
        ∀ l ∈ calls, l.origin_station = l.destination_station) := by
  obtain ⟨hlen, hwf, hroot⟩ := buildNetwork_unionFind n calls
  have hwfN := buildNetwork_wellFormed n calls
  have hlinks := (buildNetwork_frame n calls).2.1
  obtain ⟨hperm, -⟩ := hsort (buildNetwork n calls).all_railway_links
  rw [hlinks] at hperm
  have hfresh : ∀ i, i < n → (buildNetwork n calls).station_parent.getD i 0 = i := by
    intro i hi
    have h := rootOf_isRoot hwf (show i < (buildNetwork n calls).station_parent.length by
      rw [hlen]; exact hi)
    rw [hroot i hi] at h
    exact h.2
  obtain ⟨first, taken1, hrun1, -, hmst1, -, hframe1, hlen1, hrk1, hwf1, -, hjoin1, hnone1⟩ :=
    kruskalLoop_runs hfuel (sortFn (buildNetwork n calls).all_railway_links)
      { buildNetwork n calls with
        all_railway_links := sortFn (buildNetwork n calls).all_railway_links } [] (Double.finite 0)
      hlen hwf (fun l hl => hrange l (by rw [hlinks] at hl; exact hperm.subset hl))
  have hlinks1 : first.network.all_railway_links = sortFn calls := by
    rw [hframe1]
    show sortFn (buildNetwork n calls).all_railway_links = _
    rw [hlinks]
  have hrank1 : first.network.station_rank.length = n := hrk1.trans hwfN.2.1
  have hjoinCalls : ∀ l ∈ calls, rootOf first.network.station_parent l.origin_station =
      rootOf first.network.station_parent l.destination_station := by
    intro l hl
    exact hjoin1 l (by rw [hlinks]; exact hperm.symm.subset hl)
  obtain ⟨hperm2, -⟩ := hsort first.network.all_railway_links
  rw [hlinks1] at hperm2
  obtain ⟨second, taken2, hrun2, -, hmst2, htot2, -, -, -, -, -, -, hnone2⟩ :=
    kruskalLoop_runs hfuel (sortFn first.network.all_railway_links)
      { first.network with
        all_railway_links := sortFn first.network.all_railway_links } [] (Double.finite 0)
      hlen1 hwf1 (fun l hl => hrange l (by
        rw [hlinks1] at hl; exact hperm.subset (hperm2.subset hl)))
  have htaken2 : taken2 = [] :=
    hnone2 (fun l hl => hjoinCalls l (by
      rw [hlinks1] at hl; exact hperm.subset (hperm2.subset hl)))
  rw [htaken2, List.append_nil] at hmst2
  rw [htaken2] at htot2
  rw [List.nil_append] at hmst1
  refine ⟨first, second, hrun1, hrun2, hfresh, hlinks1,
    unionFind_of_wellFormedParents hlen1 hrank1 hwf1, hjoinCalls, hmst2, ?_, ?_⟩
  · rw [htot2]; rfl
  · rw [hmst2, hmst1]
    constructor
    · intro hempty l hl
      obtain ⟨out, hrunF, -, -, -, -, hconn⟩ :=
        buildOptimalRailwayNetworkWith_forest hsort hrange hfuel
      have hsame : out = first := by
        have h := hrunF.symm.trans hrun1
        simpa using h
      rw [hsame, hmst1, ← hempty, hlinks] at hconn
      exact connected_nil ((hconn _ _).mpr (connected_of_mem hl))
    · intro hloops
      exact (hnone1 (fun l hl => by
        have hl' : l ∈ calls := by rw [hlinks] at hl; exact hperm.subset hl
        show rootOf (buildNetwork n calls).station_parent _ =
          rootOf (buildNetwork n calls).station_parent _
        rw [hroot _ (hrange l hl').1, hroot _ (hrange l hl').2]
        exact hloops l hl')).symm

theorem second_call_returns_nothing_witness :
    ∃ first second,
      buildOptimalRailwayNetworkWith sortLinks 4
        (buildNetwork 4 [⟨0, 1, 10⟩, ⟨1, 2, 10⟩, ⟨0, 2, 5⟩, ⟨2, 3, 20⟩]) = some first ∧
      buildOptimalRailwayNetworkWith sortLinks 4 first.network = some second ∧
      (∀ i, i < 4 →
        (buildNetwork 4 [⟨0, 1, 10⟩, ⟨1, 2, 10⟩, ⟨0, 2, 5⟩, ⟨2, 3, 20⟩]).station_parent.getD
          i 0 = i) ∧
      first.network.all_railway_links =
        sortLinks [⟨0, 1, 10⟩, ⟨1, 2, 10⟩, ⟨0, 2, 5⟩, ⟨2, 3, 20⟩] ∧
      UnionFindWellFormed 4 first.network ∧
      (∀ l ∈ [RailwayLink.mk 0 1 10, ⟨1, 2, 10⟩, ⟨0, 2, 5⟩, ⟨2, 3, 20⟩],
        rootOf first.network.station_parent l.origin_station =
          rootOf first.network.station_parent l.destination_station) ∧
      second.mst_railway_tracks = [] ∧ second.total_track_length = Double.finite 0 ∧
      (second.mst_railway_tracks = first.mst_railway_tracks ↔
        ∀ l ∈ [RailwayLink.mk 0 1 10, ⟨1, 2, 10⟩, ⟨0, 2, 5⟩, ⟨2, 3, 20⟩],
          l.origin_station = l.destination_station) :=
  second_call_returns_nothing sortLinks sortLinks_isSortByDistance 4
    [⟨0, 1, 10⟩, ⟨1, 2, 10⟩, ⟨0, 2, 5⟩, ⟨2, 3, 20⟩] (by decide) 4 (by decide)

end Railway
